import Mathlib

/-!
Verification development for the pieceTree rich-text engine.

Two components of the repository are embedded:

* `PieceTreeSpec` — the mutation engine of `pieceTree.ts` (insert / delete /
  format / undo / redo together with its change history).  The underlying
  red-black tree of that engine (`pieceTreeBase.ts`, `pieceTreeNode.ts`) is not
  part of the sources; following the specification, the tree is modelled by its
  in-order sequence of pieces, which is the only aspect the mutation engine
  observes.  Character buffers are modelled as `List Char` (one entry per
  UTF-16 code unit of the original).
* `PieceNodeList` — the order-statistic red-black tree of `pieceNodeList.ts`
  (`find`, `get`, `splitNode`, rotations, insertion and deletion fix-ups).
-/

namespace PieceTreeSpec

/-! ### Metadata values and JSON patches -/

mutual
/-- JSON-like metadata value stored in `piece.meta` (`IPieceMeta`): scalars and
nested objects with ordered fields. -/
inductive MetaVal where
  | int (n : Int)
  | str (s : String)
  | boolean (b : Bool)
  | obj (fields : MetaFields)
deriving DecidableEq

/-- Ordered field list of a metadata object. -/
inductive MetaFields where
  | nil
  | cons (key : String) (value : MetaVal) (rest : MetaFields)
deriving DecidableEq
end

namespace MetaFields

/-- Value bound to `k`, if any. -/
def lookup : MetaFields → String → Option MetaVal
  | .nil, _ => none
  | .cons key v rest, k => if key = k then some v else rest.lookup k

/-- Replace the value bound to `k` (first occurrence), keeping field order. -/
def set : MetaFields → String → MetaVal → MetaFields
  | .nil, _, _ => .nil
  | .cons key v rest, k, nv => if key = k then .cons key nv rest else .cons key v (rest.set k nv)

/-- Add a binding at the end of the field list. -/
def append : MetaFields → String → MetaVal → MetaFields
  | .nil, k, nv => .cons k nv .nil
  | .cons key v rest, k, nv => .cons key v (rest.append k nv)

/-- Remove the binding of `k` (first occurrence). -/
def remove : MetaFields → String → MetaFields
  | .nil, _ => .nil
  | .cons key v rest, k => if key = k then rest else .cons key v (rest.remove k)

end MetaFields

/-- JSON-patch operation kinds produced by `mergeMeta`. -/
inductive PatchKind where
  | add
  | replace
  | remove
deriving DecidableEq

/-- A JSON patch `{op, path, value}` (immer patch format). -/
structure Patch where
  op : PatchKind
  path : List String
  value : Option MetaVal
deriving DecidableEq

/-- Write `v` at `path` inside `m`, creating nested objects along missing keys. -/
def MetaVal.setPath : MetaVal → List String → MetaVal → MetaVal
  | _, [], v => v
  | .obj fs, k :: rest, v =>
      match fs.lookup k with
      | some tv => .obj (fs.set k (tv.setPath rest v))
      | none =>
          let rec build : List String → MetaVal
            | [] => v
            | k2 :: r2 => .obj (.cons k2 (build r2) .nil)
          .obj (fs.append k (build rest))
  | m, _ :: _, _ => m

/-- Remove the binding at `path` inside `m`. -/
def MetaVal.removePath : MetaVal → List String → MetaVal
  | m, [] => m
  | .obj fs, [k] => .obj (fs.remove k)
  | .obj fs, k :: rest =>
      match fs.lookup k with
      | some tv => .obj (fs.set k (tv.removePath rest))
      | none => .obj fs
  | m, _ :: _ => m

/-- Modelled from the spec: the imported `applyPatches` of the immer library
(meta patches are immer JSON patches); applies one patch to a value. -/
def applyPatch (m : MetaVal) (p : Patch) : MetaVal :=
  match p.op with
  | .replace => match p.value with | some v => m.setPath p.path v | none => m
  | .add => match p.value with | some v => m.setPath p.path v | none => m
  | .remove => m.removePath p.path

/-- Modelled from the spec: immer `applyPatches`, folding patches left to right. -/
def applyPatches (m : MetaVal) (ps : List Patch) : MetaVal :=
  ps.foldl applyPatch m

/-- `true` when the value is a nested object. -/
def MetaVal.isObj : MetaVal → Bool
  | .obj _ => true
  | _ => false

mutual
/-- Modelled from the spec: `mergeMeta` of the missing `meta.ts` (§4.4 and the
`meta.test.ts` source test): recursively overlay `s` onto `t`, producing the
merged value together with forward and inverse JSON patches; inside an object,
nested objects are fully emitted before sibling scalars. -/
def mergeVal (t s : MetaVal) (path : List String) : MetaVal × List Patch × List Patch :=
  match t, s with
  | .obj tf, .obj sf =>
      let r1 := mergeObjPass tf sf path true
      let r2 := mergeObjPass r1.1 sf path false
      (.obj r2.1, r1.2.1 ++ r2.2.1, r1.2.2 ++ r2.2.2)
  | t, s =>
      if t = s then (t, [], [])
      else (s, [⟨.replace, path, some s⟩], [⟨.replace, path, some t⟩])

/-- One pass over the source fields: `objPhase = true` handles object-valued
entries, `objPhase = false` handles the scalar entries. -/
def mergeObjPass (tf : MetaFields) (sf : MetaFields) (path : List String) (objPhase : Bool) :
    MetaFields × List Patch × List Patch :=
  match sf with
  | .nil => (tf, [], [])
  | .cons k sv rest =>
      if sv.isObj = objPhase then
        match tf.lookup k with
        | some tv =>
            let r := mergeVal tv sv (path ++ [k])
            let rr := mergeObjPass (tf.set k r.1) rest path objPhase
            (rr.1, r.2.1 ++ rr.2.1, r.2.2 ++ rr.2.2)
        | none =>
            let rr := mergeObjPass (tf.append k sv) rest path objPhase
            (rr.1, ⟨.add, path ++ [k], some sv⟩ :: rr.2.1, ⟨.remove, path ++ [k], none⟩ :: rr.2.2)
      else mergeObjPass tf rest path objPhase
end

/-- Modelled from the spec: `mergeMeta(target, source)` returns
`(merged, forwardPatches, inversePatches)` or `null` when no patches were
produced; a `null` target merges like an empty object. -/
def mergeMeta (target : Option MetaVal) (source : MetaVal) :
    Option (MetaVal × List Patch × List Patch) :=
  let r := mergeVal (target.getD (.obj .nil)) source []
  if r.2.1 = [] then none else some r

/-! ### Pieces, diffs and changes (`piece.ts`, `diff.ts`, `change.ts`) -/

/-- Line-level diff kinds. -/
inductive DiffType where
  | insert
  | remove
  | replace
deriving DecidableEq

/-- A line-level diff `{type, lineNumber}`. -/
structure Diff where
  type : DiffType
  lineNumber : Nat
deriving DecidableEq

/-- `NodePiece` of `piece.ts`: a slice of one buffer plus metadata. -/
structure NodePiece where
  bufferIndex : Int
  start : Nat
  length : Nat
  lineFeedCnt : Nat
  meta : Option MetaVal := none
deriving DecidableEq

/-- `PieceType` of `piece.ts`; `ALL` is the unfiltered marker used by
`formatInner`. -/
inductive PieceType where
  | TEXT
  | NON_TEXT
  | LINE_FEED
  | ALL
deriving DecidableEq

/-- `determinePieceType` of `piece.ts`. -/
def determinePieceType (piece : NodePiece) : PieceType :=
  if piece.lineFeedCnt = 1 then .LINE_FEED
  else if piece.bufferIndex < 0 then .NON_TEXT
  else .TEXT

/-- `PiecePatch` recorded per formatted piece (the `inversePatches` field holds
whatever list `formatInner` stores there). -/
structure PiecePatch where
  startOffset : Nat
  length : Nat
  inversePatches : List Patch
deriving DecidableEq

/-- The three change kinds of `change.ts`.  An insert change stores the text as
a `(bufferIndex, start, length)` slice of the append buffer. -/
inductive Change where
  | insert (startOffset : Nat) (text : Nat × Nat × Nat) (meta : Option MetaVal) (diffs : List Diff)
  | delete (startOffset : Nat) (length : Nat) (pieces : List NodePiece) (diffs : List Diff)
  | format (startOffset : Nat) (length : Nat) (meta : MetaVal) (piecePatches : List PiecePatch)
      (diffs : List Diff)
deriving DecidableEq

/-- Modelled from the spec: `ChangeStack` of the missing `change.ts` (§4.5):
grouped undo and redo stacks, an open group while between `startChange` and
`endChange`, and a flag suppressing recording while a change is being
re-applied or inverted (without it, the inner mutations run by `undo`/`redo`
would clobber the history and break the spec's §8.5 round-trip). -/
structure ChangeStack where
  undoStack : List (List Change) := []
  redoStack : List (List Change) := []
  pending : Option (List Change) := none
  applying : Bool := false
deriving DecidableEq

/-- Record one change: appended to the open group if one exists, otherwise a
singleton group; any new mutation discards the redo stack. -/
def ChangeStack.push (cs : ChangeStack) (c : Change) : ChangeStack :=
  if cs.applying then cs
  else
    match cs.pending with
    | some l => { cs with pending := some (l ++ [c]), redoStack := [] }
    | none => { cs with undoStack := [c] :: cs.undoStack, redoStack := [] }

/-- Open a change group. -/
def ChangeStack.startChange (cs : ChangeStack) : ChangeStack :=
  { cs with pending := some [] }

/-- Close the open change group (possibly empty) onto the undo stack. -/
def ChangeStack.endChange (cs : ChangeStack) : ChangeStack :=
  match cs.pending with
  | some l => { cs with undoStack := l :: cs.undoStack, pending := none }
  | none => cs

/-! ### The piece tree state

The red-black tree of `pieceTreeBase.ts` / `pieceTreeNode.ts` is not among the
sources; per §4.2 its nodes, ordered by in-order traversal, carry the pieces,
and the mutation engine observes only that in-order sequence (`findByOffset`,
`insertFixedLeft`/`insertFixedRight`, `deleteNode`, `successor`,
`predecessor`).  The state therefore keeps the in-order list of pieces; a node
reference is an index into that list, `none` standing for the sentinel. -/

/-- Engine state: the buffer pool (index 0 is the append buffer), the in-order
piece sequence, and the change history. -/
structure PT where
  buffers : List (List Char)
  pieces : List NodePiece
  history : ChangeStack
deriving DecidableEq

/-- `computeLineFeedCnt` of `pieceTree.ts`: number of line feeds in a string. -/
def computeLineFeedCnt (str : List Char) : Nat := str.count '\n'

/-- The piece carried by the sentinel node: zero length, no line feeds. -/
def sentinelPiece : NodePiece := ⟨0, 0, 0, 0, none⟩

/-- Buffer selected by a piece's (possibly negative) buffer index. -/
def PT.bufAt (pt : PT) (bufferIndex : Int) : List Char :=
  if bufferIndex < 0 then [] else pt.buffers.getD bufferIndex.toNat []

/-- `getTextInBuffer`: empty for a negative buffer index, otherwise the
`[start, start+length)` window of the buffer. -/
def PT.getTextInBuffer (pt : PT) (bufferIndex : Int) (start length : Nat) : List Char :=
  if bufferIndex < 0 then [] else ((pt.bufAt bufferIndex).drop start).take length

/-- `getTextInPiece`. -/
def PT.getTextInPiece (pt : PT) (piece : NodePiece) : List Char :=
  pt.getTextInBuffer piece.bufferIndex piece.start piece.length

/-- Total size of the tree (sum of piece lengths over all nodes). -/
def PT.size (pt : PT) : Nat := (pt.pieces.map (·.length)).sum

/-- Total line-feed count of the tree. -/
def PT.lineFeedSum (pt : PT) : Nat := (pt.pieces.map (·.lineFeedCnt)).sum

/-- Piece of the referenced node (sentinel piece for `none` or out of range). -/
def PT.pieceAt (pt : PT) (node : Option Nat) : NodePiece :=
  match node with
  | none => sentinelPiece
  | some i => pt.pieces.getD i sentinelPiece

/-- In-order predecessor of a node reference. -/
def predIdx : Option Nat → Option Nat
  | none => none
  | some 0 => none
  | some (i + 1) => some i

/-- In-order successor of a node reference. -/
def PT.succIdx (pt : PT) (node : Option Nat) : Option Nat :=
  match node with
  | none => none
  | some i => if i + 1 < pt.pieces.length then some (i + 1) else none

/-- Text of a piece under a fixed buffer pool (empty for non-text pieces). -/
def textB (bufs : List (List Char)) (p : NodePiece) : List Char :=
  if p.bufferIndex < 0 then []
  else ((bufs.getD p.bufferIndex.toNat []).drop p.start).take p.length

/-- Concatenated text of a piece list under a fixed buffer pool. -/
def flatTexts (bufs : List (List Char)) (ps : List NodePiece) : List Char :=
  (ps.map (textB bufs)).flatten

/-- Sum of piece lengths of a piece list. -/
def sumL (ps : List NodePiece) : Nat := (ps.map (·.length)).sum

/-- Sum of piece line-feed counts of a piece list. -/
def sumF (ps : List NodePiece) : Nat := (ps.map (·.lineFeedCnt)).sum

/-- Well-formed piece list over a buffer pool: every piece has positive stored
length and its buffer window really holds that many characters (so there are
no non-text pieces and no out-of-range windows). -/
def wfPieces (bufs : List (List Char)) (ps : List NodePiece) : Prop :=
  ∀ p ∈ ps, 1 ≤ p.length ∧ (textB bufs p).length = p.length

/-- Result of `findByOffset`. -/
structure NodePos where
  node : Option Nat
  reminder : Nat
  startOffset : Nat
  startLineFeedCnt : Nat
deriving DecidableEq

/-- Descend the in-order sequence accumulating sizes, stopping at the piece
containing the offset (boundary offsets move to the following piece). -/
def findLoop : List NodePiece → Nat → Nat → Nat → Nat → NodePos
  | [], _, _, so, slf => ⟨none, 0, so, slf⟩
  | p :: rest, offset, i, so, slf =>
    if offset < p.length then ⟨some i, offset, so, slf⟩
    else findLoop rest (offset - p.length) (i + 1) (so + p.length) (slf + p.lineFeedCnt)

/-- Modelled from the spec: `findByOffset` of the missing `pieceTreeBase.ts`
(§4.2 `find_by_offset`, matching the in-src `PieceNodeList.find`): clamp to the
first node with reminder 0 for `offset ≤ 0`, to the last node with reminder its
length for `offset ≥ total size`; otherwise return the node containing the
offset together with the cumulative size and line-feed count preceding it. -/
def PT.findByOffset (pt : PT) (offset : Nat) : NodePos :=
  if pt.pieces.isEmpty then ⟨none, 0, 0, 0⟩
  else if offset = 0 then ⟨some 0, 0, 0, 0⟩
  else if pt.size ≤ offset then
    let last := pt.pieces.getLastD sentinelPiece
    ⟨some (pt.pieces.length - 1), last.length, pt.size - last.length,
      pt.lineFeedSum - last.lineFeedCnt⟩
  else findLoop pt.pieces offset 0 0 0

/-- Append text to the buffer-0 entry of the pool. -/
def appendBuf0 (buffers : List (List Char)) (txt : List Char) : List (List Char) :=
  match buffers with
  | [] => [txt]
  | b :: rest => (b ++ txt) :: rest

/-- Modelled from the spec: `insertFixedRight` of the missing tree base —
structural insertion making the new piece the reference node's immediate
in-order successor (§4.2 tie-breaks); on a sentinel reference the new node
becomes the root. -/
def PT.insertFixedRight (pt : PT) (node : Option Nat) (p : NodePiece) : PT × Nat :=
  match node with
  | none => ({ pt with pieces := [p] }, 0)
  | some i => ({ pt with pieces := pt.pieces.insertIdx (i + 1) p }, i + 1)

/-- Modelled from the spec: `insertFixedLeft` — structural insertion making the
new piece the reference node's immediate in-order predecessor. -/
def PT.insertFixedLeft (pt : PT) (node : Option Nat) (p : NodePiece) : PT × Nat :=
  match node with
  | none => ({ pt with pieces := [p] }, 0)
  | some i => ({ pt with pieces := pt.pieces.insertIdx i p }, i)

/-- Modelled from the spec: `deleteNode` — removes the node from the tree. -/
def PT.deleteNodeIdx (pt : PT) (node : Option Nat) : PT :=
  match node with
  | none => pt
  | some i => { pt with pieces := pt.pieces.eraseIdx i }

/-- Replace the piece of a node. -/
def PT.setPiece (pt : PT) (node : Option Nat) (p : NodePiece) : PT :=
  match node with
  | none => pt
  | some i => { pt with pieces := pt.pieces.set i p }

/-- Replace the meta of a node's piece. -/
def PT.setPieceMeta (pt : PT) (node : Option Nat) (m : Option MetaVal) : PT :=
  match node with
  | none => pt
  | some i =>
    match pt.pieces.get? i with
    | none => pt
    | some p => { pt with pieces := pt.pieces.set i { p with meta := m } }

/-- `createPiece` of `pieceTree.ts`: non-empty text is appended to the append
buffer and described by a buffer-0 piece; empty text yields a non-text piece
with buffer index −1 and stored length 1. -/
def PT.createPiece (pt : PT) (text : List Char) (meta : Option MetaVal) (lineFeedCnt : Nat) :
    NodePiece × PT :=
  if text = [] then (⟨-1, 0, 1, 0, meta⟩, pt)
  else
    (⟨0, (pt.buffers.headD []).length, text.length, lineFeedCnt, meta⟩,
      { pt with buffers := appendBuf0 pt.buffers text })

/-- `splitNode` of `pieceTree.ts`: scan the left buffer window for its
line-feed count, create the left piece, shrink the original piece in place and
insert the left piece immediately before it.  Returns the state together with
the indices of the left and right (original) node. -/
def PT.splitNode (pt : PT) (i reminder : Nat) : PT × Nat × Nat :=
  let p := pt.pieces.getD i sentinelPiece
  let leftStr := ((pt.bufAt p.bufferIndex).drop p.start).take reminder
  let leftLineFeedsCnt := computeLineFeedCnt leftStr
  let leftPiece : NodePiece := ⟨p.bufferIndex, p.start, reminder, leftLineFeedsCnt, p.meta⟩
  let p2 : NodePiece :=
    { p with
      start := p.start + reminder
      length := p.length - reminder
      lineFeedCnt := p.lineFeedCnt - leftLineFeedsCnt }
  ({ pt with pieces := (pt.pieces.set i p2).insertIdx i leftPiece }, i, i + 1)

/-- The left piece produced by `splitNode` on piece `p` at remainder `r`: same
buffer index and start, length `r`, line-feed count obtained by scanning the
left buffer window. -/
def splitLeftPiece (pt : PT) (p : NodePiece) (r : Nat) : NodePiece :=
  ⟨p.bufferIndex, p.start, r,
    computeLineFeedCnt (((pt.bufAt p.bufferIndex).drop p.start).take r), p.meta⟩

/-- The mutated original piece after `splitNode`: start shifted by `r`, length
shortened by `r`, line-feed count reduced by the left count. -/
def splitRightPiece (pt : PT) (p : NodePiece) (r : Nat) : NodePiece :=
  ⟨p.bufferIndex, p.start + r, p.length - r,
    p.lineFeedCnt - computeLineFeedCnt (((pt.bufAt p.bufferIndex).drop p.start).take r), p.meta⟩

/-- `recomputeLineFeedsCntInPiece`. -/
def PT.recomputeLineFeedsCntInPiece (pt : PT) (piece : NodePiece) : Nat :=
  if piece.bufferIndex < 0 ∨ (pt.buffers.length : Int) - 1 < piece.bufferIndex then 0
  else computeLineFeedCnt (((pt.bufAt piece.bufferIndex).drop piece.start).take piece.length)

/-- Record one change on the history. -/
def PT.pushChange (pt : PT) (c : Change) : PT :=
  { pt with history := pt.history.push c }

/-! ### insertInner -/

/-- Running state of the character walk inside `insertInner`. -/
structure InsState where
  pt : PT
  node : Option Nat
  txt : List Char
  lineFeedCnt : Nat

/-- Extend the node's piece by the accumulated run, appending it to the append
buffer (the continuous-append coalescing path). -/
def coalesceTxt (st : InsState) : InsState :=
  match st.node with
  | none => st
  | some i =>
    let p := st.pt.pieces.getD i sentinelPiece
    { st with
      pt :=
        { st.pt with
          buffers := appendBuf0 st.pt.buffers st.txt
          pieces := st.pt.pieces.set i { p with length := p.length + st.txt.length } } }

/-- Create a new piece from the accumulated run and insert it after the node. -/
def newTxtPiece (meta : Option MetaVal) (st : InsState) : InsState :=
  let r := st.pt.createPiece st.txt meta 0
  let r2 := r.2.insertFixedRight st.node r.1
  { st with pt := r2.1, node := some r2.2 }

/-- Flush the accumulated run: before any line feed was emitted, coalesce when
the continuous-append conditions hold, otherwise create a piece when the run is
non-empty or a meta was given; after a line feed, only a non-empty run creates
a piece. -/
def flushTxt (isContinousInput isEmptyMeta isNotLinkBreak : Bool) (meta : Option MetaVal)
    (st : InsState) : InsState :=
  if st.lineFeedCnt = 0 then
    if isContinousInput && isEmptyMeta && isNotLinkBreak && !st.txt.isEmpty then coalesceTxt st
    else if !st.txt.isEmpty || !isEmptyMeta then newTxtPiece meta st
    else st
  else if !st.txt.isEmpty then newTxtPiece meta st
  else st

/-- One step of the character walk: a line feed flushes the run and inserts a
fresh line-feed piece; any other character joins the run. -/
def insertStep (isContinousInput isEmptyMeta isNotLinkBreak : Bool) (meta : Option MetaVal)
    (st : InsState) (c : Char) : InsState :=
  if c = '\n' then
    let st1 := flushTxt isContinousInput isEmptyMeta isNotLinkBreak meta st
    let r := st1.pt.createPiece ['\n'] meta 1
    let r2 := r.2.insertFixedRight st1.node r.1
    ⟨r2.1, some r2.2, [], st1.lineFeedCnt + 1⟩
  else { st with txt := st.txt ++ [c] }

/-- The landing phase of `insertInner`: at a node boundary move to the
predecessor, strictly inside a node split it and take the left half, otherwise
(at or past the end) keep the node and add its line feeds to the running
line-feed count. -/
def PT.insertLand (pt0 : PT) (offset : Nat) : PT × Option Nat × Nat :=
  let pos := pt0.findByOffset offset
  if pos.startOffset = offset then
    (pt0, predIdx pos.node, pos.startLineFeedCnt)
  else if pos.startOffset < offset ∧ offset < pos.startOffset + (pt0.pieceAt pos.node).length then
    let r := pt0.splitNode (pos.node.getD 0) pos.reminder
    (r.1, some r.2.1, pos.startLineFeedCnt)
  else
    (pt0, pos.node, pos.startLineFeedCnt + (pt0.pieceAt pos.node).lineFeedCnt)

/-- `insertInner` of `pieceTree.ts`. -/
def PT.insertInner (pt0 : PT) (offset : Nat) (text : List Char)
    (meta : Option MetaVal := none) : PT × List Diff :=
  let isEmptyMeta := meta.isNone
  let branch := pt0.insertLand offset
  let pt1 := branch.1
  let node0 := branch.2.1
  let startLineFeedCnt := branch.2.2
  let p0 := pt1.pieceAt node0
  let isNotLinkBreak := p0.lineFeedCnt = 0
  let isContinousInput :=
    node0.isSome && (p0.bufferIndex = 0) && ((pt1.buffers.headD []).length = p0.start + p0.length)
  let stF := text.foldl (insertStep isContinousInput isEmptyMeta isNotLinkBreak meta)
    ⟨pt1, node0, [], 0⟩
  let stG := flushTxt isContinousInput isEmptyMeta isNotLinkBreak meta stF
  let diffs := (List.range (stG.lineFeedCnt + 1)).map fun i =>
    if i = 0 then (⟨DiffType.replace, startLineFeedCnt⟩ : Diff)
    else ⟨DiffType.insert, startLineFeedCnt + i⟩
  let change : Change :=
    .insert offset (0, (stG.pt.buffers.headD []).length - text.length, text.length) meta diffs
  (stG.pt.pushChange change, diffs)

/-! ### deleteInner -/

/-- The node-consuming loop of `deleteInner`; the fuel only serves totality
(each genuine iteration removes one node or ends the loop). -/
def deleteLoop : Nat → PT → Option Nat → Nat → List NodePiece → Nat → PT × List NodePiece × Nat
  | 0, pt, _, _, acc, lfc => (pt, acc, lfc)
  | fuel + 1, pt, node, length, acc, lfc =>
    if length = 0 then (pt, acc, lfc)
    else
      let p := pt.pieceAt node
      if length = p.length then
        (pt.deleteNodeIdx node, acc ++ [p], lfc + p.lineFeedCnt)
      else if p.length ≤ length then
        deleteLoop fuel (pt.deleteNodeIdx node) node (length - p.length) (acc ++ [p])
          (lfc + p.lineFeedCnt)
      else
        let p2 : NodePiece := { p with start := p.start + length, length := p.length - length }
        let newLf := pt.recomputeLineFeedsCntInPiece p2
        (pt.setPiece node { p2 with lineFeedCnt := newLf },
          acc ++ [⟨p.bufferIndex, p.start, length, p.lineFeedCnt - newLf, none⟩],
          lfc + (p.lineFeedCnt - newLf))

/-- The landing phase of `deleteInner`: when the offset is not a node start,
either advance to the successor (offset at the node end) or split the node and
continue with the right half. -/
def PT.deleteLand (pt0 : PT) (offset : Nat) : PT × Option Nat :=
  let pos := pt0.findByOffset offset
  if offset ≠ pos.startOffset then
    let reminder := offset - pos.startOffset
    if reminder = (pt0.pieceAt pos.node).length then (pt0, pt0.succIdx pos.node)
    else
      let r := pt0.splitNode (pos.node.getD 0) reminder
      (r.1, some r.2.2)
  else (pt0, pos.node)

/-- `deleteInner` of `pieceTree.ts`. -/
def PT.deleteInner (pt0 : PT) (offset length : Nat) : PT × List Diff :=
  let originalLength := length
  let pos := pt0.findByOffset offset
  let branch := pt0.deleteLand offset
  let r := deleteLoop (branch.1.pieces.length + 1) branch.1 branch.2 length [] 0
  let diffs := (List.range (r.2.2 + 1)).map fun i =>
    if i = 0 then (⟨DiffType.replace, pos.startLineFeedCnt + i⟩ : Diff)
    else ⟨DiffType.remove, pos.startLineFeedCnt + i⟩
  let change : Change := .delete offset originalLength r.2.1 diffs
  (r.1.pushChange change, diffs)

/-! ### formatInner -/

/-- The node walk of `formatInner`.  Note that it stores the *second* component
of the `mergeMeta` triple in the `inversePatches` field of the recorded
`PiecePatch`, exactly as the source destructuring
`const [target, inversePatches] = mergeResult` does. -/
def formatLoop : Nat → PT → Option Nat → Nat → Nat → MetaVal → PieceType → List PiecePatch →
    Nat → PT × List PiecePatch × Nat
  | 0, pt, _, _, _, _, _, acc, lfc => (pt, acc, lfc)
  | fuel + 1, pt, node, length, offset, meta, type, acc, lfc =>
    if length = 0 then (pt, acc, lfc)
    else
      let p := pt.pieceAt node
      if type ≠ PieceType.ALL ∧ determinePieceType p ≠ type then
        formatLoop fuel pt (pt.succIdx node) (length - p.length) (offset + p.length) meta type
          acc lfc
      else if p.length ≤ length then
        match mergeMeta p.meta meta with
        | some r =>
          let target := r.1
          let inversePatches := r.2.1
          let pt2 := pt.setPieceMeta node (some target)
          formatLoop fuel pt2 (pt2.succIdx node) (length - p.length) (offset + p.length) meta type
            (acc ++ [⟨offset, p.length, inversePatches⟩]) (lfc + p.lineFeedCnt)
        | none =>
          formatLoop fuel pt (pt.succIdx node) (length - p.length) (offset + p.length) meta type
            acc (lfc + p.lineFeedCnt)
      else
        let rs := pt.splitNode (node.getD 0) length
        let pt1 := rs.1
        let li := rs.2.1
        let p2 := pt1.pieceAt (some li)
        match mergeMeta p2.meta meta with
        | some r =>
          let target := r.1
          let inversePatches := r.2.1
          let pt2 := pt1.setPieceMeta (some li) (some target)
          formatLoop fuel pt2 (some li) (length - p2.length) (offset + p2.length) meta type
            (acc ++ [⟨offset, p2.length, inversePatches⟩]) (lfc + p2.lineFeedCnt)
        | none =>
          formatLoop fuel pt1 (some li) (length - p2.length) (offset + p2.length) meta type
            acc (lfc + p2.lineFeedCnt)

/-- The landing phase of `formatInner`. -/
def PT.formatLand (pt0 : PT) (offset : Nat) : PT × Option Nat × Nat :=
  let pos := pt0.findByOffset offset
  if pos.reminder = (pt0.pieceAt pos.node).length then
    let node2 := pt0.succIdx pos.node
    (pt0, node2, pos.startLineFeedCnt + (pt0.pieceAt node2).lineFeedCnt)
  else if 0 < pos.reminder ∧ pos.reminder < (pt0.pieceAt pos.node).length then
    let reminder := offset - pos.startOffset
    let rs := pt0.splitNode (pos.node.getD 0) reminder
    (rs.1, some rs.2.2, pos.startLineFeedCnt + (rs.1.pieceAt (some rs.2.1)).lineFeedCnt)
  else (pt0, pos.node, pos.startLineFeedCnt)

/-- `formatInner` of `pieceTree.ts`. -/
def PT.formatInner (pt0 : PT) (offset length : Nat) (meta : MetaVal)
    (type : PieceType := PieceType.ALL) : PT × List Diff :=
  let originalOffset := offset
  let originalLength := length
  let branch := pt0.formatLand offset
  let r := formatLoop (branch.1.pieces.length + 1) branch.1 branch.2.1 length offset meta type [] 0
  let diffs := (List.range (r.2.2 + 1)).map fun i =>
    (⟨DiffType.replace, branch.2.2 + i⟩ : Diff)
  let change : Change := .format originalOffset originalLength meta r.2.1 diffs
  (r.1.pushChange change, diffs)

/-! ### Undo / redo -/

/-- Re-insert captured pieces each immediately before the reference node (used
when the deletion point is the start of the first node). -/
def insertPiecesLeftLoop (pt : PT) (i : Nat) : List NodePiece → PT
  | [] => pt
  | p :: rest => insertPiecesLeftLoop { pt with pieces := pt.pieces.insertIdx i p } (i + 1) rest

/-- Re-insert captured pieces successively after the reference node. -/
def insertPiecesRightLoop (pt : PT) (j : Nat) : List NodePiece → PT
  | [] => pt
  | p :: rest =>
    insertPiecesRightLoop { pt with pieces := pt.pieces.insertIdx (j + 1) p } (j + 1) rest

/-- `doUndo` of `pieceTree.ts`: invert one recorded change. -/
def PT.doUndo (pt : PT) (c : Change) : PT × List Diff :=
  match c with
  | .insert startOffset text _meta diffs =>
    let r := pt.deleteInner startOffset text.2.2
    (r.1, diffs.map fun d => if d.type = DiffType.insert then { d with type := .remove } else d)
  | .delete startOffset _length pieces diffs =>
    let pos := pt.findByOffset startOffset
    let pt2 :=
      if pos.startOffset = startOffset then
        match predIdx pos.node with
        | none => insertPiecesLeftLoop pt (pos.node.getD 0) pieces
        | some j => insertPiecesRightLoop pt j pieces
      else if pos.reminder = (pt.pieceAt pos.node).length then
        insertPiecesRightLoop pt (pos.node.getD 0) pieces
      else pt
    (pt2, diffs.map fun d => if d.type = DiffType.remove then { d with type := .insert } else d)
  | .format _ _ _ piecePatches diffs =>
    let pt2 := piecePatches.foldl
      (fun pt patch =>
        let pos := pt.findByOffset patch.startOffset
        let node :=
          if pos.reminder = (pt.pieceAt pos.node).length then pt.succIdx pos.node else pos.node
        pt.setPieceMeta node
          (some (applyPatches ((pt.pieceAt node).meta.getD (.obj .nil)) patch.inversePatches)))
      pt
    (pt2, diffs)

/-- `doRedo` of `pieceTree.ts`: re-apply one recorded change. -/
def PT.doRedo (pt : PT) (c : Change) : PT × List Diff :=
  match c with
  | .insert startOffset text meta _ =>
    let txt := pt.getTextInBuffer (Int.ofNat text.1) text.2.1 text.2.2
    pt.insertInner startOffset txt meta
  | .delete startOffset length _ _ => pt.deleteInner startOffset length
  | .format startOffset length meta _ _ => pt.formatInner startOffset length meta

/-- `undo`: pop one group, invert its changes in reverse order with recording
suppressed, move the group to the redo stack and return the flipped diffs. -/
def PT.undo (pt : PT) : PT × List Diff :=
  match pt.history.undoStack with
  | [] => (pt, [])
  | g :: rest =>
    let ptA : PT := { pt with history := { pt.history with undoStack := rest, applying := true } }
    let r := g.reverse.foldl
      (fun (acc : PT × List Diff) c =>
        let s := acc.1.doUndo c
        (s.1, acc.2 ++ s.2))
      (ptA, [])
    ({ r.1 with history :=
        { r.1.history with applying := false, redoStack := g :: r.1.history.redoStack } }, r.2)

/-- `redo`: pop one group from the redo stack, re-apply its changes in original
order with recording suppressed and move the group back to the undo stack. -/
def PT.redo (pt : PT) : PT × List Diff :=
  match pt.history.redoStack with
  | [] => (pt, [])
  | g :: rest =>
    let ptA : PT := { pt with history := { pt.history with redoStack := rest, applying := true } }
    let r := g.foldl
      (fun (acc : PT × List Diff) c =>
        let s := acc.1.doRedo c
        (s.1, acc.2 ++ s.2))
      (ptA, [])
    ({ r.1 with history :=
        { r.1.history with applying := false, undoStack := g :: r.1.history.undoStack } }, r.2)

/-! ### Public operations and queries -/

/-- Public `insert`: the source clamps `offset ≤ 0` to 1 and otherwise adds 1
(the leading line-feed bias); on natural numbers both cases are `offset + 1`. -/
def PT.insert (pt : PT) (offset : Nat) (text : List Char)
    (meta : Option MetaVal := none) : PT × List Diff :=
  pt.insertInner (offset + 1) text meta

/-- Public `delete` (same offset bias as `insert`). -/
def PT.delete (pt : PT) (offset length : Nat) : PT × List Diff :=
  pt.deleteInner (offset + 1) length

/-- Public `format` (same offset bias; the `FIRST_LINE_SPECIAL_SYMBOL` branch
is not modelled — no claim mentions it). -/
def PT.format (pt : PT) (offset length : Nat) (meta : MetaVal) : PT × List Diff :=
  pt.formatInner (offset + 1) length meta

/-- `insertNonText`: insert an empty text with a meta. -/
def PT.insertNonText (pt : PT) (offset : Nat) (meta : MetaVal) : PT × List Diff :=
  pt.insert offset [] (some meta)

/-- `startChange`. -/
def PT.startChange (pt : PT) : PT := { pt with history := pt.history.startChange }

/-- `endChange`. -/
def PT.endChange (pt : PT) : PT := { pt with history := pt.history.endChange }

/-- `getPieces`: `forEachPiece` starts at the successor of the first in-order
node, so the leading piece is skipped. -/
def PT.getPieces (pt : PT) : List (List Char × Nat × Option MetaVal) :=
  (pt.pieces.drop 1).map fun p => (pt.getTextInPiece p, p.length, p.meta)

/-- `getText`: concatenation of the piece texts behind the leading piece. -/
def PT.getText (pt : PT) : List Char :=
  ((pt.pieces.drop 1).map pt.getTextInPiece).flatten

/-- Modelled from the spec: `getLength` of the missing tree base — the length
of the user content, excluding the leading line-feed sentinel piece (matching
its use in `deleteLine`). -/
def PT.getLength (pt : PT) : Nat := ((pt.pieces.drop 1).map (·.length)).sum

/-- The pristine engine state before the constructor runs: one empty append
buffer, no pieces, empty history. -/
def emptyPT : PT := ⟨[[]], [], ⟨[], [], none, false⟩⟩

/-- The `PieceTree` constructor without initial lines: seed with a single
line-feed piece through the public `insert`. -/
def mkTree : PT := (emptyPT.insert 0 ['\n'] none).1

/-! ### Grouped mutations and `change(fn)` -/

/-- A public mutation call. -/
inductive Mutation where
  | ins (offset : Nat) (text : List Char) (meta : Option MetaVal)
  | del (offset : Nat) (length : Nat)
  | fmt (offset : Nat) (length : Nat) (meta : MetaVal)

/-- Apply one public mutation, dropping the returned diffs. -/
def PT.applyMutation (pt : PT) : Mutation → PT
  | .ins o t m => (pt.insert o t m).1
  | .del o l => (pt.delete o l).1
  | .fmt o l m => (pt.format o l m).1

/-- `change(callback)`: the callback is modelled by the list of mutations it
executes before returning or throwing and a flag telling whether it throws; the
source wraps the callback in try/catch with an empty handler, so the state
transformation is the same in both cases and the group is always closed. -/
def PT.change (pt : PT) (executed : List Mutation) (_throws : Bool) : PT :=
  ((executed.foldl PT.applyMutation pt.startChange)).endChange

end PieceTreeSpec

namespace PieceNodeList

/-! ### The order-statistic red-black tree of `pieceNodeList.ts`

Nodes are modelled as an inductive binary tree whose nodes carry the piece,
the colour and the six stored aggregate fields; the sentinel is the leaf.
`pieceNode.ts` itself is not among the sources; following the specification,
a node's own `size` is its piece's length and its own `lineFeedCnt` is its
piece's line-feed count, and `lefest`/`rightest` descend to the outermost
child. -/

/-- Modelled from the spec: the `Piece` value of the missing `pieceNode.ts`;
`pieceType` is an opaque tag merely copied around by `splitNode`. -/
structure NPiece where
  bufferIndex : Int
  start : Nat
  length : Nat
  lineFeedCnt : Nat
  meta : Option PieceTreeSpec.MetaVal := none
  pieceType : Nat := 0
deriving DecidableEq

/-- Node colour. -/
inductive NColor where
  | red
  | black
deriving DecidableEq

/-- Payload of one tree node: piece, colour and the six stored aggregates. -/
structure NData where
  piece : NPiece
  color : NColor := .black
  leftSize : Nat := 0
  rightSize : Nat := 0
  leftLineFeedCnt : Nat := 0
  rightLineFeedCnt : Nat := 0
  leftNodeCnt : Nat := 0
  rightNodeCnt : Nat := 0
deriving DecidableEq

/-- The tree; `nil` is the sentinel. -/
inductive NTree where
  | nil
  | node (l : NTree) (d : NData) (r : NTree)
deriving DecidableEq

/-- Payload of the root (sentinel data when empty: black, zero aggregates). -/
def sentinelD : NData := { piece := ⟨0, 0, 0, 0, none, 0⟩ }

/-- Root payload of a tree. -/
def NTree.rootData : NTree → NData
  | .nil => sentinelD
  | .node _ d _ => d

/-- The list-level `size` getter: `root.leftSize + root.rightSize + root.size`. -/
def listSize (t : NTree) : Nat :=
  t.rootData.leftSize + t.rootData.rightSize + t.rootData.piece.length

/-- The list-level `nodeCnt` getter:
`root.leftNodeCnt + root.rightNodeCnt + 1`. -/
def listNodeCnt (t : NTree) : Nat :=
  t.rootData.leftNodeCnt + t.rootData.rightNodeCnt + 1

/-- The list-level `lineFeedCnt` getter. -/
def listLineFeedCnt (t : NTree) : Nat :=
  t.rootData.leftLineFeedCnt + t.rootData.rightLineFeedCnt + t.rootData.piece.lineFeedCnt

/-- Modelled from the spec: `lefest` of the missing `pieceNode.ts` — descend to
the leftmost node (the sentinel on an empty tree). -/
def NTree.lefest : NTree → NTree
  | .nil => .nil
  | .node .nil d r => .node .nil d r
  | .node (.node ll ld lr) _ _ => NTree.lefest (.node ll ld lr)

/-- Modelled from the spec: `rightest` — descend to the rightmost node. -/
def NTree.rightest : NTree → NTree
  | .nil => .nil
  | .node l d .nil => .node l d .nil
  | .node _ _ (.node rl rd rr) => NTree.rightest (.node rl rd rr)

/-- In-order sequence of pieces. -/
def NTree.inorder : NTree → List NPiece
  | .nil => []
  | .node l d r => l.inorder ++ d.piece :: r.inorder

/-- Sum of piece lengths. -/
def sumLen (ps : List NPiece) : Nat := (ps.map (·.length)).sum

/-- Sum of piece line-feed counts. -/
def sumLF (ps : List NPiece) : Nat := (ps.map (·.lineFeedCnt)).sum

/-- Aggregate integrity: every non-sentinel node's six stored aggregate fields
equal the actual sums and counts over its subtrees. -/
def aggOk : NTree → Bool
  | .nil => true
  | .node l d r =>
    aggOk l && aggOk r &&
    (d.leftSize = sumLen l.inorder) && (d.rightSize = sumLen r.inorder) &&
    (d.leftLineFeedCnt = sumLF l.inorder) && (d.rightLineFeedCnt = sumLF r.inorder) &&
    (d.leftNodeCnt = l.inorder.length) && (d.rightNodeCnt = r.inorder.length)

/-- Result of `find`. -/
structure NPos where
  node : NTree
  reminder : Nat
  startOffset : Nat
  startLineFeedCnt : Nat
deriving DecidableEq

/-- The descent loop of `PieceNodeList.find` (lines 100–117): left when the
left aggregate exceeds the offset, stop inside the current node, otherwise
descend right with the accumulators increased (stopping early when the right
child is the sentinel). -/
def findLoop : NTree → Nat → Nat → Nat → NPos
  | .nil, _, so, slf => ⟨.nil, 0, so, slf⟩
  | .node l d r, offset, so, slf =>
    if offset < d.leftSize then findLoop l offset so slf
    else if offset < d.leftSize + d.piece.length then
      ⟨.node l d r, offset - d.leftSize, so + d.leftSize, slf + d.leftLineFeedCnt⟩
    else if r = .nil then ⟨.node l d r, 0, so, slf⟩
    else
      findLoop r (offset - (d.leftSize + d.piece.length)) (so + d.leftSize + d.piece.length)
        (slf + d.leftLineFeedCnt + d.piece.lineFeedCnt)

/-- `PieceNodeList.find(offset)` (lines 83–120). -/
def find (t : NTree) (offset : Int) : NPos :=
  if offset ≤ 0 then ⟨t.lefest, 0, 0, 0⟩
  else if (listSize t : Int) ≤ offset then
    let lastNode := t.rightest
    ⟨lastNode, lastNode.rootData.piece.length, listSize t - lastNode.rootData.piece.length,
      listLineFeedCnt t - lastNode.rootData.piece.lineFeedCnt⟩
  else findLoop t offset.toNat 0 0

/-- The descent loop of `PieceNodeList.get` (lines 61–73), exactly as written:
descend left when `leftNodeCnt > index`, stop when `leftNodeCnt + 1 === index`,
otherwise descend right after subtracting `leftLineFeedCnt` and 1 from the
index. -/
def getLoop : NTree → Int → NTree
  | .nil, _ => .nil
  | .node l d r, index =>
    if index < (d.leftNodeCnt : Int) then getLoop l index
    else if (d.leftNodeCnt : Int) + 1 = index then .node l d r
    else getLoop r (index - d.leftLineFeedCnt - 1)

/-- `PieceNodeList.get(index)` (lines 57–76): run the loop only when
`0 < index ≤ nodeCnt`; the initial `node = this.root` is returned otherwise. -/
def get (t : NTree) (index : Int) : NTree :=
  if 0 < index ∧ index ≤ (listNodeCnt t : Int) then getLoop t index else t

/-- The piece-level effect of `PieceNodeList.splitNode` (lines 130–141): the
left piece takes the `[start, start+offset)` window with `lineFeedCnt` set to
0, and the original piece is shifted by `offset` with its `lineFeedCnt`
decreased by 0. -/
def splitNodePieces (piece : NPiece) (offset : Nat) : NPiece × NPiece :=
  let leftPiece : NPiece :=
    ⟨piece.bufferIndex, piece.start, offset, 0, piece.meta, piece.pieceType⟩
  let updated : NPiece :=
    { piece with
      start := piece.start + offset
      length := piece.length - offset
      lineFeedCnt := piece.lineFeedCnt - 0 }
  (leftPiece, updated)

/-- Text of a piece over a buffer pool (empty for a negative buffer index). -/
def pieceTextIn (buffers : List (List Char)) (p : NPiece) : List Char :=
  if p.bufferIndex < 0 then []
  else ((buffers.getD p.bufferIndex.toNat []).drop p.start).take p.length

/-- Stored node count of a subtree — `leftNodeCnt + rightNodeCnt + 1` of its
root, 0 for the sentinel. -/
def storedNodeCnt : NTree → Nat
  | .nil => 0
  | .node _ d _ => d.leftNodeCnt + d.rightNodeCnt + 1

/-- Modelled from the spec: `updateMeta` of the missing `pieceNode.ts` —
recompute a node's six aggregate fields from its children's stored aggregates
(each child contributes `leftX + rightX + own`); called by the rotations on
the two pivoted nodes and by `updateMetaUpward` on each ancestor. -/
def NData.updateMeta (d : NData) (l r : NTree) : NData :=
  { d with
    leftSize := listSize l
    rightSize := listSize r
    leftLineFeedCnt := listLineFeedCnt l
    rightLineFeedCnt := listLineFeedCnt r
    leftNodeCnt := storedNodeCnt l
    rightNodeCnt := storedNodeCnt r }

/-- `leftRotate` of `pieceNodeList.ts` (lines 395–424) as a subtree
transformation: the right child `y` pivots above `x`, `y`'s left subtree `b`
becomes `x`'s right subtree, then `x.updateMeta(); y.updateMeta()` recompute
the two pivoted nodes; every other node keeps its stored aggregates.  A node
without a right child is returned unchanged (the source never rotates there). -/
def NTree.leftRotate : NTree → NTree
  | .node a dx (.node b dy c) =>
    .node (.node a (dx.updateMeta a b) b)
      (dy.updateMeta (.node a (dx.updateMeta a b) b) c) c
  | t => t

/-- `rightRotate` (lines 432–463): mirror image, `y.updateMeta(); x.updateMeta()`. -/
def NTree.rightRotate : NTree → NTree
  | .node (.node a dx b) dy c =>
    .node a (dx.updateMeta a (.node b (dy.updateMeta b c) c))
      (.node b (dy.updateMeta b c) c)
  | t => t

/-- Recolour the root of a subtree (`toRed`/`toBlack`/`color :=` in the
fix-ups): aggregates untouched. -/
def NTree.setColor : NTree → NColor → NTree
  | .nil, _ => .nil
  | .node l d r, c => .node l { d with color := c } r

/-- Which child the focus of a zipper frame is. -/
inductive NDir where
  | left
  | right
deriving DecidableEq

/-- Rebuild the tree from a focused subtree and its ancestor frames (direction
of the focus, the ancestor's payload, the sibling subtree), leaving every
ancestor's stored aggregates as they are — the zipper rendering of the
source's parent pointers. -/
def plug : NTree → List (NDir × NData × NTree) → NTree
  | t, [] => t
  | t, (.left, d, s) :: ctx => plug (.node t d s) ctx
  | t, (.right, d, s) :: ctx => plug (.node s d t) ctx

/-- Rebuild while recomputing every ancestor's aggregates from its children
(the ascending `update_meta` calls of `updateMetaUpward`). -/
def plugUp : NTree → List (NDir × NData × NTree) → NTree
  | t, [] => t
  | t, (.left, d, s) :: ctx => plugUp (.node t (d.updateMeta t s) s) ctx
  | t, (.right, d, s) :: ctx => plugUp (.node s (d.updateMeta s t) t) ctx

/-- Recompute the aggregates of the focus itself (the first `update_meta` of
`updateMetaUpward(x)`, on `x`). -/
def NTree.updateMetaRoot : NTree → NTree
  | .nil => .nil
  | .node l d r => .node l (d.updateMeta l r) r

/-- Modelled from the spec: `updateMetaUpward(x)` of the missing
`pieceNode.ts` — recompute the aggregates of `x` and of each ancestor up to
the root. -/
def updateMetaUpward (t : NTree) (ctx : List (NDir × NData × NTree)) : NTree :=
  plugUp t.updateMetaRoot ctx

/-- Aggregate integrity of every frame's sibling subtree. -/
def ctxOk : List (NDir × NData × NTree) → Bool
  | [] => true
  | (_, _, s) :: ctx => aggOk s && ctxOk ctx

/-- Both children aggregate-correct; the focus's own stored fields may be
stale. -/
def aggOkChildren : NTree → Bool
  | .nil => true
  | .node l _ r => aggOk l && aggOk r

end PieceNodeList

/-! ### Concrete states used by the scenario theorems -/

namespace PieceTreeSpec

/-- The flat meta object `{age: n}`. -/
def ageMeta (n : Int) : MetaVal := .obj (.cons "age" (.int n) .nil)

/-- State after `insert(0, "ab", {age: 10})` on a fresh tree. -/
def C2pre : PT := (mkTree.insert 0 ['a', 'b'] (some (ageMeta 10))).1

/-- `C2pre` after `format(0, 2, {age: 11})`. -/
def C2post : PT := (C2pre.format 0 2 (ageMeta 11)).1

/-- Fresh tree after `insert(0, "ab")`. -/
def X1 : PT := (mkTree.insert 0 ['a', 'b'] none).1

/-- `X1` after `insert(1, "X")` (splits the `"ab"` piece). -/
def X2 : PT := (X1.insert 1 ['X'] none).1

/-- `X1` after `insert(0, "", {age: 7})` (a non-text piece). -/
def Y2 : PT := (X1.insertNonText 0 (ageMeta 7)).1

/-- Fresh tree after `insert(0, "a")`. -/
def Ta : PT := (mkTree.insert 0 ['a'] none).1

/-- Fresh tree after `insert(0, "hello")`. -/
def H1 : PT := (mkTree.insert 0 "hello".toList none).1

/-- `H1` after `insert(5, " world")`. -/
def H2 : PT := (H1.insert 5 " world".toList none).1

/-- A two-piece state over the buffer `"\nab"` used to witness the split law. -/
def splitPT : PT :=
  ⟨[['\n', 'a', 'b']], [⟨0, 0, 1, 1, none⟩, ⟨0, 1, 2, 0, none⟩], ⟨[], [], none, false⟩⟩

end PieceTreeSpec

namespace PieceNodeList

/-- A leaf node (both children sentinel) with correct (zero) aggregates. -/
def leafN (p : NPiece) : NTree := .node .nil { piece := p } .nil

/-- A length-1 piece used by the `get` counterexample tree. -/
def pA : NPiece := ⟨0, 0, 1, 0, none, 0⟩

/-- A second length-1 piece. -/
def pB : NPiece := ⟨0, 1, 1, 0, none, 0⟩

/-- A two-node tree whose root has one left child; all aggregate fields are
correct. -/
def twoTree : NTree :=
  .node (leafN pA) { piece := pB, leftSize := 1, leftNodeCnt := 1 } .nil

/-- The buffer `"a\nb"` for the split counterexample. -/
def splitBuf : List Char := ['a', '\n', 'b']

/-- A piece covering the whole of `splitBuf` (one line feed). -/
def pSplit : NPiece := ⟨0, 0, 3, 1, none, 0⟩

/-- Aggregate-correct two-node tree (root with a left child) used to witness
the `find` theorem: pieces of lengths 2 and 3. -/
def findTree : NTree :=
  .node (leafN ⟨0, 0, 2, 0, none, 0⟩)
    { piece := ⟨0, 2, 3, 0, none, 0⟩, leftSize := 2, leftNodeCnt := 1 } .nil

/-- A third length-1 piece. -/
def pC : NPiece := ⟨0, 2, 1, 0, none, 0⟩

/-- Aggregate-correct two-node tree whose root has one right child (a shape on
which `leftRotate` genuinely pivots). -/
def rotTree : NTree :=
  .node .nil { piece := pA, rightSize := 1, rightNodeCnt := 1 } (leafN pB)


end PieceNodeList

/-! ## Claim theorems -/

open PieceTreeSpec

/-- C2 (code bug): `formatInner` destructures `const [target, inversePatches] =
mergeResult`, i.e. it stores the *forward* (second) component of the
`mergeMeta` triple in the recorded `PiecePatch`, and `doUndo` then applies that
list.  At the failing input — `insert(0, "ab", {age:10})`, then
`format(0, 2, {age:11})`, then `undo()` — `mergeMeta` returns the triple with
forward `[replace /age 11]` and inverse `[replace /age 10]`, the recorded
`PiecePatch` holds the forward component, and after the undo the piece's meta
is still `{age:11}` instead of the pre-format `{age:10}`. -/
theorem C2_format_undo_applies_forward_patches :
    C2pre.pieces.map (·.meta) = [none, some (ageMeta 10)] ∧
    mergeMeta (some (ageMeta 10)) (ageMeta 11) =
      some (ageMeta 11, [⟨.replace, ["age"], some (.int 11)⟩],
        [⟨.replace, ["age"], some (.int 10)⟩]) ∧
    C2post.history.undoStack.headD [] =
      [Change.format 1 2 (ageMeta 11)
        [⟨1, 2, [⟨.replace, ["age"], some (.int 11)⟩]⟩] [⟨.replace, 1⟩]] ∧
    (C2post.undo).1.pieces.map (·.meta) = [none, some (ageMeta 11)] ∧
    (C2post.undo).1.pieces.map (·.meta) ≠ [none, some (ageMeta 10)] :=
  ⟨by decide, by decide, by decide, by decide, by decide⟩

/-- C5 (code bug): on the aggregate-correct two-node tree whose root has a
left child, `get 1` descends right (subtracting `leftLineFeedCnt` instead of
`leftNodeCnt`, and with the off-by-one left-descent guard) and returns the
sentinel even though index 1 is in range and the rank-1 node is the left child
carrying `pA`; and for an out-of-range index the code returns the root, not the
sentinel. -/
theorem C5_get_rank_bug :
    PieceNodeList.aggOk PieceNodeList.twoTree = true ∧
    PieceNodeList.listNodeCnt PieceNodeList.twoTree = 2 ∧
    PieceNodeList.twoTree.inorder = [PieceNodeList.pA, PieceNodeList.pB] ∧
    PieceNodeList.get PieceNodeList.twoTree 1 = PieceNodeList.NTree.nil ∧
    PieceNodeList.get PieceNodeList.twoTree 0 = PieceNodeList.twoTree ∧
    PieceNodeList.twoTree ≠ PieceNodeList.NTree.nil :=
  ⟨by decide, by decide, by decide, by decide, by decide, by decide⟩

namespace PieceNodeList

theorem sumLen_append (a b : List NPiece) : sumLen (a ++ b) = sumLen a + sumLen b := by
  simp [sumLen]

theorem sumLF_append (a b : List NPiece) : sumLF (a ++ b) = sumLF a + sumLF b := by
  simp [sumLF]

theorem sumLen_cons (p : NPiece) (b : List NPiece) : sumLen (p :: b) = p.length + sumLen b := by
  simp [sumLen]

theorem sumLF_cons (p : NPiece) (b : List NPiece) : sumLF (p :: b) = p.lineFeedCnt + sumLF b := by
  simp [sumLF]

theorem aggOk_node {l : NTree} {d : NData} {r : NTree} (h : aggOk (.node l d r) = true) :
    aggOk l = true ∧ aggOk r = true ∧ d.leftSize = sumLen l.inorder ∧
    d.rightSize = sumLen r.inorder ∧ d.leftLineFeedCnt = sumLF l.inorder ∧
    d.rightLineFeedCnt = sumLF r.inorder ∧ d.leftNodeCnt = l.inorder.length ∧
    d.rightNodeCnt = r.inorder.length := by
  simp only [aggOk, Bool.and_eq_true, decide_eq_true_eq] at h
  tauto

theorem listSize_eq {t : NTree} (h : aggOk t = true) : listSize t = sumLen t.inorder := by
  cases t with
  | nil => rfl
  | node l d r =>
    obtain ⟨_, _, h3, h4, _⟩ := aggOk_node h
    simp [listSize, NTree.rootData, NTree.inorder, sumLen_append, sumLen_cons, h3, h4]
    omega

theorem listLF_eq {t : NTree} (h : aggOk t = true) : listLineFeedCnt t = sumLF t.inorder := by
  cases t with
  | nil => rfl
  | node l d r =>
    obtain ⟨_, _, _, _, h5, h6, _⟩ := aggOk_node h
    simp [listLineFeedCnt, NTree.rootData, NTree.inorder, sumLF_append, sumLF_cons, h5, h6]
    omega

theorem lefest_head (t : NTree) (hne : t ≠ .nil) :
    ∃ d r B, t.lefest = .node .nil d r ∧ t.inorder = d.piece :: B := by
  induction t with
  | nil => exact absurd rfl hne
  | node l d r ihl =>
    cases l with
    | nil => exact ⟨d, r, r.inorder, rfl, rfl⟩
    | node ll ld lr =>
      obtain ⟨d2, r2, B2, h1, h2⟩ := ihl (by simp)
      refine ⟨d2, r2, B2 ++ d.piece :: r.inorder, ?_, ?_⟩
      · simpa [NTree.lefest] using h1
      · rw [NTree.inorder, h2]
        simp

theorem rightest_last (t : NTree) (hne : t ≠ .nil) :
    ∃ l d A, t.rightest = .node l d .nil ∧ t.inorder = A ++ [d.piece] := by
  induction t with
  | nil => exact absurd rfl hne
  | node l d r _ ihr =>
    cases r with
    | nil => exact ⟨l, d, l.inorder, rfl, rfl⟩
    | node rl rd rr =>
      obtain ⟨l2, d2, A2, h1, h2⟩ := ihr (by simp)
      refine ⟨l2, d2, l.inorder ++ d.piece :: A2, ?_, ?_⟩
      · simpa [NTree.rightest] using h1
      · rw [NTree.inorder, h2]
        simp

theorem findLoop_correct (t : NTree) :
    ∀ offset so slf, aggOk t = true → offset < sumLen t.inorder →
    ∃ l d r A B,
      findLoop t offset so slf =
        ⟨.node l d r, offset - sumLen A, so + sumLen A, slf + sumLF A⟩ ∧
      t.inorder = A ++ d.piece :: B ∧ sumLen A ≤ offset ∧
      offset < sumLen A + d.piece.length := by
  induction t with
  | nil => intro o so slf _ h; simp [NTree.inorder, sumLen] at h
  | node l d r ihl ihr =>
    intro o so slf hagg hlt
    obtain ⟨hal, har, hls, _, hllf, _, _, _⟩ := aggOk_node hagg
    rw [NTree.inorder, sumLen_append, sumLen_cons] at hlt
    by_cases h1 : o < d.leftSize
    · obtain ⟨l2, d2, r2, A, B, heq, hdec, hle, hlt2⟩ :=
        ihl o so slf hal (by omega)
      refine ⟨l2, d2, r2, A, B ++ d.piece :: r.inorder, ?_, ?_, hle, hlt2⟩
      · rw [findLoop, if_pos h1]; exact heq
      · rw [NTree.inorder, hdec]
        simp
    · by_cases h2 : o < d.leftSize + d.piece.length
      · refine ⟨l, d, r, l.inorder, r.inorder, ?_, rfl, ?_, ?_⟩
        · rw [findLoop, if_neg h1, if_pos h2, hls, hllf]
        · simp only [sumLen, sumLF] at *
          omega
        · simp only [sumLen, sumLF] at *
          omega
      · have hrne : r ≠ .nil := by
          intro hr
          rw [hr] at hlt
          have hz : sumLen (NTree.nil.inorder) = 0 := rfl
          rw [hz] at hlt
          omega
        obtain ⟨l2, d2, r2, A, B, heq, hdec, hle, hlt2⟩ :=
          ihr (o - (d.leftSize + d.piece.length)) (so + d.leftSize + d.piece.length)
            (slf + d.leftLineFeedCnt + d.piece.lineFeedCnt) har (by omega)
        refine ⟨l2, d2, r2, l.inorder ++ d.piece :: A, B, ?_, ?_, ?_, ?_⟩
        · rw [findLoop, if_neg h1, if_neg h2, if_neg hrne, heq]
          rw [sumLen_append, sumLen_cons, sumLF_append, sumLF_cons, hls, hllf]
          congr 1 <;> omega
        · rw [NTree.inorder, hdec]
          simp
        · rw [sumLen_append, sumLen_cons]
          simp only [sumLen, sumLF] at *
          omega
        · rw [sumLen_append, sumLen_cons]
          simp only [sumLen, sumLF] at *
          omega

end PieceNodeList

/-- C4: on every aggregate-correct tree, `find(offset)` with `0 < offset <
total size` returns a position whose `startOffset` is the cumulative piece
length preceding the returned node in in-order, whose `startLineFeedCnt` is
the cumulative line-feed count preceding it, and whose `reminder` equals
`offset − startOffset` with `0 ≤ reminder ≤ node.piece.length`; for
`offset ≤ 0` it returns the leftmost node with reminder 0, and for
`offset ≥ total size` the rightmost node with reminder equal to that node's
piece length. -/
theorem C4_find_by_offset (t : PieceNodeList.NTree) (offset : Int)
    (hagg : PieceNodeList.aggOk t = true) (hne : t ≠ PieceNodeList.NTree.nil) :
    (0 < offset → offset < (PieceNodeList.listSize t : Int) →
      ∃ l d r A B,
        PieceNodeList.find t offset =
          ⟨.node l d r, offset.toNat - PieceNodeList.sumLen A, PieceNodeList.sumLen A,
            PieceNodeList.sumLF A⟩ ∧
        t.inorder = A ++ d.piece :: B ∧ PieceNodeList.sumLen A ≤ offset.toNat ∧
        offset.toNat - PieceNodeList.sumLen A ≤ d.piece.length) ∧
    (offset ≤ 0 →
      ∃ d r B, PieceNodeList.find t offset = ⟨.node .nil d r, 0, 0, 0⟩ ∧
        t.inorder = d.piece :: B) ∧
    (0 < offset → (PieceNodeList.listSize t : Int) ≤ offset →
      ∃ l d A, PieceNodeList.find t offset =
          ⟨.node l d .nil, d.piece.length, PieceNodeList.sumLen A, PieceNodeList.sumLF A⟩ ∧
        t.inorder = A ++ [d.piece]) := by
  refine ⟨?_, ?_, ?_⟩
  · intro h0 hs
    have hnotle : ¬ offset ≤ 0 := by omega
    have hnotge : ¬ (PieceNodeList.listSize t : Int) ≤ offset := by omega
    have hlt : offset.toNat < PieceNodeList.sumLen t.inorder := by
      rw [← PieceNodeList.listSize_eq hagg]; omega
    obtain ⟨l, d, r, A, B, heq, hdec, hle, hlt2⟩ :=
      PieceNodeList.findLoop_correct t offset.toNat 0 0 hagg hlt
    refine ⟨l, d, r, A, B, ?_, hdec, hle, by omega⟩
    rw [PieceNodeList.find, if_neg hnotle, if_neg hnotge]
    simpa using heq
  · intro h0
    obtain ⟨d, r, B, h1, h2⟩ := PieceNodeList.lefest_head t hne
    refine ⟨d, r, B, ?_, h2⟩
    rw [PieceNodeList.find, if_pos h0, h1]
  · intro h0 hge
    have hnotle : ¬ offset ≤ 0 := by omega
    obtain ⟨l2, d2, A2, hr, hdec⟩ := PieceNodeList.rightest_last t hne
    refine ⟨l2, d2, A2, ?_, hdec⟩
    rw [PieceNodeList.find, if_neg hnotle, if_pos hge, hr]
    have hsz : PieceNodeList.listSize t = PieceNodeList.sumLen A2 + d2.piece.length := by
      rw [PieceNodeList.listSize_eq hagg, hdec, PieceNodeList.sumLen_append]
      simp [PieceNodeList.sumLen]
    have hlf : PieceNodeList.listLineFeedCnt t =
        PieceNodeList.sumLF A2 + d2.piece.lineFeedCnt := by
      rw [PieceNodeList.listLF_eq hagg, hdec, PieceNodeList.sumLF_append]
      simp [PieceNodeList.sumLF]
    simp only [PieceNodeList.NTree.rootData]
    congr 1 <;> omega

/-- C6 counterexample: `PieceNodeList.splitNode` sets the left piece's
`lineFeedCnt` to 0 without scanning the buffer window; splitting a piece over
the buffer `"a\nb"` at remainder 2 yields a left piece whose `lineFeedCnt` (0)
differs from the line-feed count of its buffer window `"a\n"` (1), and the
original piece keeps `lineFeedCnt` 1 although its window `"b"` has none. -/
theorem C6_counterexample_left_linefeed :
    (PieceNodeList.splitNodePieces PieceNodeList.pSplit 2).1.lineFeedCnt = 0 ∧
    computeLineFeedCnt ((PieceNodeList.splitBuf.drop PieceNodeList.pSplit.start).take 2) = 1 ∧
    (PieceNodeList.splitNodePieces PieceNodeList.pSplit 2).1.lineFeedCnt ≠
      computeLineFeedCnt ((PieceNodeList.splitBuf.drop PieceNodeList.pSplit.start).take 2) ∧
    (PieceNodeList.splitNodePieces PieceNodeList.pSplit 2).2.lineFeedCnt = 1 :=
  ⟨by decide, by decide, by decide, by decide⟩

namespace PieceTreeSpec

theorem sumL_nil : sumL [] = 0 := rfl

theorem sumL_cons (p : NodePiece) (ps : List NodePiece) :
    sumL (p :: ps) = p.length + sumL ps := by
  simp [sumL]

theorem sumL_append (a b : List NodePiece) : sumL (a ++ b) = sumL a + sumL b := by
  simp [sumL]

theorem sumF_nil : sumF [] = 0 := rfl

theorem sumF_cons (p : NodePiece) (ps : List NodePiece) :
    sumF (p :: ps) = p.lineFeedCnt + sumF ps := by
  simp [sumF]

theorem sumF_append (a b : List NodePiece) : sumF (a ++ b) = sumF a + sumF b := by
  simp [sumF]

theorem size_eq_sumL (pt : PT) : pt.size = sumL pt.pieces := rfl

theorem lineFeedSum_eq_sumF (pt : PT) : pt.lineFeedSum = sumF pt.pieces := rfl

theorem sumL_take_le (ps : List NodePiece) (j : Nat) : sumL (ps.take j) ≤ sumL ps := by
  conv_rhs => rw [← List.take_append_drop j ps]
  rw [sumL_append]
  omega

theorem sumL_take_mono (ps : List NodePiece) {j k : Nat} (h : j ≤ k) :
    sumL (ps.take j) ≤ sumL (ps.take k) := by
  have : ps.take j = (ps.take k).take j := by
    rw [List.take_take, Nat.min_eq_left h]
  rw [this]
  exact sumL_take_le _ _

theorem sumL_take_succ (ps : List NodePiece) (j : Nat) (h : j < ps.length) :
    sumL (ps.take (j + 1)) = sumL (ps.take j) + (ps.getD j sentinelPiece).length := by
  rw [List.take_succ, sumL_append]
  have : ps[j]? = some (ps.getD j sentinelPiece) := by
    rw [List.getD_eq_getElem?_getD]
    cases hq : ps[j]? with
    | none => rw [List.getElem?_eq_none_iff] at hq; omega
    | some q => rfl
  rw [this]
  simp [sumL]

theorem sumF_take_succ (ps : List NodePiece) (j : Nat) (h : j < ps.length) :
    sumF (ps.take (j + 1)) = sumF (ps.take j) + (ps.getD j sentinelPiece).lineFeedCnt := by
  rw [List.take_succ, sumF_append]
  have : ps[j]? = some (ps.getD j sentinelPiece) := by
    rw [List.getD_eq_getElem?_getD]
    cases hq : ps[j]? with
    | none => rw [List.getElem?_eq_none_iff] at hq; omega
    | some q => rfl
  rw [this]
  simp [sumF]

theorem findLoop_spec (ps : List NodePiece) :
    ∀ offset i so slf, offset < sumL ps →
    ∃ k, k < ps.length ∧ sumL (ps.take k) ≤ offset ∧ offset < sumL (ps.take (k + 1)) ∧
      findLoop ps offset i so slf =
        ⟨some (i + k), offset - sumL (ps.take k), so + sumL (ps.take k),
          slf + sumF (ps.take k)⟩ := by
  induction ps with
  | nil => intro o i so slf h; simp [sumL] at h
  | cons p rest ih =>
    intro o i so slf h
    rw [sumL_cons] at h
    by_cases h1 : o < p.length
    · refine ⟨0, by simp, by simp [sumL], ?_, ?_⟩
      · simpa [sumL_cons, sumL] using h1
      · simp [findLoop, if_pos h1, sumL, sumF]
    · obtain ⟨k, hk, hle, hlt, heq⟩ :=
        ih (o - p.length) (i + 1) (so + p.length) (slf + p.lineFeedCnt) (by omega)
      refine ⟨k + 1, by simpa using hk, ?_, ?_, ?_⟩
      · rw [List.take_succ_cons, sumL_cons]; omega
      · rw [List.take_succ_cons, sumL_cons]; omega
      · rw [findLoop, if_neg h1, heq, List.take_succ_cons, sumL_cons, sumF_cons]
        simp only [NodePos.mk.injEq, Option.some.injEq]
        refine ⟨by omega, by omega, by omega, by omega⟩

theorem findByOffset_mid (pt : PT) (offset : Nat) (h1 : 1 ≤ offset) (h2 : offset < pt.size) :
    ∃ k, k < pt.pieces.length ∧ sumL (pt.pieces.take k) ≤ offset ∧
      offset < sumL (pt.pieces.take (k + 1)) ∧
      pt.findByOffset offset =
        ⟨some k, offset - sumL (pt.pieces.take k), sumL (pt.pieces.take k),
          sumF (pt.pieces.take k)⟩ := by
  have hne : pt.pieces ≠ [] := by
    intro hp
    rw [size_eq_sumL, hp] at h2
    simp [sumL] at h2
  obtain ⟨k, hk, hle, hltk, heq⟩ := findLoop_spec pt.pieces offset 0 0 0 (by
    rw [size_eq_sumL] at h2; exact h2)
  refine ⟨k, hk, hle, hltk, ?_⟩
  rw [PT.findByOffset, if_neg (by simpa using hne), if_neg (by omega), if_neg (by omega), heq]
  simp

theorem findByOffset_clamp (pt : PT) (offset : Nat) (hne : pt.pieces ≠ [])
    (hge : pt.size ≤ offset) (h1 : 1 ≤ offset) :
    pt.findByOffset offset =
      ⟨some (pt.pieces.length - 1), (pt.pieces.getLastD sentinelPiece).length,
        pt.size - (pt.pieces.getLastD sentinelPiece).length,
        pt.lineFeedSum - (pt.pieces.getLastD sentinelPiece).lineFeedCnt⟩ := by
  rw [PT.findByOffset, if_neg (by simpa using hne), if_neg (by omega), if_pos hge]

theorem findByOffset_boundary (pt : PT) (k : Nat) (hk : k < pt.pieces.length)
    (hpos : ∀ p ∈ pt.pieces, 1 ≤ p.length)
    (h1 : 1 ≤ sumL (pt.pieces.take k)) (h2 : sumL (pt.pieces.take k) < pt.size) :
    pt.findByOffset (sumL (pt.pieces.take k)) =
      ⟨some k, 0, sumL (pt.pieces.take k), sumF (pt.pieces.take k)⟩ := by
  obtain ⟨j, hj, hle, hlt, heq⟩ := findByOffset_mid pt (sumL (pt.pieces.take k)) h1 h2
  have hgetj : 1 ≤ (pt.pieces.getD j sentinelPiece).length := by
    apply hpos
    rw [List.getD_eq_getElem pt.pieces sentinelPiece hj]
    exact List.getElem_mem hj
  have hkj : j = k := by
    by_cases hjk : j < k
    · have := sumL_take_mono pt.pieces (show j + 1 ≤ k from hjk)
      omega
    · by_cases hkj2 : k < j
      · have := sumL_take_mono pt.pieces (show k + 1 ≤ j from hkj2)
        rw [sumL_take_succ pt.pieces k (by omega)] at this
        have hgetk : 1 ≤ (pt.pieces.getD k sentinelPiece).length := by
          apply hpos
          rw [List.getD_eq_getElem pt.pieces sentinelPiece (by omega)]
          exact List.getElem_mem (by omega)
        omega
      · omega
  subst hkj
  rw [heq]
  congr 1
  omega

end PieceTreeSpec

namespace PieceTreeSpec

theorem window_split (b : List Char) (s r len : Nat) (h : r ≤ len) :
    (b.drop s).take r ++ (b.drop (s + r)).take (len - r) = (b.drop s).take len := by
  rw [← List.drop_drop, ← List.take_add]
  congr 1
  omega

theorem countLF_window_split (b : List Char) (s r len : Nat) (h : r ≤ len) :
    computeLineFeedCnt ((b.drop s).take r) + computeLineFeedCnt ((b.drop (s + r)).take (len - r)) =
      computeLineFeedCnt ((b.drop s).take len) := by
  rw [← window_split b s r len h]
  simp [computeLineFeedCnt, List.count_append]

theorem splitNode_pieces (pt : PT) (i r : Nat) (p : NodePiece)
    (hp : pt.pieces[i]? = some p) :
    (pt.splitNode i r).1.pieces =
      (pt.pieces.set i (splitRightPiece pt p r)).insertIdx i (splitLeftPiece pt p r) ∧
    (pt.splitNode i r).1.buffers = pt.buffers ∧
    (pt.splitNode i r).1.history = pt.history := by
  have hg : pt.pieces.getD i sentinelPiece = p := by
    rw [List.getD_eq_getElem?_getD, hp]
    rfl
  refine ⟨?_, rfl, rfl⟩
  show ((pt.pieces.set i _).insertIdx i _) = _
  rw [hg]
  cases p
  rfl

end PieceTreeSpec

/-- C6 (amended): splitting a node at `0 < r ≤ L` in `PieceTree.splitNode`
produces a left piece (same buffer index and start, length `r`) whose
`lineFeedCnt` is obtained by scanning the left buffer window, mutates the
original piece to `start + r`, `length − r` with `lineFeedCnt` reduced by the
left count, and the two pieces' texts concatenate to the original piece's text
with the total line-feed count preserved; `PieceNodeList.splitNode`, by
contrast, gives the left piece `lineFeedCnt` 0 and leaves the original count
unchanged (so its left count matches a buffer scan only for line-feed-free
left windows), but the texts still concatenate to the original and the total
line-feed count is still preserved. -/
theorem C6_split_law_amended :
    (∀ (pt : PT) (i r : Nat) (p : PieceTreeSpec.NodePiece), pt.pieces[i]? = some p →
      r ≤ p.length →
      p.lineFeedCnt =
        computeLineFeedCnt (((pt.bufAt p.bufferIndex).drop p.start).take p.length) →
      (pt.splitNode i r).1.pieces =
        (pt.pieces.set i (splitRightPiece pt p r)).insertIdx i (splitLeftPiece pt p r) ∧
      pt.getTextInPiece (splitLeftPiece pt p r) ++ pt.getTextInPiece (splitRightPiece pt p r) =
        pt.getTextInPiece p ∧
      (splitLeftPiece pt p r).lineFeedCnt + (splitRightPiece pt p r).lineFeedCnt =
        p.lineFeedCnt ∧
      (splitLeftPiece pt p r).lineFeedCnt =
        computeLineFeedCnt (((pt.bufAt p.bufferIndex).drop p.start).take r)) ∧
    (∀ (bufs : List (List Char)) (p : PieceNodeList.NPiece) (r : Nat), r ≤ p.length →
      (PieceNodeList.splitNodePieces p r).1 =
        ⟨p.bufferIndex, p.start, r, 0, p.meta, p.pieceType⟩ ∧
      (PieceNodeList.splitNodePieces p r).2 =
        { p with start := p.start + r, length := p.length - r } ∧
      PieceNodeList.pieceTextIn bufs (PieceNodeList.splitNodePieces p r).1 ++
          PieceNodeList.pieceTextIn bufs (PieceNodeList.splitNodePieces p r).2 =
        PieceNodeList.pieceTextIn bufs p ∧
      (PieceNodeList.splitNodePieces p r).1.lineFeedCnt +
          (PieceNodeList.splitNodePieces p r).2.lineFeedCnt = p.lineFeedCnt) := by
  constructor
  · intro pt i r p hp hr hlf
    obtain ⟨h1, _, _⟩ := splitNode_pieces pt i r p hp
    have hLle : computeLineFeedCnt (((pt.bufAt p.bufferIndex).drop p.start).take r) ≤
        p.lineFeedCnt := by
      rw [hlf, ← countLF_window_split (pt.bufAt p.bufferIndex) p.start r p.length hr]
      omega
    refine ⟨h1, ?_, ?_, rfl⟩
    · by_cases hb : p.bufferIndex < 0
      · simp [PT.getTextInPiece, PT.getTextInBuffer, splitLeftPiece, splitRightPiece, hb]
      · simp only [PT.getTextInPiece, PT.getTextInBuffer, splitLeftPiece, splitRightPiece,
          if_neg hb]
        exact window_split (pt.bufAt p.bufferIndex) p.start r p.length hr
    · simp only [splitLeftPiece, splitRightPiece]
      omega
  · intro bufs p r hr
    refine ⟨rfl, ?_, ?_, ?_⟩
    · show ({ p with start := _, length := _, lineFeedCnt := p.lineFeedCnt - 0 } :
        PieceNodeList.NPiece) = _
      cases p
      simp
    · by_cases hb : p.bufferIndex < 0
      · simp [PieceNodeList.pieceTextIn, PieceNodeList.splitNodePieces, hb]
      · simp only [PieceNodeList.pieceTextIn, PieceNodeList.splitNodePieces, if_neg hb]
        exact window_split _ p.start r p.length hr
    · simp [PieceNodeList.splitNodePieces]

/-- Witness for the `find` theorem: the concrete aggregate-correct two-node
tree at offset 3 (inside the root piece). -/
theorem C4_witness :
    (0 < (3 : Int) → (3 : Int) < (PieceNodeList.listSize PieceNodeList.findTree : Int) →
      ∃ l d r A B,
        PieceNodeList.find PieceNodeList.findTree 3 =
          ⟨.node l d r, (3 : Int).toNat - PieceNodeList.sumLen A, PieceNodeList.sumLen A,
            PieceNodeList.sumLF A⟩ ∧
        PieceNodeList.findTree.inorder = A ++ d.piece :: B ∧
        PieceNodeList.sumLen A ≤ (3 : Int).toNat ∧
        (3 : Int).toNat - PieceNodeList.sumLen A ≤ d.piece.length) ∧
    ((3 : Int) ≤ 0 →
      ∃ d r B, PieceNodeList.find PieceNodeList.findTree 3 = ⟨.node .nil d r, 0, 0, 0⟩ ∧
        PieceNodeList.findTree.inorder = d.piece :: B) ∧
    (0 < (3 : Int) → (PieceNodeList.listSize PieceNodeList.findTree : Int) ≤ 3 →
      ∃ l d A, PieceNodeList.find PieceNodeList.findTree 3 =
          ⟨.node l d .nil, d.piece.length, PieceNodeList.sumLen A, PieceNodeList.sumLF A⟩ ∧
        PieceNodeList.findTree.inorder = A ++ [d.piece]) :=
  C4_find_by_offset PieceNodeList.findTree 3 (by decide) (by decide)

/-- Witness for the split law: the old `splitNode` on a two-piece state over
`"\nab"` splitting the piece `"ab"` at remainder 1, and the new
`splitNodePieces` on the `"a\nb"` piece at remainder 2. -/
theorem C6_witness :
    ((splitPT.splitNode 1 1).1.pieces =
        (splitPT.pieces.set 1 (splitRightPiece splitPT ⟨0, 1, 2, 0, none⟩ 1)).insertIdx 1
          (splitLeftPiece splitPT ⟨0, 1, 2, 0, none⟩ 1) ∧
      splitPT.getTextInPiece (splitLeftPiece splitPT ⟨0, 1, 2, 0, none⟩ 1) ++
          splitPT.getTextInPiece (splitRightPiece splitPT ⟨0, 1, 2, 0, none⟩ 1) =
        splitPT.getTextInPiece ⟨0, 1, 2, 0, none⟩ ∧
      (splitLeftPiece splitPT ⟨0, 1, 2, 0, none⟩ 1).lineFeedCnt +
          (splitRightPiece splitPT ⟨0, 1, 2, 0, none⟩ 1).lineFeedCnt =
        (⟨0, 1, 2, 0, none⟩ : PieceTreeSpec.NodePiece).lineFeedCnt ∧
      (splitLeftPiece splitPT ⟨0, 1, 2, 0, none⟩ 1).lineFeedCnt =
        computeLineFeedCnt (((splitPT.bufAt 0).drop 1).take 1)) ∧
    ((PieceNodeList.splitNodePieces PieceNodeList.pSplit 2).1 =
        ⟨PieceNodeList.pSplit.bufferIndex, PieceNodeList.pSplit.start, 2, 0,
          PieceNodeList.pSplit.meta, PieceNodeList.pSplit.pieceType⟩ ∧
      (PieceNodeList.splitNodePieces PieceNodeList.pSplit 2).2 =
        { PieceNodeList.pSplit with
            start := PieceNodeList.pSplit.start + 2
            length := PieceNodeList.pSplit.length - 2 } ∧
      PieceNodeList.pieceTextIn [['a', '\n', 'b']]
            (PieceNodeList.splitNodePieces PieceNodeList.pSplit 2).1 ++
          PieceNodeList.pieceTextIn [['a', '\n', 'b']]
            (PieceNodeList.splitNodePieces PieceNodeList.pSplit 2).2 =
        PieceNodeList.pieceTextIn [['a', '\n', 'b']] PieceNodeList.pSplit ∧
      (PieceNodeList.splitNodePieces PieceNodeList.pSplit 2).1.lineFeedCnt +
          (PieceNodeList.splitNodePieces PieceNodeList.pSplit 2).2.lineFeedCnt =
        PieceNodeList.pSplit.lineFeedCnt) :=
  ⟨C6_split_law_amended.1 splitPT 1 1 ⟨0, 1, 2, 0, none⟩ rfl (by decide) (by decide),
    C6_split_law_amended.2 [['a', '\n', 'b']] PieceNodeList.pSplit 2 (by decide)⟩

namespace PieceTreeSpec

theorem getTextInPiece_eq_textB (pt : PT) (p : NodePiece) :
    pt.getTextInPiece p = textB pt.buffers p := by
  by_cases h : p.bufferIndex < 0
  · simp [PT.getTextInPiece, PT.getTextInBuffer, textB, h]
  · simp [PT.getTextInPiece, PT.getTextInBuffer, PT.bufAt, textB, h]

theorem getTextInPiece_fun (pt : PT) : pt.getTextInPiece = textB pt.buffers :=
  funext (getTextInPiece_eq_textB pt)

theorem flatTexts_nil (bufs : List (List Char)) : flatTexts bufs [] = [] := rfl

theorem flatTexts_cons (bufs : List (List Char)) (p : NodePiece) (ps : List NodePiece) :
    flatTexts bufs (p :: ps) = textB bufs p ++ flatTexts bufs ps := by
  simp [flatTexts]

theorem flatTexts_append (bufs : List (List Char)) (a b : List NodePiece) :
    flatTexts bufs (a ++ b) = flatTexts bufs a ++ flatTexts bufs b := by
  simp [flatTexts]

theorem getText_flat (pt : PT) : pt.getText = flatTexts pt.buffers (pt.pieces.drop 1) := by
  rw [PT.getText, getTextInPiece_fun]
  rfl

theorem getLength_sumL (pt : PT) : pt.getLength = sumL (pt.pieces.drop 1) := rfl

theorem textB_len_le (bufs : List (List Char)) (p : NodePiece) :
    (textB bufs p).length ≤ p.length := by
  by_cases h : p.bufferIndex < 0
  · simp [textB, h]
  · simp only [textB, if_neg h, List.length_take]
    omega

theorem flatTexts_len_le (bufs : List (List Char)) (ps : List NodePiece) :
    (flatTexts bufs ps).length ≤ sumL ps := by
  induction ps with
  | nil => simp [flatTexts, sumL]
  | cons p rest ih =>
    rw [flatTexts_cons, sumL_cons, List.length_append]
    have := textB_len_le bufs p
    omega

theorem getText_len_le (pt : PT) : pt.getText.length ≤ pt.getLength := by
  rw [getText_flat, getLength_sumL]
  exact flatTexts_len_le _ _

theorem insertIdx_eq_take_cons_drop {α : Type} (ps : List α) (j : Nat) (p : α)
    (h : j ≤ ps.length) : ps.insertIdx j p = ps.take j ++ p :: ps.drop j := by
  induction ps generalizing j with
  | nil =>
    have : j = 0 := by simpa using h
    subst this
    rfl
  | cons q rest ih =>
    cases j with
    | zero => rfl
    | succ j2 =>
      rw [List.insertIdx_succ_cons, ih j2 (by simpa using h)]
      rfl

theorem getLastD_eq_getD (ps : List NodePiece) (d : NodePiece) (hne : ps ≠ []) :
    ps.getLastD d = ps.getD (ps.length - 1) d := by
  have h : ps.length - 1 < ps.length := by
    cases ps with
    | nil => exact absurd rfl hne
    | cons q rest => simp
  rw [List.getD_eq_getElem ps d h, List.getLastD_eq_getLast?, List.getLast?_eq_getLast ps hne,
    List.getLast_eq_getElem]
  rfl

theorem getD_mem (ps : List NodePiece) (j : Nat) (d : NodePiece) (h : j < ps.length) :
    ps.getD j d ∈ ps := by
  rw [List.getD_eq_getElem ps d h]
  exact List.getElem_mem h

theorem PT_eta (pt : PT) (ps : List NodePiece) (h : pt.pieces = ps) :
    pt = { pt with pieces := ps } := by
  cases pt
  cases h
  rfl

end PieceTreeSpec

namespace PieceTreeSpec

theorem sumL_pos_of_mem (q : NodePiece) (qs : List NodePiece) (h : 1 ≤ q.length) :
    1 ≤ sumL (q :: qs) := by
  rw [sumL_cons]
  omega

theorem length_le_sumL (p : NodePiece) (ps : List NodePiece) (h : p ∈ ps) :
    p.length ≤ sumL ps := by
  obtain ⟨u, v, huv⟩ := List.append_of_mem h
  rw [huv, sumL_append, sumL_cons]
  omega

theorem getLastD_mem (ps : List NodePiece) (hne : ps ≠ []) :
    ps.getLastD sentinelPiece ∈ ps := by
  rw [getLastD_eq_getD ps sentinelPiece hne]
  refine getD_mem _ _ _ ?_
  cases hp2 : ps with
  | nil => exact absurd hp2 hne
  | cons a b => simp

theorem insertLand_clamp (pt : PT) (o : Nat) (hne : pt.pieces ≠ [])
    (hpos : ∀ p ∈ pt.pieces, 1 ≤ p.length)
    (h1 : 1 ≤ o) (hclamp : pt.size ≤ o) :
    pt.insertLand o = (pt, some (pt.pieces.length - 1),
      pt.lineFeedSum - (pt.pieces.getLastD sentinelPiece).lineFeedCnt +
        (pt.pieceAt (some (pt.pieces.length - 1))).lineFeedCnt) := by
  have hfind := findByOffset_clamp pt o hne hclamp h1
  have hlastmem : pt.pieces.getLastD sentinelPiece ∈ pt.pieces := getLastD_mem _ hne
  have hlast1 : 1 ≤ (pt.pieces.getLastD sentinelPiece).length := hpos _ hlastmem
  have hsz : (pt.pieces.getLastD sentinelPiece).length ≤ pt.size := by
    rw [size_eq_sumL]
    exact length_le_sumL _ _ hlastmem
  have hsne : pt.size - (pt.pieces.getLastD sentinelPiece).length ≠ o := by omega
  have hpieceAt : pt.pieceAt (some (pt.pieces.length - 1)) =
      pt.pieces.getLastD sentinelPiece := by
    rw [PT.pieceAt, getLastD_eq_getD pt.pieces sentinelPiece hne]
  have hmid : ¬ (pt.size - (pt.pieces.getLastD sentinelPiece).length < o ∧
      o < pt.size - (pt.pieces.getLastD sentinelPiece).length +
        (pt.pieceAt (some (pt.pieces.length - 1))).length) := by
    rw [hpieceAt]
    omega
  simp only [PT.insertLand, hfind]
  rw [if_neg hsne, if_neg hmid]

end PieceTreeSpec

namespace PieceTreeSpec

theorem take_interval_unique (ps : List NodePiece) (o j k : Nat)
    (hj1 : sumL (ps.take j) ≤ o) (hj2 : o < sumL (ps.take (j + 1)))
    (hk1 : sumL (ps.take k) ≤ o) (hk2 : o < sumL (ps.take (k + 1))) : j = k := by
  rcases Nat.lt_trichotomy j k with h | h | h
  · have := sumL_take_mono ps (show j + 1 ≤ k from h)
    omega
  · exact h
  · have := sumL_take_mono ps (show k + 1 ≤ j from h)
    omega

theorem insertLand_boundary (pt : PT) (k : Nat) (hk : k < pt.pieces.length)
    (hpos : ∀ p ∈ pt.pieces, 1 ≤ p.length)
    (h1 : 1 ≤ sumL (pt.pieces.take k)) (h2 : sumL (pt.pieces.take k) < pt.size) :
    pt.insertLand (sumL (pt.pieces.take k)) =
      (pt, predIdx (some k), sumF (pt.pieces.take k)) := by
  have hfind := findByOffset_boundary pt k hk hpos h1 h2
  simp only [PT.insertLand, hfind]
  simp

theorem insertLand_interior (pt : PT) (k o : Nat) (hk : k < pt.pieces.length)
    (h1 : 1 ≤ o) (h2 : o < pt.size)
    (hlo : sumL (pt.pieces.take k) < o) (hhi : o < sumL (pt.pieces.take (k + 1))) :
    pt.insertLand o =
      ((pt.splitNode k (o - sumL (pt.pieces.take k))).1, some k, sumF (pt.pieces.take k)) := by
  obtain ⟨j, hj, hle, hlt, hfind⟩ := findByOffset_mid pt o h1 h2
  have hjk : j = k := take_interval_unique pt.pieces o j k hle hlt (by omega) hhi
  subst hjk
  have hsne : ¬ (sumL (pt.pieces.take j) = o) := by omega
  have hmid : sumL (pt.pieces.take j) < o ∧
      o < sumL (pt.pieces.take j) + (pt.pieceAt (some j)).length := by
    constructor
    · exact hlo
    · rw [PT.pieceAt, ← sumL_take_succ pt.pieces j hj]
      exact hhi
  simp only [PT.insertLand, hfind]
  rw [if_neg hsne, if_pos hmid]
  rfl

theorem split_textB (pt : PT) (p : NodePiece) (r : Nat) (hr : r ≤ p.length) :
    textB pt.buffers (splitLeftPiece pt p r) ++ textB pt.buffers (splitRightPiece pt p r) =
      textB pt.buffers p := by
  by_cases hb : p.bufferIndex < 0
  · simp [textB, splitLeftPiece, splitRightPiece, hb]
  · simp only [textB, splitLeftPiece, splitRightPiece, if_neg hb]
    exact window_split _ p.start r p.length hr

theorem set_insert_split {α : Type} (l : List α) (i : Nat) (a b : α) (h : i < l.length) :
    (l.set i b).insertIdx i a = l.take i ++ a :: b :: l.drop (i + 1) := by
  have hxlen : (l.take i).length = i := by
    rw [List.length_take]
    omega
  rw [List.set_eq_take_cons_drop b h]
  rw [insertIdx_eq_take_cons_drop _ _ _ (by rw [List.length_append, hxlen]; simp)]
  rw [List.take_append_eq_append_take, List.drop_append_eq_append_drop, hxlen]
  simp [List.take_take, List.drop_take]

theorem list_split_at {α : Type} (l : List α) (i : Nat) (d : α) (h : i < l.length) :
    l = l.take i ++ l.getD i d :: l.drop (i + 1) := by
  rw [List.getD_eq_getElem l d h]
  conv_lhs => rw [← List.take_append_drop i l]
  congr 1
  exact (List.drop_eq_getElem_cons h).symm ▸ rfl

end PieceTreeSpec

namespace PieceTreeSpec

theorem PT_ext (x y : PT) (h1 : x.buffers = y.buffers) (h2 : x.pieces = y.pieces)
    (h3 : x.history = y.history) : x = y := by
  cases x
  cases y
  cases h1
  cases h2
  cases h3
  rfl

theorem split_sumLen (pt : PT) (p : NodePiece) (r : Nat) (hr : r ≤ p.length) :
    (splitLeftPiece pt p r).length + (splitRightPiece pt p r).length = p.length := by
  simp only [splitLeftPiece, splitRightPiece]
  omega

theorem getD_cons_succ (q : NodePiece) (qs : List NodePiece) (n : Nat) :
    (q :: qs).getD (n + 1) sentinelPiece = qs.getD n sentinelPiece := rfl

theorem insertLand_spec (pt : PT) (o : Nat) (q : NodePiece) (qs : List NodePiece)
    (hp : pt.pieces = q :: qs) (hq1 : q.length = 1)
    (hpos : ∀ p ∈ pt.pieces, 1 ≤ p.length) (h1 : 1 ≤ o) :
    ∃ qs1 j slf,
      pt.insertLand o = ({ pt with pieces := q :: qs1 }, some j, slf) ∧
      j ≤ qs1.length ∧
      flatTexts pt.buffers qs1 = flatTexts pt.buffers qs ∧
      sumL qs1 = sumL qs ∧
      ((∀ p ∈ pt.pieces, p.bufferIndex < 0 → p.length = 1) →
        (q :: qs1).countP (fun p => decide (p.bufferIndex < 0)) =
          (q :: qs).countP (fun p => decide (p.bufferIndex < 0))) := by
  by_cases hclamp : pt.size ≤ o
  · have h := insertLand_clamp pt o (by rw [hp]; simp) hpos h1 hclamp
    have hlen : pt.pieces.length - 1 = qs.length := by rw [hp]; simp
    rw [hlen] at h
    refine ⟨qs, qs.length,
      pt.lineFeedSum - (pt.pieces.getLastD sentinelPiece).lineFeedCnt +
        (pt.pieceAt (some qs.length)).lineFeedCnt, ?_, le_refl _, rfl, rfl, fun _ => rfl⟩
    rw [h, ← PT_eta pt (q :: qs) hp]
  · push_neg at hclamp
    obtain ⟨k, hk, hle, hlt, _⟩ := findByOffset_mid pt o h1 hclamp
    by_cases hb : sumL (pt.pieces.take k) = o
    · have hk1 : 1 ≤ k := by
        rcases Nat.eq_zero_or_pos k with h0 | h0
        · exfalso
          subst h0
          have hz : sumL (pt.pieces.take 0) = 0 := rfl
          omega
        · exact h0
      have h := insertLand_boundary pt k hk hpos (by omega) (by omega)
      rw [hb] at h
      refine ⟨qs, k - 1, sumF (pt.pieces.take k), ?_, ?_, rfl, rfl, fun _ => rfl⟩
      · rw [h, ← PT_eta pt (q :: qs) hp]
        cases k with
        | zero => omega
        | succ k2 => simp [predIdx]
      · rw [hp] at hk
        simp at hk
        omega
    · have hlo : sumL (pt.pieces.take k) < o := by omega
      have hk1 : 1 ≤ k := by
        rcases Nat.eq_zero_or_pos k with h0 | h0
        · exfalso
          subst h0
          rw [sumL_take_succ pt.pieces 0 hk] at hlt
          have hq0 : pt.pieces.getD 0 sentinelPiece = q := by rw [hp]; rfl
          have hz : sumL (pt.pieces.take 0) = 0 := rfl
          rw [hq0, hq1] at hlt
          omega
        · exact h0
      have hkq : k - 1 < qs.length := by
        rw [hp] at hk
        simp at hk
        omega
      have hpk : pt.pieces[k]? = some (pt.pieces.getD k sentinelPiece) := by
        rw [List.getD_eq_getElem pt.pieces sentinelPiece hk]
        exact List.getElem?_eq_getElem hk
      have hpkq : pt.pieces.getD k sentinelPiece = qs.getD (k - 1) sentinelPiece := by
        rw [hp]
        cases k with
        | zero => omega
        | succ k2 => simp [getD_cons_succ]
      have hrlt : o - sumL (pt.pieces.take k) < (pt.pieces.getD k sentinelPiece).length := by
        rw [sumL_take_succ pt.pieces k hk] at hlt
        omega
      have hland := insertLand_interior pt k o hk h1 hclamp hlo hlt
      obtain ⟨hpieces, hbufs, hhist⟩ :=
        splitNode_pieces pt k (o - sumL (pt.pieces.take k)) (pt.pieces.getD k sentinelPiece) hpk
      refine ⟨qs.take (k - 1) ++
          splitLeftPiece pt (pt.pieces.getD k sentinelPiece) (o - sumL (pt.pieces.take k)) ::
          splitRightPiece pt (pt.pieces.getD k sentinelPiece) (o - sumL (pt.pieces.take k)) ::
          qs.drop k, k, sumF (pt.pieces.take k), ?_, ?_, ?_, ?_, ?_⟩
      · rw [hland]
        refine congrArg (fun x => (x, some k, sumF (pt.pieces.take k))) ?_
        refine PT_ext _ _ hbufs ?_ hhist
        rw [hpieces, set_insert_split _ k _ _ hk, hp]
        cases k with
        | zero => omega
        | succ k2 =>
          simp only [List.take_succ_cons, List.drop_succ_cons, Nat.add_sub_cancel]
          rfl
      · simp only [List.length_append, List.length_cons, List.length_take, List.length_drop]
        omega
      · have hqsplit := list_split_at qs (k - 1) sentinelPiece hkq
        have hdrop : qs.drop (k - 1 + 1) = qs.drop k := by
          congr 1
          omega
        rw [hdrop] at hqsplit
        conv_rhs => rw [hqsplit]
        rw [flatTexts_append, flatTexts_cons, flatTexts_cons, flatTexts_append, flatTexts_cons,
          ← hpkq, ← split_textB pt _ _ (Nat.le_of_lt hrlt)]
        simp [List.append_assoc]
      · have hqsplit := list_split_at qs (k - 1) sentinelPiece hkq
        have hdrop : qs.drop (k - 1 + 1) = qs.drop k := by
          congr 1
          omega
        rw [hdrop] at hqsplit
        conv_rhs => rw [hqsplit]
        rw [sumL_append, sumL_cons, sumL_cons, sumL_append, sumL_cons, ← hpkq]
        have := split_sumLen pt (pt.pieces.getD k sentinelPiece) (o - sumL (pt.pieces.take k))
          (Nat.le_of_lt hrlt)
        omega
      · intro hneg
        have hpknotneg : ¬ (pt.pieces.getD k sentinelPiece).bufferIndex < 0 := by
          intro hcon
          have := hneg _ (getD_mem pt.pieces k sentinelPiece hk) hcon
          omega
        have hqsplit := list_split_at qs (k - 1) sentinelPiece hkq
        have hdrop : qs.drop (k - 1 + 1) = qs.drop k := by
          congr 1
          omega
        rw [hdrop] at hqsplit
        conv_rhs => rw [hqsplit]
        rw [List.countP_cons, List.countP_cons, List.countP_append, List.countP_cons,
          List.countP_cons, List.countP_append, List.countP_cons, ← hpkq]
        simp only [splitLeftPiece, splitRightPiece]
        simp [hpknotneg]
        rw [← List.getD_eq_getElem?_getD]
        omega

end PieceTreeSpec

namespace PieceTreeSpec

theorem insertInner_nontext_eval (pt : PT) (o : Nat) (m : MetaVal)
    (qs1 : List NodePiece) (q : NodePiece) (j slf : Nat)
    (hland : pt.insertLand o = ({ pt with pieces := q :: qs1 }, some j, slf)) :
    (pt.insertInner o [] (some m)).1.pieces =
      q :: qs1.insertIdx j ⟨-1, 0, 1, 0, some m⟩ ∧
    (pt.insertInner o [] (some m)).1.buffers = pt.buffers := by
  constructor
  · simp [PT.insertInner, hland, flushTxt, newTxtPiece, PT.createPiece, PT.insertFixedRight,
      PT.pushChange]
  · simp [PT.insertInner, hland, flushTxt, newTxtPiece, PT.createPiece, PT.insertFixedRight,
      PT.pushChange]

end PieceTreeSpec

/-- C9: for every offset and every non-null meta, `insert(offset, "", meta)`
(`insertNonText`) inserts exactly one non-text piece with buffer index −1 and
stored length 1: `get_length()` grows by 1 while `get_text()` is unchanged
(text of a negative buffer index reads as empty), so `get_length()` ends up
strictly larger than the length of `get_text()`.  Hypotheses: the state has
the leading length-1 piece, pieces have positive lengths, and non-text pieces
have length 1 (the engine's own invariants). -/
theorem C9_insert_non_text (pt : PieceTreeSpec.PT) (offset : Nat) (m : PieceTreeSpec.MetaVal)
    (q : PieceTreeSpec.NodePiece) (qs : List PieceTreeSpec.NodePiece)
    (hp : pt.pieces = q :: qs) (hq1 : q.length = 1)
    (hpos : ∀ p ∈ pt.pieces, 1 ≤ p.length)
    (hneg : ∀ p ∈ pt.pieces, p.bufferIndex < 0 → p.length = 1) :
    (pt.insertNonText offset m).1.getText = pt.getText ∧
    (pt.insertNonText offset m).1.getLength = pt.getLength + 1 ∧
    (pt.insertNonText offset m).1.pieces.countP (fun p => decide (p.bufferIndex < 0)) =
      pt.pieces.countP (fun p => decide (p.bufferIndex < 0)) + 1 ∧
    (⟨-1, 0, 1, 0, some m⟩ : PieceTreeSpec.NodePiece) ∈ (pt.insertNonText offset m).1.pieces ∧
    (pt.insertNonText offset m).1.getText.length < (pt.insertNonText offset m).1.getLength := by
  obtain ⟨qs1, j, slf, hland, hj, hflat, hsum, hcnt⟩ :=
    insertLand_spec pt (offset + 1) q qs hp hq1 hpos (by omega)
  have heval := insertInner_nontext_eval pt (offset + 1) m qs1 q j slf hland
  have hres : (pt.insertNonText offset m).1 = (pt.insertInner (offset + 1) [] (some m)).1 := rfl
  have hnt : textB pt.buffers ⟨-1, 0, 1, 0, some m⟩ = [] := by
    simp [textB]
  have hsplit : qs1.insertIdx j (⟨-1, 0, 1, 0, some m⟩ : PieceTreeSpec.NodePiece) =
      qs1.take j ++ ⟨-1, 0, 1, 0, some m⟩ :: qs1.drop j :=
    insertIdx_eq_take_cons_drop _ _ _ hj
  have hflat2 : flatTexts pt.buffers (qs1.take j) ++ flatTexts pt.buffers (qs1.drop j) =
      flatTexts pt.buffers qs1 := by
    rw [← flatTexts_append, List.take_append_drop]
  have hsum2 : sumL (qs1.take j) + sumL (qs1.drop j) = sumL qs1 := by
    rw [← sumL_append, List.take_append_drop]
  have hgt : (pt.insertNonText offset m).1.getText = pt.getText := by
    rw [hres, getText_flat, heval.2, heval.1, getText_flat, hp]
    simp only [List.drop_succ_cons, List.drop_zero]
    rw [hsplit, flatTexts_append, flatTexts_cons, hnt, List.nil_append, hflat2, hflat]
  have hgl : (pt.insertNonText offset m).1.getLength = pt.getLength + 1 := by
    rw [hres, getLength_sumL, heval.1, getLength_sumL, hp]
    simp only [List.drop_succ_cons, List.drop_zero]
    rw [hsplit, sumL_append, sumL_cons]
    have hntlen : (⟨-1, 0, 1, 0, some m⟩ : PieceTreeSpec.NodePiece).length = 1 := rfl
    rw [hntlen]
    omega
  refine ⟨hgt, hgl, ?_, ?_, ?_⟩
  · rw [hres, heval.1, hp]
    rw [List.countP_cons, List.countP_cons, hsplit, List.countP_append, List.countP_cons]
    have := hcnt hneg
    rw [List.countP_cons, List.countP_cons] at this
    have hcnt2 : qs1.countP (fun p => decide (p.bufferIndex < 0)) =
        qs.countP (fun p => decide (p.bufferIndex < 0)) := by omega
    have hcnt3 : (qs1.take j).countP (fun p => decide (p.bufferIndex < 0)) +
        (qs1.drop j).countP (fun p => decide (p.bufferIndex < 0)) =
        qs1.countP (fun p => decide (p.bufferIndex < 0)) := by
      rw [← List.countP_append, List.take_append_drop]
    simp only [decide_eq_true_eq] at this ⊢
    norm_num
    omega
  · rw [hres, heval.1, hsplit]
    simp
  · rw [hgt, hgl]
    have := getText_len_le pt
    omega

/-- Witness for C9: concrete run at `X1` (fresh tree holding `"ab"`), offset 1,
meta `\x7bage: 5\x7d`; all hypotheses discharged by `decide`. -/
theorem C9_witness :
    (X1.insertNonText 1 (ageMeta 5)).1.getText = X1.getText ∧
    (X1.insertNonText 1 (ageMeta 5)).1.getLength = X1.getLength + 1 ∧
    (X1.insertNonText 1 (ageMeta 5)).1.pieces.countP (fun p => decide (p.bufferIndex < 0)) =
      X1.pieces.countP (fun p => decide (p.bufferIndex < 0)) + 1 ∧
    (⟨-1, 0, 1, 0, some (ageMeta 5)⟩ : PieceTreeSpec.NodePiece) ∈
      (X1.insertNonText 1 (ageMeta 5)).1.pieces ∧
    (X1.insertNonText 1 (ageMeta 5)).1.getText.length <
      (X1.insertNonText 1 (ageMeta 5)).1.getLength :=
  C9_insert_non_text X1 1 (ageMeta 5) ⟨0, 0, 1, 1, none⟩ [⟨0, 1, 2, 0, none⟩]
    (by decide) (by decide) (by decide) (by decide)

namespace PieceTreeSpec

theorem deleteLand_spec (pt : PT) (o : Nat) (q : NodePiece) (qs : List NodePiece)
    (hp : pt.pieces = q :: qs) (hq1 : q.length = 1)
    (hpos : ∀ p ∈ pt.pieces, 1 ≤ p.length) (h1 : 1 ≤ o) (ho : o ≤ pt.size) :
    ∃ qs1 n, pt.deleteLand o = ({ pt with pieces := q :: qs1 }, n) ∧
      flatTexts pt.buffers qs1 = flatTexts pt.buffers qs ∧
      sumL qs1 = sumL qs := by
  by_cases hclamp : pt.size ≤ o
  · have hne : pt.pieces ≠ [] := by rw [hp]; simp
    have hfind := findByOffset_clamp pt o hne hclamp h1
    have hlastmem : pt.pieces.getLastD sentinelPiece ∈ pt.pieces := getLastD_mem _ hne
    have hlast1 : 1 ≤ (pt.pieces.getLastD sentinelPiece).length := hpos _ hlastmem
    have hsz : (pt.pieces.getLastD sentinelPiece).length ≤ pt.size := by
      rw [size_eq_sumL]
      exact length_le_sumL _ _ hlastmem
    have hpieceAt : pt.pieceAt (some (pt.pieces.length - 1)) =
        pt.pieces.getLastD sentinelPiece := by
      rw [PT.pieceAt, getLastD_eq_getD pt.pieces sentinelPiece hne]
    refine ⟨qs, pt.succIdx (some (pt.pieces.length - 1)), ?_, rfl, rfl⟩
    simp only [PT.deleteLand, hfind]
    rw [if_pos (show o ≠ pt.size - (pt.pieces.getLastD sentinelPiece).length by omega)]
    rw [if_pos (show o - (pt.size - (pt.pieces.getLastD sentinelPiece).length) =
      (pt.pieceAt (some (pt.pieces.length - 1))).length by rw [hpieceAt]; omega)]
    rw [← PT_eta pt (q :: qs) hp]
  · push_neg at hclamp
    obtain ⟨k, hk, hle, hlt, hfind⟩ := findByOffset_mid pt o h1 hclamp
    by_cases hb : sumL (pt.pieces.take k) = o
    · refine ⟨qs, some k, ?_, rfl, rfl⟩
      simp only [PT.deleteLand, hfind]
      rw [if_neg (show ¬ o ≠ sumL (pt.pieces.take k) by omega)]
      rw [← PT_eta pt (q :: qs) hp]
    · have hlo : sumL (pt.pieces.take k) < o := by omega
      have hk1 : 1 ≤ k := by
        rcases Nat.eq_zero_or_pos k with h0 | h0
        · exfalso
          subst h0
          rw [sumL_take_succ pt.pieces 0 hk] at hlt
          have hq0 : pt.pieces.getD 0 sentinelPiece = q := by rw [hp]; rfl
          have hz : sumL (pt.pieces.take 0) = 0 := rfl
          rw [hq0, hq1] at hlt
          omega
        · exact h0
      have hkq : k - 1 < qs.length := by
        rw [hp] at hk
        simp at hk
        omega
      have hpk : pt.pieces[k]? = some (pt.pieces.getD k sentinelPiece) := by
        rw [List.getD_eq_getElem pt.pieces sentinelPiece hk]
        exact List.getElem?_eq_getElem hk
      have hpkq : pt.pieces.getD k sentinelPiece = qs.getD (k - 1) sentinelPiece := by
        rw [hp]
        cases k with
        | zero => omega
        | succ k2 => simp [getD_cons_succ]
      have hrlt : o - sumL (pt.pieces.take k) < (pt.pieces.getD k sentinelPiece).length := by
        rw [sumL_take_succ pt.pieces k hk] at hlt
        omega
      obtain ⟨hpieces, hbufs, hhist⟩ :=
        splitNode_pieces pt k (o - sumL (pt.pieces.take k)) (pt.pieces.getD k sentinelPiece) hpk
      refine ⟨qs.take (k - 1) ++
          splitLeftPiece pt (pt.pieces.getD k sentinelPiece) (o - sumL (pt.pieces.take k)) ::
          splitRightPiece pt (pt.pieces.getD k sentinelPiece) (o - sumL (pt.pieces.take k)) ::
          qs.drop k, some (k + 1), ?_, ?_, ?_⟩
      · simp only [PT.deleteLand, hfind, Option.getD_some]
        rw [if_pos (show o ≠ sumL (pt.pieces.take k) by omega)]
        have hner : ¬ (o - sumL (pt.pieces.take k) = (pt.pieceAt (some k)).length) := by
          have hpa : pt.pieceAt (some k) = pt.pieces.getD k sentinelPiece := by
            rw [PT.pieceAt]
          rw [hpa]
          omega
        rw [if_neg hner]
        have h2 : (pt.splitNode k (o - sumL (pt.pieces.take k))).2.2 = k + 1 := rfl
        have h1s : (pt.splitNode k (o - sumL (pt.pieces.take k))).1 =
            { pt with pieces := q :: (qs.take (k - 1) ++
              splitLeftPiece pt (pt.pieces.getD k sentinelPiece) (o - sumL (pt.pieces.take k)) ::
              splitRightPiece pt (pt.pieces.getD k sentinelPiece) (o - sumL (pt.pieces.take k)) ::
              qs.drop k) } := by
          refine PT_ext _ _ hbufs ?_ hhist
          rw [hpieces, set_insert_split _ k _ _ hk, hp]
          cases k with
          | zero => omega
          | succ k2 =>
            simp only [List.take_succ_cons, List.drop_succ_cons, Nat.add_sub_cancel]
            rfl
        rw [h1s, h2]
      · have hqsplit := list_split_at qs (k - 1) sentinelPiece hkq
        have hdrop : qs.drop (k - 1 + 1) = qs.drop k := by
          congr 1
          omega
        rw [hdrop] at hqsplit
        conv_rhs => rw [hqsplit]
        rw [flatTexts_append, flatTexts_cons, flatTexts_cons, flatTexts_append, flatTexts_cons,
          ← hpkq, ← split_textB pt _ _ (Nat.le_of_lt hrlt)]
        simp [List.append_assoc]
      · have hqsplit := list_split_at qs (k - 1) sentinelPiece hkq
        have hdrop : qs.drop (k - 1 + 1) = qs.drop k := by
          congr 1
          omega
        rw [hdrop] at hqsplit
        conv_rhs => rw [hqsplit]
        rw [sumL_append, sumL_cons, sumL_cons, sumL_append, sumL_cons, ← hpkq]
        have := split_sumLen pt (pt.pieces.getD k sentinelPiece) (o - sumL (pt.pieces.take k))
          (Nat.le_of_lt hrlt)
        omega

theorem deleteInner_zero_eval (pt : PT) (o : Nat) :
    pt.deleteInner o 0 =
      ((pt.deleteLand o).1.pushChange
        (Change.delete o 0 []
          [⟨DiffType.replace, (pt.findByOffset o).startLineFeedCnt⟩]),
        [⟨DiffType.replace, (pt.findByOffset o).startLineFeedCnt⟩]) := by
  simp [PT.deleteInner, deleteLoop, List.range_succ]

theorem doUndo_delete_nil (pt : PT) (s l : Nat) (d : List Diff) :
    pt.doUndo (Change.delete s l [] d) =
      (pt, d.map fun x =>
        if x.type = DiffType.remove then { x with type := DiffType.insert } else x) := by
  simp only [PT.doUndo, insertPiecesLeftLoop, insertPiecesRightLoop]
  split
  · split <;> rfl
  · split <;> rfl

end PieceTreeSpec

/-- C10: for every offset (in range, on a state satisfying the engine's own
invariants), `delete(offset, 0)` removes no content — `get_text()` is
unchanged — yet it still returns exactly one diff of type `replace` and pushes
a `DeleteChange` with an empty captured-piece list onto the change history (as
its own group when no group is open), so a later `undo()` consumes this no-op
entry: the undo stack returns to its previous value while the text again stays
unchanged. -/
theorem C10_delete_zero_noop (pt : PieceTreeSpec.PT) (offset : Nat)
    (q : PieceTreeSpec.NodePiece) (qs : List PieceTreeSpec.NodePiece)
    (hp : pt.pieces = q :: qs) (hq1 : q.length = 1)
    (hpos : ∀ p ∈ pt.pieces, 1 ≤ p.length)
    (ho : offset + 1 ≤ pt.size)
    (hpend : pt.history.pending = none)
    (happ : pt.history.applying = false) :
    (pt.delete offset 0).1.getText = pt.getText ∧
    (∃ ln, (pt.delete offset 0).2 = [⟨PieceTreeSpec.DiffType.replace, ln⟩] ∧
      (pt.delete offset 0).1.history.undoStack =
        [PieceTreeSpec.Change.delete (offset + 1) 0 []
          [⟨PieceTreeSpec.DiffType.replace, ln⟩]] :: pt.history.undoStack) ∧
    ((pt.delete offset 0).1.undo).1.getText = pt.getText ∧
    ((pt.delete offset 0).1.undo).1.history.undoStack = pt.history.undoStack := by
  obtain ⟨qs1, n, hland, hflat, hsum⟩ :=
    deleteLand_spec pt (offset + 1) q qs hp hq1 hpos (by omega) ho
  have hdel : pt.delete offset 0 = pt.deleteInner (offset + 1) 0 := rfl
  have heval := deleteInner_zero_eval pt (offset + 1)
  have hfst : (pt.deleteLand (offset + 1)).1 = { pt with pieces := q :: qs1 } :=
    congrArg Prod.fst hland
  set L := (pt.findByOffset (offset + 1)).startLineFeedCnt with hL
  set c : PieceTreeSpec.Change :=
    PieceTreeSpec.Change.delete (offset + 1) 0 []
      [⟨PieceTreeSpec.DiffType.replace, L⟩] with hc
  have hpush : pt.history.push c =
      { pt.history with
          undoStack := [c] :: pt.history.undoStack
          redoStack := [] } := by
    simp [PieceTreeSpec.ChangeStack.push, happ, hpend]
  have hres1 : (pt.delete offset 0).1 = (pt.deleteLand (offset + 1)).1.pushChange c := by
    rw [hdel, heval]
  have hres2 : (pt.delete offset 0).2 = [⟨PieceTreeSpec.DiffType.replace, L⟩] := by
    rw [hdel, heval]
  have hX : (pt.delete offset 0).1 =
      (⟨pt.buffers, q :: qs1,
        { pt.history with
            undoStack := [c] :: pt.history.undoStack
            redoStack := [] }⟩ : PieceTreeSpec.PT) := by
    rw [hres1, hfst]
    refine PieceTreeSpec.PT_ext _ _ rfl rfl ?_
    show pt.history.push c = _
    rw [hpush]
  have hu : (((⟨pt.buffers, q :: qs1,
      { pt.history with
          undoStack := [c] :: pt.history.undoStack
          redoStack := [] }⟩ : PieceTreeSpec.PT)).undo).1 =
      ⟨pt.buffers, q :: qs1,
        ⟨pt.history.undoStack, [[c]], pt.history.pending, false⟩⟩ := by
    rw [hc]
    simp [PT.undo, doUndo_delete_nil]
  refine ⟨?_, ⟨L, hres2, ?_⟩, ?_, ?_⟩
  · rw [hX, getText_flat, getText_flat, hp]
    simp only [List.drop_succ_cons, List.drop_zero]
    exact hflat
  · rw [hX]
  · rw [hX, hu, getText_flat, getText_flat, hp]
    simp only [List.drop_succ_cons, List.drop_zero]
    exact hflat
  · rw [hX, hu]

/-- Witness for C10: concrete run at `X1` (fresh tree holding `"ab"`),
`delete(1, 0)`; all hypotheses discharged by `decide`. -/
theorem C10_witness :
    (X1.delete 1 0).1.getText = X1.getText ∧
    (∃ ln, (X1.delete 1 0).2 = [⟨PieceTreeSpec.DiffType.replace, ln⟩] ∧
      (X1.delete 1 0).1.history.undoStack =
        [PieceTreeSpec.Change.delete (1 + 1) 0 []
          [⟨PieceTreeSpec.DiffType.replace, ln⟩]] :: X1.history.undoStack) ∧
    ((X1.delete 1 0).1.undo).1.getText = X1.getText ∧
    ((X1.delete 1 0).1.undo).1.history.undoStack = X1.history.undoStack :=
  C10_delete_zero_noop X1 1 ⟨0, 0, 1, 1, none⟩ [⟨0, 1, 2, 0, none⟩]
    (by decide) (by decide) (by decide) (by decide) (by decide) (by decide)

namespace PieceTreeSpec

theorem insertStep_not_lf (a b c : Bool) (m : Option MetaVal) (st : InsState) (x : Char)
    (hx : ¬ x = '\n') :
    insertStep a b c m st x = { st with txt := st.txt ++ [x] } := by
  rw [insertStep, if_neg hx]

theorem foldl_insertStep_nolf (a b c : Bool) (m : Option MetaVal) (st : InsState)
    (text : List Char) (h : '\n' ∉ text) :
    text.foldl (insertStep a b c m) st = { st with txt := st.txt ++ text } := by
  induction text generalizing st with
  | nil => simp
  | cons x xs ih =>
    have hx : ¬ x = '\n' := by
      intro hcon
      rw [hcon] at h
      exact h (List.mem_cons_self _ _)
    have hxs : '\n' ∉ xs := by
      intro hcon
      exact h (List.mem_cons_of_mem _ hcon)
    rw [List.foldl_cons, insertStep_not_lf a b c m st x hx, ih _ hxs]
    simp

end PieceTreeSpec

namespace PieceTreeSpec

theorem insertInner_coalesce_eval (pt : PT) (o : Nat) (text : List Char) (k slf : Nat)
    (p : NodePiece)
    (hland : pt.insertLand o = (pt, some k, slf))
    (hpk : pt.pieces.getD k sentinelPiece = p)
    (hb : p.bufferIndex = 0) (hlf : p.lineFeedCnt = 0)
    (hend : (pt.buffers.headD []).length = p.start + p.length)
    (hne : text ≠ []) (hnolf : '\n' ∉ text) :
    (pt.insertInner o text none).1.buffers = appendBuf0 pt.buffers text ∧
    (pt.insertInner o text none).1.pieces =
      pt.pieces.set k { p with length := p.length + text.length } := by
  have hp0 : pt.pieceAt (some k) = p := by
    rw [PT.pieceAt]
    exact hpk
  have htxtne : text.isEmpty = false := by
    cases text with
    | nil => exact absurd rfl hne
    | cons y ys => rfl
  have hpk2 : pt.pieces[k]?.getD sentinelPiece = p := by
    rw [← List.getD_eq_getElem?_getD]
    exact hpk
  have hfold : ∀ (a b c : Bool),
      text.foldl (insertStep a b c none) (⟨pt, some k, [], 0⟩ : InsState) =
        (⟨pt, some k, text, 0⟩ : InsState) := by
    intro a b c
    rw [foldl_insertStep_nolf a b c none _ text hnolf]
    rfl
  have hcoal : coalesceTxt ⟨pt, some k, text, 0⟩ =
      (⟨{ pt with
          buffers := appendBuf0 pt.buffers text
          pieces := pt.pieces.set k { p with length := p.length + text.length } },
        some k, text, 0⟩ : InsState) := by
    simp only [coalesceTxt]
    rw [List.getD_eq_getElem?_getD] at hpk
    simp [hpk]
  have hend2 : (pt.buffers.head?.getD []).length = p.start + p.length := by
    rw [← List.headD_eq_head?_getD]
    exact hend
  constructor <;>
    simp [PT.insertInner, hland, hp0, hb, hlf, hend, hend2, hfold, flushTxt, htxtne, hcoal,
      PT.pushChange, hpk2]

end PieceTreeSpec

/-- C7: an insert of line-feed-free non-empty text with no meta whose landing
leaves the tree unchanged and hands a node (the insertion point is at that
node's end) with buffer index 0, no line feeds, and a slice ending exactly at
the current end of the append buffer, appends the text to buffer 0 and grows
that node's piece length by the text's length without creating a new node; in
particular `insert(0, "a"); insert(1, "b"); insert(2, "c")` leaves the content
`"abc"` held by a single piece and `get_text() == "abc"`. -/
theorem C7_continuous_append_coalesce (pt : PieceTreeSpec.PT) (offset : Nat)
    (text : List Char) (k slf : Nat) (p : PieceTreeSpec.NodePiece)
    (hland : pt.insertLand (offset + 1) = (pt, some k, slf))
    (hpk : pt.pieces.getD k PieceTreeSpec.sentinelPiece = p)
    (hb : p.bufferIndex = 0) (hlf : p.lineFeedCnt = 0)
    (hend : (pt.buffers.headD []).length = p.start + p.length)
    (hne : text ≠ []) (hnolf : '\n' ∉ text) :
    (pt.insert offset text none).1.buffers = appendBuf0 pt.buffers text ∧
    (pt.insert offset text none).1.pieces =
      pt.pieces.set k { p with length := p.length + text.length } ∧
    (pt.insert offset text none).1.pieces.length = pt.pieces.length ∧
    (((mkTree.insert 0 ['a'] none).1.insert 1 ['b'] none).1.insert 2 ['c'] none).1.getText =
      ['a', 'b', 'c'] ∧
    (((mkTree.insert 0 ['a'] none).1.insert 1 ['b'] none).1.insert 2 ['c'] none).1.getPieces =
      [(['a', 'b', 'c'], 3, none)] := by
  obtain ⟨h1, h2⟩ :=
    insertInner_coalesce_eval pt (offset + 1) text k slf p hland hpk hb hlf hend hne hnolf
  have h2i : (pt.insert offset text none).1.pieces =
      pt.pieces.set k { p with length := p.length + text.length } := h2
  refine ⟨h1, h2i, ?_, by decide, by decide⟩
  rw [h2i, List.length_set]

/-- Witness for C7: concrete run at `Ta` (fresh tree holding `"a"`),
`insert(1, "b")` coalescing into the `"a"` piece; all hypotheses discharged by
`decide`. -/
theorem C7_witness :
    (Ta.insert 1 ['b'] none).1.buffers = appendBuf0 Ta.buffers ['b'] ∧
    (Ta.insert 1 ['b'] none).1.pieces =
      Ta.pieces.set 1 { (⟨0, 1, 1, 0, none⟩ : PieceTreeSpec.NodePiece) with
        length := (⟨0, 1, 1, 0, none⟩ : PieceTreeSpec.NodePiece).length + ['b'].length } ∧
    (Ta.insert 1 ['b'] none).1.pieces.length = Ta.pieces.length ∧
    (((mkTree.insert 0 ['a'] none).1.insert 1 ['b'] none).1.insert 2 ['c'] none).1.getText =
      ['a', 'b', 'c'] ∧
    (((mkTree.insert 0 ['a'] none).1.insert 1 ['b'] none).1.insert 2 ['c'] none).1.getPieces =
      [(['a', 'b', 'c'], 3, none)] :=
  C7_continuous_append_coalesce Ta 1 ['b'] 1 1 ⟨0, 1, 1, 0, none⟩
    (by decide) (by decide) (by decide) (by decide) (by decide) (by decide) (by decide)

namespace PieceTreeSpec

theorem deleteNodeIdx_hist (pt : PT) (n : Option Nat) :
    (pt.deleteNodeIdx n).history = pt.history := by
  cases n <;> rfl

theorem setPiece_hist (pt : PT) (n : Option Nat) (p : NodePiece) :
    (pt.setPiece n p).history = pt.history := by
  cases n <;> rfl

theorem setPieceMeta_hist (pt : PT) (n : Option Nat) (m : Option MetaVal) :
    (pt.setPieceMeta n m).history = pt.history := by
  cases n with
  | none => rfl
  | some i =>
    simp only [PT.setPieceMeta]
    split <;> rfl

theorem splitNode_hist (pt : PT) (i r : Nat) : (pt.splitNode i r).1.history = pt.history := rfl

theorem insertFixedRight_hist (pt : PT) (n : Option Nat) (p : NodePiece) :
    ((pt.insertFixedRight n p).1).history = pt.history := by
  cases n <;> rfl

theorem createPiece_hist (pt : PT) (t : List Char) (m : Option MetaVal) (lf : Nat) :
    ((pt.createPiece t m lf).2).history = pt.history := by
  simp only [PT.createPiece]
  split <;> rfl

theorem insertLand_hist (pt : PT) (o : Nat) : (pt.insertLand o).1.history = pt.history := by
  simp only [PT.insertLand]
  split
  · rfl
  · split <;> rfl

theorem deleteLand_hist (pt : PT) (o : Nat) : (pt.deleteLand o).1.history = pt.history := by
  simp only [PT.deleteLand]
  split
  · split <;> rfl
  · rfl

theorem formatLand_hist (pt : PT) (o : Nat) : (pt.formatLand o).1.history = pt.history := by
  simp only [PT.formatLand]
  split
  · rfl
  · split <;> rfl

theorem coalesceTxt_hist (st : InsState) : (coalesceTxt st).pt.history = st.pt.history := by
  simp only [coalesceTxt]
  split <;> rfl

theorem newTxtPiece_hist (m : Option MetaVal) (st : InsState) :
    (newTxtPiece m st).pt.history = st.pt.history := by
  simp only [newTxtPiece, insertFixedRight_hist, createPiece_hist]

theorem flushTxt_hist (a b c : Bool) (m : Option MetaVal) (st : InsState) :
    (flushTxt a b c m st).pt.history = st.pt.history := by
  simp only [flushTxt]
  split
  · split
    · exact coalesceTxt_hist st
    · split
      · exact newTxtPiece_hist m st
      · rfl
  · split
    · exact newTxtPiece_hist m st
    · rfl

theorem insertStep_hist (a b c : Bool) (m : Option MetaVal) (st : InsState) (x : Char) :
    (insertStep a b c m st x).pt.history = st.pt.history := by
  simp only [insertStep]
  split
  · simp only [insertFixedRight_hist, createPiece_hist, flushTxt_hist]
  · rfl

theorem foldl_insertStep_hist (a b c : Bool) (m : Option MetaVal) (text : List Char) :
    ∀ st : InsState, (text.foldl (insertStep a b c m) st).pt.history = st.pt.history := by
  induction text with
  | nil => intro st; rfl
  | cons x xs ih =>
    intro st
    rw [List.foldl_cons, ih, insertStep_hist]

theorem deleteLoop_hist (fuel : Nat) :
    ∀ (pt : PT) (n : Option Nat) (len : Nat) (acc : List NodePiece) (lfc : Nat),
      (deleteLoop fuel pt n len acc lfc).1.history = pt.history := by
  induction fuel with
  | zero => intro pt n len acc lfc; rfl
  | succ f ih =>
    intro pt n len acc lfc
    simp only [deleteLoop]
    split
    · rfl
    · split
      · exact deleteNodeIdx_hist pt n
      · split
        · rw [ih]
          exact deleteNodeIdx_hist pt n
        · exact setPiece_hist pt n _

theorem formatLoop_hist (fuel : Nat) :
    ∀ (pt : PT) (n : Option Nat) (len off : Nat) (m : MetaVal) (ty : PieceType)
      (acc : List PiecePatch) (lfc : Nat),
      (formatLoop fuel pt n len off m ty acc lfc).1.history = pt.history := by
  induction fuel with
  | zero => intro pt n len off m ty acc lfc; rfl
  | succ f ih =>
    intro pt n len off m ty acc lfc
    simp only [formatLoop]
    split
    · rfl
    · split
      · rw [ih]
      · split
        · split
          · rw [ih]
            exact setPieceMeta_hist pt n _
          · rw [ih]
        · split
          · rw [ih, setPieceMeta_hist]
            rfl
          · rw [ih]
            rfl

end PieceTreeSpec

namespace PieceTreeSpec

theorem exists_push_of_hist (pt X : PT) (c : Change) (h : X.history = pt.history) :
    ∃ c2, (X.pushChange c).history = pt.history.push c2 := by
  refine ⟨c, ?_⟩
  rw [← h]
  rfl

theorem insertInner_hist (pt : PT) (o : Nat) (t : List Char) (m : Option MetaVal) :
    ∃ c, (pt.insertInner o t m).1.history = pt.history.push c := by
  simp only [PT.insertInner]
  apply exists_push_of_hist
  simp only [flushTxt_hist, foldl_insertStep_hist, insertLand_hist]

theorem deleteInner_hist (pt : PT) (o len : Nat) :
    ∃ c, (pt.deleteInner o len).1.history = pt.history.push c := by
  simp only [PT.deleteInner]
  apply exists_push_of_hist
  simp only [deleteLoop_hist, deleteLand_hist]

theorem formatInner_hist (pt : PT) (o len : Nat) (m : MetaVal) (ty : PieceType) :
    ∃ c, (pt.formatInner o len m ty).1.history = pt.history.push c := by
  simp only [PT.formatInner]
  apply exists_push_of_hist
  simp only [formatLoop_hist, formatLand_hist]

theorem applyMutation_hist (pt : PT) (mu : Mutation) :
    ∃ c, (pt.applyMutation mu).history = pt.history.push c := by
  cases mu with
  | ins o t m => exact insertInner_hist pt (o + 1) t m
  | del o l => exact deleteInner_hist pt (o + 1) l
  | fmt o l m => exact formatInner_hist pt (o + 1) l m PieceType.ALL

theorem push_fields (cs : ChangeStack) (c : Change) (l : List Change)
    (happ : cs.applying = false) (hpend : cs.pending = some l) :
    cs.push c = { cs with
      pending := some (l ++ [c])
      redoStack := [] } := by
  simp [ChangeStack.push, happ, hpend]

theorem foldl_applyMutation_group (ms : List Mutation) :
    ∀ (pt : PT) (l : List Change),
      pt.history.applying = false → pt.history.pending = some l →
      ∃ cs : List Change, cs.length = ms.length ∧
        (ms.foldl PT.applyMutation pt).history.applying = false ∧
        (ms.foldl PT.applyMutation pt).history.pending = some (l ++ cs) ∧
        (ms.foldl PT.applyMutation pt).history.undoStack = pt.history.undoStack := by
  induction ms with
  | nil =>
    intro pt l happ hpend
    exact ⟨[], rfl, happ, by simpa using hpend, rfl⟩
  | cons mu ms ih =>
    intro pt l happ hpend
    obtain ⟨c, hc⟩ := applyMutation_hist pt mu
    have hh : (pt.applyMutation mu).history = { pt.history with
        pending := some (l ++ [c])
        redoStack := [] } := by
      rw [hc, push_fields pt.history c l happ hpend]
    obtain ⟨cs, hlen, hA, hP, hU⟩ := ih (pt.applyMutation mu) (l ++ [c])
      (by rw [hh]; exact happ) (by rw [hh])
    refine ⟨c :: cs, by simpa using hlen, ?_, ?_, ?_⟩
    · simpa using hA
    · rw [List.foldl_cons] at *
      rw [hP]
      simp
    · rw [List.foldl_cons] at *
      rw [hU, hh]

end PieceTreeSpec

/-- C8: `change(fn)` wraps the callback in try/catch with an empty handler, so
a throwing callback (modelled by the list of mutations it executed before the
throw, plus a flag telling whether it throws) yields exactly the state of a
returning callback with the same executed mutations: no exception reaches the
caller, the group opened by `change` is closed (pending none, recording not
left suppressed), and the executed mutations are recorded as one new group on
the undo stack, one change per mutation. -/
theorem C8_change_swallows (pt : PieceTreeSpec.PT) (executed : List PieceTreeSpec.Mutation)
    (happ : pt.history.applying = false) :
    pt.change executed true = pt.change executed false ∧
    (pt.change executed true).history.pending = none ∧
    (pt.change executed true).history.applying = false ∧
    ∃ G : List PieceTreeSpec.Change, G.length = executed.length ∧
      (pt.change executed true).history.undoStack = G :: pt.history.undoStack := by
  have hS : pt.startChange.history.applying = false := happ
  have hSp : pt.startChange.history.pending = some [] := rfl
  obtain ⟨cs, hlen, hA, hP, hU⟩ := foldl_applyMutation_group executed pt.startChange [] hS hSp
  have hfin : (pt.change executed true).history =
      (executed.foldl PieceTreeSpec.PT.applyMutation pt.startChange).history.endChange := rfl
  refine ⟨rfl, ?_, ?_, ⟨cs, hlen, ?_⟩⟩
  · rw [hfin]
    simp [PieceTreeSpec.ChangeStack.endChange, hP]
  · rw [hfin]
    simp [PieceTreeSpec.ChangeStack.endChange, hP, hA]
  · rw [hfin]
    simp [PieceTreeSpec.ChangeStack.endChange, hP, hU]
    rfl

/-- Witness for C8: a throwing callback on the fresh tree that executed
`insert(0, "x")` and `delete(0, 1)` before the throw; the hypothesis is
discharged by `decide`. -/
theorem C8_witness :
    mkTree.change [.ins 0 ['x'] none, .del 0 1] true =
      mkTree.change [.ins 0 ['x'] none, .del 0 1] false ∧
    (mkTree.change [.ins 0 ['x'] none, .del 0 1] true).history.pending = none ∧
    (mkTree.change [.ins 0 ['x'] none, .del 0 1] true).history.applying = false ∧
    ∃ G : List PieceTreeSpec.Change,
      G.length = ([.ins 0 ['x'] none, .del 0 1] : List PieceTreeSpec.Mutation).length ∧
      (mkTree.change [.ins 0 ['x'] none, .del 0 1] true).history.undoStack =
        G :: mkTree.history.undoStack :=
  C8_change_swallows mkTree [.ins 0 ['x'] none, .del 0 1] (by decide)

namespace PieceNodeList

theorem storedNodeCnt_eq {t : NTree} (h : aggOk t = true) :
    storedNodeCnt t = t.inorder.length := by
  cases t with
  | nil => rfl
  | node l d r =>
    obtain ⟨_, _, _, _, _, _, h7, h8⟩ := aggOk_node h
    simp [storedNodeCnt, NTree.inorder, h7, h8]
    omega

theorem aggOk_mk_fields {l r : NTree} {d : NData} (hl : aggOk l = true) (hr : aggOk r = true)
    (h3 : d.leftSize = sumLen l.inorder) (h4 : d.rightSize = sumLen r.inorder)
    (h5 : d.leftLineFeedCnt = sumLF l.inorder) (h6 : d.rightLineFeedCnt = sumLF r.inorder)
    (h7 : d.leftNodeCnt = l.inorder.length) (h8 : d.rightNodeCnt = r.inorder.length) :
    aggOk (.node l d r) = true := by
  simp [aggOk, hl, hr, h3, h4, h5, h6, h7, h8]

theorem aggOk_mk {l r : NTree} (d : NData) (hl : aggOk l = true) (hr : aggOk r = true) :
    aggOk (.node l (d.updateMeta l r) r) = true := by
  refine aggOk_mk_fields hl hr ?_ ?_ ?_ ?_ ?_ ?_ <;>
    simp [NData.updateMeta, listSize_eq hl, listSize_eq hr, listLF_eq hl, listLF_eq hr,
      storedNodeCnt_eq hl, storedNodeCnt_eq hr]

theorem leftRotate_inorder (t : NTree) : t.leftRotate.inorder = t.inorder := by
  cases t with
  | nil => rfl
  | node a dx r =>
    cases r with
    | nil => rfl
    | node b dy c =>
      simp [NTree.leftRotate, NTree.inorder, NData.updateMeta]

theorem rightRotate_inorder (t : NTree) : t.rightRotate.inorder = t.inorder := by
  cases t with
  | nil => rfl
  | node l dy c =>
    cases l with
    | nil => rfl
    | node a dx b =>
      simp [NTree.rightRotate, NTree.inorder, NData.updateMeta]

theorem leftRotate_aggOk {t : NTree} (h : aggOk t = true) : aggOk t.leftRotate = true := by
  cases t with
  | nil => exact h
  | node a dx r =>
    cases r with
    | nil => exact h
    | node b dy c =>
      obtain ⟨ha, hr, _⟩ := aggOk_node h
      obtain ⟨hb, hc, _⟩ := aggOk_node hr
      exact aggOk_mk dy (aggOk_mk dx ha hb) hc

theorem rightRotate_aggOk {t : NTree} (h : aggOk t = true) : aggOk t.rightRotate = true := by
  cases t with
  | nil => exact h
  | node l dy c =>
    cases l with
    | nil => exact h
    | node a dx b =>
      obtain ⟨hl, hc, _⟩ := aggOk_node h
      obtain ⟨ha, hb, _⟩ := aggOk_node hl
      exact aggOk_mk dx ha (aggOk_mk dy hb hc)

theorem setColor_inorder (t : NTree) (c : NColor) : (t.setColor c).inorder = t.inorder := by
  cases t <;> rfl

theorem setColor_aggOk {t : NTree} (c : NColor) (h : aggOk t = true) :
    aggOk (t.setColor c) = true := by
  cases t with
  | nil => exact h
  | node l d r => exact h

theorem aggOk_plug_focus (ctx : List (NDir × NData × NTree)) :
    ∀ t, aggOk (plug t ctx) = true → aggOk t = true := by
  induction ctx with
  | nil => exact fun t h => h
  | cons f ctx ih =>
    obtain ⟨dir, d, s⟩ := f
    cases dir with
    | left => exact fun t h => (aggOk_node (ih _ h)).1
    | right => exact fun t h => (aggOk_node (ih _ h)).2.1

theorem ctxOk_of_plug (ctx : List (NDir × NData × NTree)) :
    ∀ t, aggOk (plug t ctx) = true → ctxOk ctx = true := by
  induction ctx with
  | nil => exact fun t _ => rfl
  | cons f ctx ih =>
    obtain ⟨dir, d, s⟩ := f
    cases dir with
    | left =>
      intro t h
      have hnode := aggOk_plug_focus ctx _ h
      simp [ctxOk, (aggOk_node hnode).2.1, ih _ h]
    | right =>
      intro t h
      have hnode := aggOk_plug_focus ctx _ h
      simp [ctxOk, (aggOk_node hnode).1, ih _ h]

theorem plug_congr (ctx : List (NDir × NData × NTree)) :
    ∀ (t t2 : NTree), t2.inorder = t.inorder → aggOk t2 = true →
      aggOk (plug t ctx) = true → aggOk (plug t2 ctx) = true := by
  induction ctx with
  | nil => exact fun t t2 _ ha _ => ha
  | cons f ctx ih =>
    obtain ⟨dir, d, s⟩ := f
    cases dir with
    | left =>
      intro t t2 hio ha h
      have hnode := aggOk_plug_focus ctx _ h
      obtain ⟨ht, hs, h3, h4, h5, h6, h7, h8⟩ := aggOk_node hnode
      refine ih (.node t d s) (.node t2 d s) (by simp [NTree.inorder, hio]) ?_ h
      exact aggOk_mk_fields ha hs (by rw [hio]; exact h3) h4 (by rw [hio]; exact h5) h6
        (by rw [hio]; exact h7) h8
    | right =>
      intro t t2 hio ha h
      have hnode := aggOk_plug_focus ctx _ h
      obtain ⟨hs, ht, h3, h4, h5, h6, h7, h8⟩ := aggOk_node hnode
      refine ih (.node s d t) (.node s d t2) (by simp [NTree.inorder, hio]) ?_ h
      exact aggOk_mk_fields hs ha h3 (by rw [hio]; exact h4) h5 (by rw [hio]; exact h6) h7
        (by rw [hio]; exact h8)

theorem plug_inorder_congr (ctx : List (NDir × NData × NTree)) :
    ∀ (t t2 : NTree), t2.inorder = t.inorder →
      (plug t2 ctx).inorder = (plug t ctx).inorder := by
  induction ctx with
  | nil => exact fun t t2 h => h
  | cons f ctx ih =>
    obtain ⟨dir, d, s⟩ := f
    cases dir with
    | left =>
      intro t t2 hio
      refine ih (.node t d s) (.node t2 d s) ?_
      simp [NTree.inorder, hio]
    | right =>
      intro t t2 hio
      refine ih (.node s d t) (.node s d t2) ?_
      simp [NTree.inorder, hio]

theorem plugUp_aggOk (ctx : List (NDir × NData × NTree)) :
    ∀ t, ctxOk ctx = true → aggOk t = true → aggOk (plugUp t ctx) = true := by
  induction ctx with
  | nil => exact fun t _ ha => ha
  | cons f ctx ih =>
    obtain ⟨dir, d, s⟩ := f
    intro t hc ha
    simp only [ctxOk, Bool.and_eq_true] at hc
    cases dir with
    | left => exact ih _ hc.2 (aggOk_mk d ha hc.1)
    | right => exact ih _ hc.2 (aggOk_mk d hc.1 ha)

theorem updateMetaRoot_aggOk {t : NTree} (h : aggOkChildren t = true) :
    aggOk t.updateMetaRoot = true := by
  cases t with
  | nil => rfl
  | node l d r =>
    simp only [aggOkChildren, Bool.and_eq_true] at h
    exact aggOk_mk d h.1 h.2

end PieceNodeList

/-- C3: aggregate integrity is preserved by every structural change the engine
performs on the tree.  (1)/(2) A rotation applied at any position of an
aggregate-correct tree — pivoting the child up and recomputing exactly the two
pivoted nodes (`x.updateMeta(); y.updateMeta()`, pieceNodeList.ts lines
395–463) — leaves every node's six aggregate fields equal to the actual
subtree sums and preserves the in-order piece sequence.  (3) The fix-ups'
recolourings do the same.  (4) Replacing the subtree at any position by one
whose children are aggregate-correct and then running `updateMetaUpward` —
which recomputes the focus and each ancestor up to the root — re-establishes
integrity of the whole tree (this covers node attachment in
`insertBefore`/`insertAfter`, `transplant` inside `deleteNode`, and in-place
piece mutations); public operations compose these steps, so integrity holds
after each of them. -/
theorem C3_aggregate_integrity :
    (∀ (t : PieceNodeList.NTree) (ctx : List (PieceNodeList.NDir × PieceNodeList.NData ×
        PieceNodeList.NTree)),
      PieceNodeList.aggOk (PieceNodeList.plug t ctx) = true →
      PieceNodeList.aggOk (PieceNodeList.plug t.leftRotate ctx) = true ∧
      (PieceNodeList.plug t.leftRotate ctx).inorder = (PieceNodeList.plug t ctx).inorder) ∧
    (∀ (t : PieceNodeList.NTree) (ctx : List (PieceNodeList.NDir × PieceNodeList.NData ×
        PieceNodeList.NTree)),
      PieceNodeList.aggOk (PieceNodeList.plug t ctx) = true →
      PieceNodeList.aggOk (PieceNodeList.plug t.rightRotate ctx) = true ∧
      (PieceNodeList.plug t.rightRotate ctx).inorder = (PieceNodeList.plug t ctx).inorder) ∧
    (∀ (t : PieceNodeList.NTree) (c : PieceNodeList.NColor)
        (ctx : List (PieceNodeList.NDir × PieceNodeList.NData × PieceNodeList.NTree)),
      PieceNodeList.aggOk (PieceNodeList.plug t ctx) = true →
      PieceNodeList.aggOk (PieceNodeList.plug (t.setColor c) ctx) = true ∧
      (PieceNodeList.plug (t.setColor c) ctx).inorder = (PieceNodeList.plug t ctx).inorder) ∧
    (∀ (tnew : PieceNodeList.NTree)
        (ctx : List (PieceNodeList.NDir × PieceNodeList.NData × PieceNodeList.NTree)),
      PieceNodeList.ctxOk ctx = true → PieceNodeList.aggOkChildren tnew = true →
      PieceNodeList.aggOk (PieceNodeList.updateMetaUpward tnew ctx) = true) := by
  refine ⟨?_, ?_, ?_, ?_⟩
  · intro t ctx h
    have hfoc := PieceNodeList.aggOk_plug_focus ctx t h
    exact ⟨PieceNodeList.plug_congr ctx t t.leftRotate (PieceNodeList.leftRotate_inorder t)
        (PieceNodeList.leftRotate_aggOk hfoc) h,
      PieceNodeList.plug_inorder_congr ctx t t.leftRotate
        (PieceNodeList.leftRotate_inorder t)⟩
  · intro t ctx h
    have hfoc := PieceNodeList.aggOk_plug_focus ctx t h
    exact ⟨PieceNodeList.plug_congr ctx t t.rightRotate (PieceNodeList.rightRotate_inorder t)
        (PieceNodeList.rightRotate_aggOk hfoc) h,
      PieceNodeList.plug_inorder_congr ctx t t.rightRotate
        (PieceNodeList.rightRotate_inorder t)⟩
  · intro t c ctx h
    have hfoc := PieceNodeList.aggOk_plug_focus ctx t h
    exact ⟨PieceNodeList.plug_congr ctx t (t.setColor c) (PieceNodeList.setColor_inorder t c)
        (PieceNodeList.setColor_aggOk c hfoc) h,
      PieceNodeList.plug_inorder_congr ctx t (t.setColor c)
        (PieceNodeList.setColor_inorder t c)⟩
  · intro tnew ctx hc hch
    exact PieceNodeList.plugUp_aggOk ctx _ hc (PieceNodeList.updateMetaRoot_aggOk hch)

/-- Witness for C3: a genuine left rotation on the two-node right-leaning
tree, a right rotation on the two-node left-leaning tree, a recolouring, and
an `updateMetaUpward` repair under a stale ancestor frame; hypotheses
discharged by `decide`. -/
theorem C3_witness :
    (PieceNodeList.aggOk (PieceNodeList.plug PieceNodeList.rotTree.leftRotate []) = true ∧
      (PieceNodeList.plug PieceNodeList.rotTree.leftRotate []).inorder =
        (PieceNodeList.plug PieceNodeList.rotTree []).inorder) ∧
    (PieceNodeList.aggOk (PieceNodeList.plug PieceNodeList.twoTree.rightRotate []) = true ∧
      (PieceNodeList.plug PieceNodeList.twoTree.rightRotate []).inorder =
        (PieceNodeList.plug PieceNodeList.twoTree []).inorder) ∧
    (PieceNodeList.aggOk
        (PieceNodeList.plug (PieceNodeList.findTree.setColor .red) []) = true ∧
      (PieceNodeList.plug (PieceNodeList.findTree.setColor .red) []).inorder =
        (PieceNodeList.plug PieceNodeList.findTree []).inorder) ∧
    PieceNodeList.aggOk
      (PieceNodeList.updateMetaUpward (PieceNodeList.leafN PieceNodeList.pA)
        [(.left, { piece := PieceNodeList.pC }, PieceNodeList.leafN PieceNodeList.pB)]) =
      true :=
  ⟨C3_aggregate_integrity.1 PieceNodeList.rotTree [] (by decide),
    C3_aggregate_integrity.2.1 PieceNodeList.twoTree [] (by decide),
    C3_aggregate_integrity.2.2.1 PieceNodeList.findTree .red [] (by decide),
    C3_aggregate_integrity.2.2.2 (PieceNodeList.leafN PieceNodeList.pA)
      [(.left, { piece := PieceNodeList.pC }, PieceNodeList.leafN PieceNodeList.pB)]
      (by decide) (by decide)⟩

/-- C1 counterexample: the claimed byte-for-byte round trip fails.  (1) After
`insert(0, "ab")` then `insert(1, "X")` — a splitting insert — `undo()`
restores `get_text()` but not `get_pieces()`: the `"ab"` piece stays split
into `"a"` and `"b"`.  (2) With a group holding a meta-only insert
(`insert(0, "", {age: 7})` after `insert(0, "ab")`), even `get_text()` is not
restored: undoing the meta insert deletes zero characters and leaves its
weight-1 non-text piece behind, so the second `undo()` deletes a shifted
range and yields `"b"` instead of the empty text. -/
theorem C1_counterexample :
    ((X2.undo).1.getText = X1.getText ∧
      (X2.undo).1.getPieces = [(['a'], 1, none), (['b'], 1, none)] ∧
      X1.getPieces = [(['a', 'b'], 2, none)] ∧
      (X2.undo).1.getPieces ≠ X1.getPieces) ∧
    (((Y2.undo).1.undo).1.getText = ['b'] ∧
      mkTree.getText = [] ∧
      ((Y2.undo).1.undo).1.getText ≠ mkTree.getText) := by
  exact ⟨⟨by decide, by decide, by decide, by decide⟩, by decide, by decide, by decide⟩
namespace PieceTreeSpec

theorem appendBuf0_headD (bufs : List (List Char)) (t : List Char) :
    (appendBuf0 bufs t).headD [] = bufs.headD [] ++ t := by
  cases bufs <;> rfl

theorem getD_appendBuf0 (bufs : List (List Char)) (t : List Char) (i : Nat) :
    (appendBuf0 bufs t).getD i [] =
      if i = 0 then bufs.headD [] ++ t else bufs.getD i [] := by
  cases bufs <;> cases i <;> simp [appendBuf0]

theorem headD_eq_getD_zero (bufs : List (List Char)) : bufs.headD [] = bufs.getD 0 [] := by
  cases bufs <;> rfl

theorem textB_appendBuf0 (bufs : List (List Char)) (t : List Char) (p : NodePiece)
    (h : (textB bufs p).length = p.length) :
    textB (appendBuf0 bufs t) p = textB bufs p := by
  by_cases hb : p.bufferIndex < 0
  · simp [textB, hb]
  · rcases Nat.eq_zero_or_pos p.length with hL | hL
    · simp [textB, hb, hL]
    simp only [textB, if_neg hb] at *
    rw [getD_appendBuf0]
    by_cases hi : p.bufferIndex.toNat = 0
    · rw [if_pos hi]
      rw [hi] at h ⊢
      rw [headD_eq_getD_zero]
      have hlen : p.start + p.length ≤ (bufs.getD 0 []).length := by
        rw [List.length_take, List.length_drop] at h
        omega
      rw [List.drop_append_eq_append_drop, List.take_append_eq_append_take]
      have h1 : p.start - (bufs.getD 0 []).length = 0 := by omega
      have h2 : p.length - ((bufs.getD 0 []).drop p.start).length = 0 := by
        rw [List.length_drop]
        omega
      rw [h1, h2]
      simp
    · rw [if_neg hi]

theorem flatTexts_appendBuf0 (bufs : List (List Char)) (t : List Char) (ps : List NodePiece)
    (h : ∀ p ∈ ps, (textB bufs p).length = p.length) :
    flatTexts (appendBuf0 bufs t) ps = flatTexts bufs ps := by
  simp only [flatTexts]
  congr 1
  apply List.map_congr_left
  intro p hp
  exact textB_appendBuf0 bufs t p (h p hp)

theorem flatTexts_len_eq (bufs : List (List Char)) (ps : List NodePiece)
    (h : ∀ p ∈ ps, (textB bufs p).length = p.length) :
    (flatTexts bufs ps).length = sumL ps := by
  induction ps with
  | nil => rfl
  | cons p rest ih =>
    rw [flatTexts_cons, sumL_cons, List.length_append, h p (List.mem_cons_self _ _),
      ih fun p2 hp2 => h p2 (List.mem_cons_of_mem _ hp2)]

end PieceTreeSpec
namespace PieceTreeSpec

theorem wf_splitLeft (pt : PT) (p : NodePiece) (r : Nat)
    (hw : (textB pt.buffers p).length = p.length) (hr1 : 1 ≤ r) (hr2 : r ≤ p.length) :
    1 ≤ (splitLeftPiece pt p r).length ∧
    (textB pt.buffers (splitLeftPiece pt p r)).length = (splitLeftPiece pt p r).length := by
  have hb : ¬ p.bufferIndex < 0 := by
    intro hcon
    rw [textB, if_pos hcon] at hw
    simp at hw
    omega
  refine ⟨hr1, ?_⟩
  simp only [textB, splitLeftPiece, if_neg hb] at *
  rw [List.length_take, List.length_drop] at *
  omega

theorem wf_splitRight (pt : PT) (p : NodePiece) (r : Nat)
    (hw : (textB pt.buffers p).length = p.length) (hr1 : 1 ≤ p.length) (hr2 : r < p.length) :
    1 ≤ (splitRightPiece pt p r).length ∧
    (textB pt.buffers (splitRightPiece pt p r)).length = (splitRightPiece pt p r).length := by
  have hb : ¬ p.bufferIndex < 0 := by
    intro hcon
    rw [textB, if_pos hcon] at hw
    simp at hw
    omega
  constructor
  · show 1 ≤ p.length - r
    omega
  · simp only [textB, splitRightPiece, if_neg hb] at *
    rw [List.length_take, List.length_drop] at *
    omega

theorem insertLand_pos (pt : PT) (o : Nat) (q : NodePiece) (qs : List NodePiece)
    (hp : pt.pieces = q :: qs) (hq1 : q.length = 1)
    (hwf : wfPieces pt.buffers pt.pieces) (h1 : 1 ≤ o) (ho : o ≤ pt.size) :
    ∃ qs1 j slf,
      pt.insertLand o = ({ pt with pieces := q :: qs1 }, some j, slf) ∧
      j < (q :: qs1).length ∧
      sumL ((q :: qs1).take (j + 1)) = o ∧
      flatTexts pt.buffers qs1 = flatTexts pt.buffers qs ∧
      sumL qs1 = sumL qs ∧
      wfPieces pt.buffers (q :: qs1) := by
  have hpos : ∀ p ∈ pt.pieces, 1 ≤ p.length := fun p hp2 => (hwf p hp2).1
  have hwf2 : wfPieces pt.buffers (q :: qs) := by rw [← hp]; exact hwf
  by_cases hclamp : pt.size ≤ o
  · have hosz : o = pt.size := by omega
    have h := insertLand_clamp pt o (by rw [hp]; simp) hpos h1 hclamp
    have hlen : pt.pieces.length - 1 = qs.length := by rw [hp]; simp
    rw [hlen] at h
    refine ⟨qs, qs.length,
      pt.lineFeedSum - (pt.pieces.getLastD sentinelPiece).lineFeedCnt +
        (pt.pieceAt (some qs.length)).lineFeedCnt, ?_, by simp, ?_, rfl, rfl, hwf2⟩
    · rw [h, ← PT_eta pt (q :: qs) hp]
    · have htake : (q :: qs).take (qs.length + 1) = q :: qs := by
        apply List.take_of_length_le
        simp
      rw [htake, hosz, size_eq_sumL, hp]
  · push_neg at hclamp
    obtain ⟨k, hk, hle, hlt, _⟩ := findByOffset_mid pt o h1 hclamp
    by_cases hb : sumL (pt.pieces.take k) = o
    · have hk1 : 1 ≤ k := by
        rcases Nat.eq_zero_or_pos k with h0 | h0
        · exfalso
          subst h0
          have hz : sumL (pt.pieces.take 0) = 0 := rfl
          omega
        · exact h0
      have h := insertLand_boundary pt k hk hpos (by omega) (by omega)
      rw [hb] at h
      refine ⟨qs, k - 1, sumF (pt.pieces.take k), ?_, ?_, ?_, rfl, rfl, hwf2⟩
      · rw [h, ← PT_eta pt (q :: qs) hp]
        cases k with
        | zero => omega
        | succ k2 => simp [predIdx]
      · rw [hp] at hk
        simp at hk
        simp
        omega
      · have hk2 : k - 1 + 1 = k := by omega
        rw [hk2, ← hp, hb]
    · have hlo : sumL (pt.pieces.take k) < o := by omega
      have hk1 : 1 ≤ k := by
        rcases Nat.eq_zero_or_pos k with h0 | h0
        · exfalso
          subst h0
          rw [sumL_take_succ pt.pieces 0 hk] at hlt
          have hq0 : pt.pieces.getD 0 sentinelPiece = q := by rw [hp]; rfl
          have hz : sumL (pt.pieces.take 0) = 0 := rfl
          rw [hq0, hq1] at hlt
          omega
        · exact h0
      have hkq : k - 1 < qs.length := by
        rw [hp] at hk
        simp at hk
        omega
      have hpk : pt.pieces[k]? = some (pt.pieces.getD k sentinelPiece) := by
        rw [List.getD_eq_getElem pt.pieces sentinelPiece hk]
        exact List.getElem?_eq_getElem hk
      have hpkq : pt.pieces.getD k sentinelPiece = qs.getD (k - 1) sentinelPiece := by
        rw [hp]
        cases k with
        | zero => omega
        | succ k2 => simp [getD_cons_succ]
      have hrlt : o - sumL (pt.pieces.take k) < (pt.pieces.getD k sentinelPiece).length := by
        rw [sumL_take_succ pt.pieces k hk] at hlt
        omega
      have hmem : pt.pieces.getD k sentinelPiece ∈ pt.pieces := getD_mem _ _ _ hk
      have hwfk := hwf _ hmem
      have hland := insertLand_interior pt k o hk h1 hclamp hlo hlt
      obtain ⟨hpieces, hbufs, hhist⟩ :=
        splitNode_pieces pt k (o - sumL (pt.pieces.take k)) (pt.pieces.getD k sentinelPiece) hpk
      obtain ⟨hwl1, hwl2⟩ := wf_splitLeft pt (pt.pieces.getD k sentinelPiece)
        (o - sumL (pt.pieces.take k)) hwfk.2 (by omega) (Nat.le_of_lt hrlt)
      obtain ⟨hwr1, hwr2⟩ := wf_splitRight pt (pt.pieces.getD k sentinelPiece)
        (o - sumL (pt.pieces.take k)) hwfk.2 hwfk.1 hrlt
      refine ⟨qs.take (k - 1) ++
          splitLeftPiece pt (pt.pieces.getD k sentinelPiece) (o - sumL (pt.pieces.take k)) ::
          splitRightPiece pt (pt.pieces.getD k sentinelPiece) (o - sumL (pt.pieces.take k)) ::
          qs.drop k, k, sumF (pt.pieces.take k), ?_, ?_, ?_, ?_, ?_, ?_⟩
      · rw [hland]
        refine congrArg (fun x => (x, some k, sumF (pt.pieces.take k))) ?_
        refine PT_ext _ _ hbufs ?_ hhist
        rw [hpieces, set_insert_split _ k _ _ hk, hp]
        cases k with
        | zero => omega
        | succ k2 =>
          simp only [List.take_succ_cons, List.drop_succ_cons, Nat.add_sub_cancel]
          rfl
      · simp only [List.length_cons, List.length_append, List.length_take, List.length_drop]
        omega
      · have htk : (qs.take (k - 1)).length = k - 1 := by
          rw [List.length_take]
          omega
        rw [List.take_succ_cons]
        have htake2 : (qs.take (k - 1) ++
            splitLeftPiece pt (pt.pieces.getD k sentinelPiece) (o - sumL (pt.pieces.take k)) ::
            splitRightPiece pt (pt.pieces.getD k sentinelPiece) (o - sumL (pt.pieces.take k)) ::
            qs.drop k).take k = qs.take (k - 1) ++
            [splitLeftPiece pt (pt.pieces.getD k sentinelPiece) (o - sumL (pt.pieces.take k))] := by
          rw [List.take_append_eq_append_take, htk]
          have hk3 : k - (k - 1) = 1 := by omega
          rw [List.take_of_length_le (by omega), hk3]
          rfl
        rw [htake2, sumL_cons, sumL_append, sumL_cons]
        have hsl : (splitLeftPiece pt (pt.pieces.getD k sentinelPiece)
            (o - sumL (pt.pieces.take k))).length = o - sumL (pt.pieces.take k) := rfl
        have hsum0 : sumL ([] : List NodePiece) = 0 := rfl
        have hsums : sumL (pt.pieces.take k) = 1 + sumL (qs.take (k - 1)) := by
          conv_lhs => rw [hp]
          cases k with
          | zero => omega
          | succ k2 =>
            rw [List.take_succ_cons, sumL_cons, hq1]
            have : k2 = k2 + 1 - 1 := by omega
            rw [← this]
        rw [hsl, hsum0, hsums]
        omega
      · have hqsplit := list_split_at qs (k - 1) sentinelPiece hkq
        have hdrop : qs.drop (k - 1 + 1) = qs.drop k := by
          congr 1
          omega
        rw [hdrop] at hqsplit
        conv_rhs => rw [hqsplit]
        rw [flatTexts_append, flatTexts_cons, flatTexts_cons, flatTexts_append, flatTexts_cons,
          ← hpkq, ← split_textB pt _ _ (Nat.le_of_lt hrlt)]
        simp [List.append_assoc]
      · have hqsplit := list_split_at qs (k - 1) sentinelPiece hkq
        have hdrop : qs.drop (k - 1 + 1) = qs.drop k := by
          congr 1
          omega
        rw [hdrop] at hqsplit
        conv_rhs => rw [hqsplit]
        rw [sumL_append, sumL_cons, sumL_cons, sumL_append, sumL_cons, ← hpkq]
        have := split_sumLen pt (pt.pieces.getD k sentinelPiece) (o - sumL (pt.pieces.take k))
          (Nat.le_of_lt hrlt)
        omega
      · intro p2 hp2
        simp only [List.mem_cons, List.mem_append] at hp2
        rcases hp2 with h | h | h | h | h
        · refine hwf2 p2 ?_
          rw [h]
          exact List.mem_cons_self _ _
        · exact hwf2 p2 (List.mem_cons_of_mem _ (List.mem_of_mem_take h))
        · subst h
          exact ⟨hwl1, hwl2⟩
        · subst h
          exact ⟨hwr1, hwr2⟩
        · exact hwf2 p2 (List.mem_cons_of_mem _ (List.mem_of_mem_drop h))

end PieceTreeSpec
namespace PieceTreeSpec

theorem insertInner_coalesce_full (pt pt2 : PT) (o : Nat) (text : List Char) (k slf : Nat)
    (p : NodePiece)
    (hland : pt.insertLand o = (pt2, some k, slf))
    (hpk : pt2.pieces.getD k sentinelPiece = p)
    (hb : p.bufferIndex = 0) (hlf : p.lineFeedCnt = 0)
    (hend : (pt2.buffers.headD []).length = p.start + p.length)
    (hne : text ≠ []) (hnolf : '\n' ∉ text) :
    pt.insertInner o text none =
      ({ pt2 with
        buffers := appendBuf0 pt2.buffers text
        pieces := pt2.pieces.set k { p with length := p.length + text.length }
        history := pt2.history.push (.insert o (0, (pt2.buffers.headD []).length, text.length)
          none [⟨DiffType.replace, slf⟩]) },
       [⟨DiffType.replace, slf⟩]) := by
  have hp0 : pt2.pieceAt (some k) = p := by
    rw [PT.pieceAt]
    exact hpk
  have htxtne : text.isEmpty = false := by
    cases text with
    | nil => exact absurd rfl hne
    | cons y ys => rfl
  have hpk2 : pt2.pieces[k]?.getD sentinelPiece = p := by
    rw [← List.getD_eq_getElem?_getD]
    exact hpk
  have hfold : ∀ (a b c : Bool),
      text.foldl (insertStep a b c none) (⟨pt2, some k, [], 0⟩ : InsState) =
        (⟨pt2, some k, text, 0⟩ : InsState) := by
    intro a b c
    rw [foldl_insertStep_nolf a b c none _ text hnolf]
    rfl
  have hcoal : coalesceTxt ⟨pt2, some k, text, 0⟩ =
      (⟨{ pt2 with
          buffers := appendBuf0 pt2.buffers text
          pieces := pt2.pieces.set k { p with length := p.length + text.length } },
        some k, text, 0⟩ : InsState) := by
    simp only [coalesceTxt]
    rw [List.getD_eq_getElem?_getD] at hpk
    simp [hpk]
  have hend2 : (pt2.buffers.head?.getD []).length = p.start + p.length := by
    rw [← List.headD_eq_head?_getD]
    exact hend
  have hlen3 : ((appendBuf0 pt2.buffers text).head?.getD []).length - text.length =
      p.start + p.length := by
    rw [← List.headD_eq_head?_getD, appendBuf0_headD, List.length_append, hend]
    omega
  simp [PT.insertInner, hland, hp0, hb, hlf, hend, hend2, hfold, flushTxt, htxtne, hcoal,
    PT.pushChange, hpk2, hlen3, List.range_succ]

theorem insertInner_newpiece_full (pt pt2 : PT) (o : Nat) (text : List Char) (k slf : Nat)
    (p : NodePiece)
    (hland : pt.insertLand o = (pt2, some k, slf))
    (hpk : pt2.pieces.getD k sentinelPiece = p)
    (hncont : ¬ (p.bufferIndex = 0 ∧
      (pt2.buffers.headD []).length = p.start + p.length ∧ p.lineFeedCnt = 0))
    (hne : text ≠ []) (hnolf : '\n' ∉ text) :
    pt.insertInner o text none =
      ({ pt2 with
        buffers := appendBuf0 pt2.buffers text
        pieces := pt2.pieces.insertIdx (k + 1)
          ⟨0, (pt2.buffers.headD []).length, text.length, 0, none⟩
        history := pt2.history.push (.insert o (0, (pt2.buffers.headD []).length, text.length)
          none [⟨DiffType.replace, slf⟩]) },
       [⟨DiffType.replace, slf⟩]) := by
  have hp0 : pt2.pieceAt (some k) = p := by
    rw [PT.pieceAt]
    exact hpk
  have htxtne : text.isEmpty = false := by
    cases text with
    | nil => exact absurd rfl hne
    | cons y ys => rfl
  have hfold : ∀ (a b c : Bool),
      text.foldl (insertStep a b c none) (⟨pt2, some k, [], 0⟩ : InsState) =
        (⟨pt2, some k, text, 0⟩ : InsState) := by
    intro a b c
    rw [foldl_insertStep_nolf a b c none _ text hnolf]
    rfl
  have hnew : newTxtPiece none ⟨pt2, some k, text, 0⟩ =
      (⟨{ pt2 with
          buffers := appendBuf0 pt2.buffers text
          pieces := pt2.pieces.insertIdx (k + 1)
            ⟨0, (pt2.buffers.headD []).length, text.length, 0, none⟩ },
        some (k + 1), text, 0⟩ : InsState) := by
    simp [newTxtPiece, PT.createPiece, hne, PT.insertFixedRight, List.headD_eq_head?_getD]
  have hend2 : (pt2.buffers.head?.getD []).length = (pt2.buffers.headD []).length := by
    rw [← List.headD_eq_head?_getD]
  have hlen3 : ((appendBuf0 pt2.buffers text).head?.getD []).length - text.length =
      (pt2.buffers.headD []).length := by
    rw [← List.headD_eq_head?_getD, appendBuf0_headD, List.length_append]
    omega
  rcases Decidable.not_and_iff_or_not.mp hncont with h0 | h03
  · simp [PT.insertInner, hland, hp0, h0, hfold, flushTxt, htxtne, hnew,
      PT.pushChange, hlen3, List.range_succ, hend2]
  rcases Decidable.not_and_iff_or_not.mp h03 with h0 | h0
  · simp [PT.insertInner, hland, hp0, h0, hfold, flushTxt, htxtne, hnew,
      PT.pushChange, hlen3, List.range_succ, hend2]
  · simp [PT.insertInner, hland, hp0, h0, hfold, flushTxt, htxtne, hnew,
      PT.pushChange, hlen3, List.range_succ, hend2]

end PieceTreeSpec
namespace PieceTreeSpec

theorem wf_ext (bufs : List (List Char)) (t : List Char) (ps : List NodePiece)
    (h : wfPieces bufs ps) : wfPieces (appendBuf0 bufs t) ps := by
  intro p hp
  obtain ⟨h1, h2⟩ := h p hp
  rw [textB_appendBuf0 bufs t p h2]
  exact ⟨h1, h2⟩

theorem flats_ext (bufs : List (List Char)) (t : List Char) (ps : List NodePiece)
    (h : wfPieces bufs ps) : flatTexts (appendBuf0 bufs t) ps = flatTexts bufs ps :=
  flatTexts_appendBuf0 bufs t ps fun p hp => (h p hp).2

theorem textB_window0 (bufs : List (List Char)) (p : NodePiece) (hb : p.bufferIndex = 0) :
    textB bufs p = ((bufs.headD []).drop p.start).take p.length := by
  rw [textB, if_neg (by omega), hb, headD_eq_getD_zero]
  rfl

theorem textB_newpiece (bufs : List (List Char)) (t : List Char) (lf : Nat)
    (m : Option MetaVal) :
    textB (appendBuf0 bufs t) ⟨0, (bufs.headD []).length, t.length, lf, m⟩ = t := by
  rw [textB_window0 _ _ rfl, appendBuf0_headD]
  simp

theorem textB_coalesce (bufs : List (List Char)) (t : List Char) (p : NodePiece)
    (hb : p.bufferIndex = 0) (hend : (bufs.headD []).length = p.start + p.length)
    (hw : (textB bufs p).length = p.length) :
    textB (appendBuf0 bufs t) { p with length := p.length + t.length } =
      textB bufs p ++ t := by
  rw [textB_window0 _ _ hb]
  rw [show ({ p with length := p.length + t.length } : NodePiece).bufferIndex = 0 from hb] at *
  rw [textB_window0 (appendBuf0 bufs t) _ hb, appendBuf0_headD]
  show ((((bufs.headD []) ++ t).drop p.start).take (p.length + t.length)) = _
  rw [List.drop_append_eq_append_drop]
  have h1 : p.start - (bufs.headD []).length = 0 := by omega
  rw [h1, List.drop_zero, List.take_append_eq_append_take]
  have h2 : (((bufs.headD []).drop p.start)).length = p.length := by
    rw [List.length_drop]
    omega
  rw [h2]
  have h3 : p.length + t.length - p.length = t.length := by omega
  rw [h3]
  rw [List.take_of_length_le (le_of_eq h2)]
  rw [List.take_of_length_le (le_refl t.length)]
  rw [List.take_of_length_le (by rw [h2]; omega)]

theorem getD_append_cons {α : Type} (A : List α) (x : α) (B : List α) (d : α) :
    (A ++ x :: B).getD A.length d = x := by
  induction A with
  | nil => rfl
  | cons a A ih => simpa using ih

theorem eraseIdx_append_cons {α : Type} (A : List α) (x : α) (B : List α) :
    (A ++ x :: B).eraseIdx A.length = A ++ B := by
  induction A with
  | nil => rfl
  | cons a A ih => simp [ih]

theorem set_append_cons {α : Type} (A : List α) (x y : α) (B : List α) :
    (A ++ x :: B).set A.length y = A ++ y :: B := by
  induction A with
  | nil => rfl
  | cons a A ih => simp [ih]

theorem take_append_cons {α : Type} (A : List α) (x : α) (B : List α) :
    (A ++ x :: B).take A.length = A := List.take_left A (x :: B)

theorem deleteLoop_exact (pt : PT) (i : Nat) (p : NodePiece) (fuel : Nat)
    (acc : List NodePiece) (lfc : Nat)
    (hget : pt.pieces.getD i sentinelPiece = p) (hlen : 1 ≤ p.length) :
    deleteLoop (fuel + 1) pt (some i) p.length acc lfc =
      (pt.deleteNodeIdx (some i), acc ++ [p], lfc + p.lineFeedCnt) := by
  have hpa : pt.pieceAt (some i) = p := by
    rw [PT.pieceAt]
    exact hget
  have hne0 : ¬ (p.length = 0) := by omega
  simp [deleteLoop, hpa, hne0]

end PieceTreeSpec
namespace PieceTreeSpec

theorem take_append_exact {α : Type} (X Y : List α) (n : Nat) (h : X.length = n) :
    (X ++ Y).take n = X := by
  subst h
  exact List.take_left X Y

theorem drop_append_exact {α : Type} (X Y : List α) (n : Nat) (h : X.length = n) :
    (X ++ Y).drop n = Y := by
  subst h
  exact List.drop_left X Y

theorem delete_exact_piece (bufs : List (List Char)) (q x : NodePiece)
    (C D : List NodePiece) (h2 : ChangeStack) (o : Nat)
    (hq1 : q.length = 1)
    (hpos : ∀ p ∈ q :: (C ++ x :: D), 1 ≤ p.length)
    (hsum : sumL (q :: C) = o)
    (hxlen : 1 ≤ x.length) :
    ∃ dc diffs2,
      PT.deleteInner ⟨bufs, q :: (C ++ x :: D), h2⟩ o x.length =
        (⟨bufs, q :: (C ++ D), h2.push dc⟩, diffs2) := by
  have ho1 : 1 ≤ o := by
    have hc := sumL_cons q C
    omega
  have hAlen : (q :: C).length = C.length + 1 := by simp
  have hS1p : (⟨bufs, q :: (C ++ x :: D), h2⟩ : PT).pieces =
      (q :: C) ++ x :: D := rfl
  have hksz : C.length + 1 < ((⟨bufs, q :: (C ++ x :: D), h2⟩ : PT).pieces).length := by
    rw [hS1p]
    simp
  have htakeA : (((⟨bufs, q :: (C ++ x :: D), h2⟩ : PT).pieces).take (C.length + 1)) =
      q :: C := by
    rw [hS1p]
    exact take_append_exact _ _ _ hAlen
  have hsA : sumL (((⟨bufs, q :: (C ++ x :: D), h2⟩ : PT).pieces).take (C.length + 1)) =
      o := by
    rw [htakeA, hsum]
  have hszS : sumL (((⟨bufs, q :: (C ++ x :: D), h2⟩ : PT).pieces).take (C.length + 1)) <
      (⟨bufs, q :: (C ++ x :: D), h2⟩ : PT).size := by
    rw [htakeA, size_eq_sumL, hS1p, sumL_append]
    have hc := sumL_cons x D
    omega
  have hfb := findByOffset_boundary (⟨bufs, q :: (C ++ x :: D), h2⟩ : PT)
    (C.length + 1) hksz hpos (by rw [hsA]; exact ho1) hszS
  rw [hsA] at hfb
  have hdl : (⟨bufs, q :: (C ++ x :: D), h2⟩ : PT).deleteLand o =
      (⟨bufs, q :: (C ++ x :: D), h2⟩, some (C.length + 1)) := by
    simp only [PT.deleteLand, hfb]
    rw [if_neg (by omega)]
  have hgetd : ((⟨bufs, q :: (C ++ x :: D), h2⟩ : PT).pieces).getD (C.length + 1)
      sentinelPiece = x := by
    rw [hS1p, ← hAlen]
    exact getD_append_cons _ _ _ _
  have hloop : ∀ fuel, deleteLoop (fuel + 1) (⟨bufs, q :: (C ++ x :: D), h2⟩ : PT)
      (some (C.length + 1)) x.length [] 0 =
      ((⟨bufs, q :: (C ++ x :: D), h2⟩ : PT).deleteNodeIdx (some (C.length + 1)), [x],
        0 + x.lineFeedCnt) := fun fuel =>
    deleteLoop_exact _ (C.length + 1) x fuel [] 0 hgetd hxlen
  have herase : (⟨bufs, q :: (C ++ x :: D), h2⟩ : PT).deleteNodeIdx (some (C.length + 1)) =
      ⟨bufs, q :: (C ++ D), h2⟩ := by
    show (⟨bufs, (q :: (C ++ x :: D)).eraseIdx (C.length + 1), h2⟩ : PT) = _
    refine PT_ext _ _ rfl ?_ rfl
    show ((q :: C) ++ x :: D).eraseIdx (C.length + 1) = q :: (C ++ D)
    rw [← hAlen, eraseIdx_append_cons]
    rfl
  simp only [PT.deleteInner, hdl, hloop, hfb, herase]
  exact ⟨_, _, rfl⟩

end PieceTreeSpec
namespace PieceTreeSpec

theorem delete_tail_of_piece (bufs : List (List Char)) (q p : NodePiece)
    (C D : List NodePiece) (h2 : ChangeStack) (o L T : Nat)
    (hq1 : q.length = 1)
    (hpos : ∀ p2 ∈ q :: (C ++ p :: D), 1 ≤ p2.length)
    (hsum : sumL (q :: C) + L = o)
    (hplen : p.length = L + T) (hL : 1 ≤ L) (hT : 1 ≤ T) :
    ∃ dc diffs2,
      PT.deleteInner ⟨bufs, q :: (C ++ p :: D), h2⟩ o T =
        (⟨bufs, q :: (C ++ ⟨p.bufferIndex, p.start, L,
          computeLineFeedCnt (((if p.bufferIndex < 0 then [] else
            bufs.getD p.bufferIndex.toNat []).drop p.start).take L), p.meta⟩ :: D),
          h2.push dc⟩, diffs2) := by
  have ho1 : 1 ≤ o := by
    have hc := sumL_cons q C
    omega
  have hAlen : (q :: C).length = C.length + 1 := by simp
  have hS1p : (⟨bufs, q :: (C ++ p :: D), h2⟩ : PT).pieces = (q :: C) ++ p :: D := rfl
  have hksz : C.length + 1 < ((⟨bufs, q :: (C ++ p :: D), h2⟩ : PT).pieces).length := by
    rw [hS1p]
    simp
  have htakeA : (((⟨bufs, q :: (C ++ p :: D), h2⟩ : PT).pieces).take (C.length + 1)) =
      q :: C := by
    rw [hS1p]
    exact take_append_exact _ _ _ hAlen
  have htakeA2 : (((⟨bufs, q :: (C ++ p :: D), h2⟩ : PT).pieces).take (C.length + 1 + 1)) =
      (q :: C) ++ [p] := by
    rw [hS1p, ← hAlen]
    rw [List.take_append_eq_append_take, List.take_of_length_le (by omega)]
    congr 1
    rw [show (q :: C).length + 1 - (q :: C).length = 1 from by omega]
    rfl
  have hdropA : ((q :: C) ++ p :: D).drop (C.length + 1 + 1) = D := by
    rw [show (q :: C) ++ p :: D = ((q :: C) ++ [p]) ++ D from by simp]
    exact drop_append_exact _ _ _ (by simp)
  have hgetd : ((⟨bufs, q :: (C ++ p :: D), h2⟩ : PT).pieces).getD (C.length + 1)
      sentinelPiece = p := by
    rw [hS1p, ← hAlen]
    exact getD_append_cons _ _ _ _
  have hpa : (⟨bufs, q :: (C ++ p :: D), h2⟩ : PT).pieceAt (some (C.length + 1)) = p := by
    rw [PT.pieceAt]
    exact hgetd
  have hosz : o < (⟨bufs, q :: (C ++ p :: D), h2⟩ : PT).size := by
    rw [size_eq_sumL, hS1p, sumL_append]
    have hc := sumL_cons p D
    omega
  obtain ⟨k, hk, hle, hlt, hfind⟩ :=
    findByOffset_mid (⟨bufs, q :: (C ++ p :: D), h2⟩ : PT) o ho1 hosz
  have hkeq : k = C.length + 1 := by
    refine take_interval_unique _ o k (C.length + 1) hle hlt ?_ ?_
    · rw [htakeA]
      omega
    · rw [htakeA2, sumL_append]
      have hc1 := sumL_cons p ([] : List NodePiece)
      have hc2 : sumL ([] : List NodePiece) = 0 := rfl
      have hc3 := sumL_cons q C
      omega
  subst hkeq
  rw [htakeA] at hfind
  have hrem : o - sumL (q :: C) = L := by omega
  have hp0 : (⟨bufs, q :: (C ++ p :: D), h2⟩ : PT).pieces[C.length + 1]? = some p := by
    rw [hS1p, List.getElem?_append_right (le_of_eq hAlen)]
    rw [hAlen]
    simp
  obtain ⟨h1s, h2s, h3s⟩ := splitNode_pieces (⟨bufs, q :: (C ++ p :: D), h2⟩ : PT)
    (C.length + 1) L p hp0
  have hsplit1 : ((⟨bufs, q :: (C ++ p :: D), h2⟩ : PT).splitNode (C.length + 1) L).1 =
      ⟨bufs, (q :: C) ++ splitLeftPiece ⟨bufs, q :: (C ++ p :: D), h2⟩ p L ::
        splitRightPiece ⟨bufs, q :: (C ++ p :: D), h2⟩ p L :: D, h2⟩ := by
    refine PT_ext _ _ h2s ?_ h3s
    rw [h1s, set_insert_split _ _ _ _ hksz, htakeA]
    rw [show ((⟨bufs, q :: (C ++ p :: D), h2⟩ : PT).pieces).drop (C.length + 1 + 1) = D from
      by rw [hS1p]; exact hdropA]
  have hdl : (⟨bufs, q :: (C ++ p :: D), h2⟩ : PT).deleteLand o =
      (⟨bufs, (q :: C) ++ splitLeftPiece ⟨bufs, q :: (C ++ p :: D), h2⟩ p L ::
        splitRightPiece ⟨bufs, q :: (C ++ p :: D), h2⟩ p L :: D, h2⟩,
        some (C.length + 1 + 1)) := by
    simp only [PT.deleteLand, hfind]
    rw [if_pos (show o ≠ sumL (q :: C) by omega)]
    rw [if_neg (show ¬ (o - sumL (q :: C) =
      ((⟨bufs, q :: (C ++ p :: D), h2⟩ : PT).pieceAt (some (C.length + 1))).length) from by
        rw [hpa, hplen]
        omega)]
    simp only [Option.getD_some]
    rw [hrem, hsplit1]
    rfl
  have hA2 : ((q :: C) ++ [splitLeftPiece ⟨bufs, q :: (C ++ p :: D), h2⟩ p L]).length =
      C.length + 1 + 1 := by simp
  have hgetd2 : (((⟨bufs, (q :: C) ++
      splitLeftPiece ⟨bufs, q :: (C ++ p :: D), h2⟩ p L ::
      splitRightPiece ⟨bufs, q :: (C ++ p :: D), h2⟩ p L :: D, h2⟩ : PT)).pieces).getD
      (C.length + 1 + 1) sentinelPiece =
      splitRightPiece ⟨bufs, q :: (C ++ p :: D), h2⟩ p L := by
    show ((q :: C) ++ splitLeftPiece ⟨bufs, q :: (C ++ p :: D), h2⟩ p L ::
      splitRightPiece ⟨bufs, q :: (C ++ p :: D), h2⟩ p L :: D).getD (C.length + 1 + 1)
        sentinelPiece = _
    rw [show (q :: C) ++ splitLeftPiece ⟨bufs, q :: (C ++ p :: D), h2⟩ p L ::
      splitRightPiece ⟨bufs, q :: (C ++ p :: D), h2⟩ p L :: D =
      ((q :: C) ++ [splitLeftPiece ⟨bufs, q :: (C ++ p :: D), h2⟩ p L]) ++
      splitRightPiece ⟨bufs, q :: (C ++ p :: D), h2⟩ p L :: D from by simp]
    rw [← hA2]
    exact getD_append_cons _ _ _ _
  have hrlen : (splitRightPiece ⟨bufs, q :: (C ++ p :: D), h2⟩ p L).length = T := by
    show p.length - L = T
    omega
  have hloop2 : ∀ fuel, deleteLoop (fuel + 1)
      (⟨bufs, (q :: C) ++ splitLeftPiece ⟨bufs, q :: (C ++ p :: D), h2⟩ p L ::
        splitRightPiece ⟨bufs, q :: (C ++ p :: D), h2⟩ p L :: D, h2⟩ : PT)
      (some (C.length + 1 + 1)) T [] 0 =
      ((⟨bufs, (q :: C) ++ splitLeftPiece ⟨bufs, q :: (C ++ p :: D), h2⟩ p L ::
        splitRightPiece ⟨bufs, q :: (C ++ p :: D), h2⟩ p L :: D, h2⟩ : PT).deleteNodeIdx
          (some (C.length + 1 + 1)),
        [splitRightPiece ⟨bufs, q :: (C ++ p :: D), h2⟩ p L],
        0 + (splitRightPiece ⟨bufs, q :: (C ++ p :: D), h2⟩ p L).lineFeedCnt) := by
    intro fuel
    rw [← hrlen]
    exact deleteLoop_exact _ (C.length + 1 + 1) _ fuel [] 0 hgetd2 (by omega)
  have herase2 : (⟨bufs, (q :: C) ++ splitLeftPiece ⟨bufs, q :: (C ++ p :: D), h2⟩ p L ::
      splitRightPiece ⟨bufs, q :: (C ++ p :: D), h2⟩ p L :: D, h2⟩ : PT).deleteNodeIdx
        (some (C.length + 1 + 1)) =
      ⟨bufs, q :: (C ++ splitLeftPiece ⟨bufs, q :: (C ++ p :: D), h2⟩ p L :: D), h2⟩ := by
    refine PT_ext _ _ rfl ?_ rfl
    show ((q :: C) ++ splitLeftPiece ⟨bufs, q :: (C ++ p :: D), h2⟩ p L ::
      splitRightPiece ⟨bufs, q :: (C ++ p :: D), h2⟩ p L :: D).eraseIdx (C.length + 1 + 1) = _
    rw [show (q :: C) ++ splitLeftPiece ⟨bufs, q :: (C ++ p :: D), h2⟩ p L ::
      splitRightPiece ⟨bufs, q :: (C ++ p :: D), h2⟩ p L :: D =
      ((q :: C) ++ [splitLeftPiece ⟨bufs, q :: (C ++ p :: D), h2⟩ p L]) ++
      splitRightPiece ⟨bufs, q :: (C ++ p :: D), h2⟩ p L :: D from by simp]
    rw [← hA2, eraseIdx_append_cons]
    simp
  simp only [PT.deleteInner, hdl, hloop2, hfind, herase2]
  exact ⟨_, _, rfl⟩

end PieceTreeSpec
namespace PieceTreeSpec

theorem ins_spec_new (pt : PT) (o : Nat) (text : List Char) (q : NodePiece)
    (qs qs1 : List NodePiece) (j slf : Nat)
    (hp : pt.pieces = q :: qs) (hq1 : q.length = 1)
    (hne : text ≠ []) (hnolf : '\n' ∉ text)
    (hland : pt.insertLand o = ({ pt with pieces := q :: qs1 }, some j, slf))
    (hjlt : j < (q :: qs1).length)
    (hsumtake : sumL ((q :: qs1).take (j + 1)) = o)
    (hflat1 : flatTexts pt.buffers qs1 = flatTexts pt.buffers qs)
    (hsum1 : sumL qs1 = sumL qs)
    (hwf1 : wfPieces pt.buffers (q :: qs1))
    (hncont : ¬ (((q :: qs1).getD j sentinelPiece).bufferIndex = 0 ∧
      (pt.buffers.headD []).length = ((q :: qs1).getD j sentinelPiece).start +
        ((q :: qs1).getD j sentinelPiece).length ∧
      ((q :: qs1).getD j sentinelPiece).lineFeedCnt = 0)) :
    ∃ (qs2 qs3 : List NodePiece) (slf2 : Nat),
      pt.insertInner o text none =
        (⟨appendBuf0 pt.buffers text, q :: qs2,
          pt.history.push (.insert o (0, (pt.buffers.headD []).length, text.length) none
            [⟨DiffType.replace, slf2⟩])⟩,
         [⟨DiffType.replace, slf2⟩]) ∧
      flatTexts (appendBuf0 pt.buffers text) qs2 =
        (flatTexts pt.buffers qs).take (o - 1) ++ text ++
          (flatTexts pt.buffers qs).drop (o - 1) ∧
      wfPieces (appendBuf0 pt.buffers text) (q :: qs2) ∧
      sumL qs2 = sumL qs + text.length ∧
      (∀ h2 : ChangeStack, ∃ dc diffs2,
        PT.deleteInner ⟨appendBuf0 pt.buffers text, q :: qs2, h2⟩ o text.length =
          (⟨appendBuf0 pt.buffers text, q :: qs3, h2.push dc⟩, diffs2)) ∧
      flatTexts (appendBuf0 pt.buffers text) qs3 = flatTexts pt.buffers qs ∧
      wfPieces (appendBuf0 pt.buffers text) (q :: qs3) ∧
      sumL qs3 = sumL qs := by
  have hjq : j ≤ qs1.length := by
    have := hjlt
    simp at this
    omega
  have hTpos : 1 ≤ text.length := by
    cases text with
    | nil => exact absurd rfl hne
    | cons a b => simp
  have hsumC : 1 + sumL (qs1.take j) = o := by
    rw [List.take_succ_cons, sumL_cons, hq1] at hsumtake
    exact hsumtake
  have ho1 : 1 ≤ o := by omega
  have heval := insertInner_newpiece_full pt { pt with pieces := q :: qs1 } o text j slf
    ((q :: qs1).getD j sentinelPiece) hland rfl hncont hne hnolf
  have hinsx : (q :: qs1).insertIdx (j + 1)
      (⟨0, (pt.buffers.headD []).length, text.length, 0, none⟩ : NodePiece) =
      q :: (qs1.take j ++ ⟨0, (pt.buffers.headD []).length, text.length, 0, none⟩ ::
        qs1.drop j) := by
    rw [List.insertIdx_succ_cons, insertIdx_eq_take_cons_drop _ _ _ hjq]
  have hwfC : wfPieces pt.buffers (qs1.take j) := fun p hp2 =>
    hwf1 p (List.mem_cons_of_mem _ (List.mem_of_mem_take hp2))
  have hwfD : wfPieces pt.buffers (qs1.drop j) := fun p hp2 =>
    hwf1 p (List.mem_cons_of_mem _ (List.mem_of_mem_drop hp2))
  have hlenC : (flatTexts pt.buffers (qs1.take j)).length = sumL (qs1.take j) :=
    flatTexts_len_eq _ _ fun p hp2 => (hwfC p hp2).2
  have hwf2 : wfPieces (appendBuf0 pt.buffers text) (q :: (qs1.take j ++
      ⟨0, (pt.buffers.headD []).length, text.length, 0, none⟩ :: qs1.drop j)) := by
    intro p hp2
    simp only [List.mem_cons, List.mem_append] at hp2
    rcases hp2 with h | h | h | h
    · refine wf_ext pt.buffers text _ hwf1 p ?_
      rw [h]
      exact List.mem_cons_self _ _
    · exact wf_ext pt.buffers text _ hwfC p h
    · constructor
      · rw [h]
        exact hTpos
      · rw [h, textB_newpiece]
    · exact wf_ext pt.buffers text _ hwfD p h
  refine ⟨qs1.take j ++ ⟨0, (pt.buffers.headD []).length, text.length, 0, none⟩ ::
      qs1.drop j, qs1, slf, ?_, ?_, hwf2, ?_, ?_, ?_, ?_, ?_⟩
  · rw [heval]
    refine congrArg (fun x => (x, _)) ?_
    refine PT_ext _ _ rfl ?_ rfl
    show (q :: qs1).insertIdx (j + 1) _ = _
    rw [hinsx]
  · rw [flatTexts_append, flatTexts_cons]
    rw [flats_ext pt.buffers text _ hwfC, flats_ext pt.buffers text _ hwfD, textB_newpiece]
    rw [← hflat1]
    conv_rhs => rw [← List.take_append_drop j qs1]
    rw [flatTexts_append]
    rw [take_append_exact _ _ _ (by omega), drop_append_exact _ _ _ (by omega)]
    simp [List.append_assoc]
  · rw [sumL_append, sumL_cons]
    have hsp : sumL (qs1.take j) + sumL (qs1.drop j) = sumL qs1 := by
      rw [← sumL_append, List.take_append_drop]
    have hg : (⟨0, (pt.buffers.headD []).length, text.length, 0, none⟩ :
        NodePiece).length = text.length := rfl
    rw [hg]
    omega
  · intro h2
    obtain ⟨dc, diffs2, hdel⟩ := delete_exact_piece (appendBuf0 pt.buffers text) q
      (⟨0, (pt.buffers.headD []).length, text.length, 0, none⟩ : NodePiece)
      (qs1.take j) (qs1.drop j) h2 o hq1
      (fun p hp2 => (hwf2 p hp2).1)
      (by rw [sumL_cons, hq1]; exact hsumC)
      hTpos
    refine ⟨dc, diffs2, ?_⟩
    rw [hdel]
    rw [List.take_append_drop]
  · rw [flats_ext pt.buffers text qs1 (fun p h => hwf1 p (List.mem_cons_of_mem _ h))]
    exact hflat1
  · exact wf_ext pt.buffers text _ hwf1
  · exact hsum1

end PieceTreeSpec
namespace PieceTreeSpec

theorem ins_spec_coal (pt : PT) (o : Nat) (text : List Char) (q : NodePiece)
    (qs qs1 : List NodePiece) (j slf : Nat)
    (hp : pt.pieces = q :: qs) (hq1 : q.length = 1) (hqlf : q.lineFeedCnt ≠ 0)
    (hne : text ≠ []) (hnolf : '\n' ∉ text)
    (hland : pt.insertLand o = ({ pt with pieces := q :: qs1 }, some j, slf))
    (hjlt : j < (q :: qs1).length)
    (hsumtake : sumL ((q :: qs1).take (j + 1)) = o)
    (hflat1 : flatTexts pt.buffers qs1 = flatTexts pt.buffers qs)
    (hsum1 : sumL qs1 = sumL qs)
    (hwf1 : wfPieces pt.buffers (q :: qs1))
    (hcont : ((q :: qs1).getD j sentinelPiece).bufferIndex = 0 ∧
      (pt.buffers.headD []).length = ((q :: qs1).getD j sentinelPiece).start +
        ((q :: qs1).getD j sentinelPiece).length ∧
      ((q :: qs1).getD j sentinelPiece).lineFeedCnt = 0) :
    ∃ (qs2 qs3 : List NodePiece) (slf2 : Nat),
      pt.insertInner o text none =
        (⟨appendBuf0 pt.buffers text, q :: qs2,
          pt.history.push (.insert o (0, (pt.buffers.headD []).length, text.length) none
            [⟨DiffType.replace, slf2⟩])⟩,
         [⟨DiffType.replace, slf2⟩]) ∧
      flatTexts (appendBuf0 pt.buffers text) qs2 =
        (flatTexts pt.buffers qs).take (o - 1) ++ text ++
          (flatTexts pt.buffers qs).drop (o - 1) ∧
      wfPieces (appendBuf0 pt.buffers text) (q :: qs2) ∧
      sumL qs2 = sumL qs + text.length ∧
      (∀ h2 : ChangeStack, ∃ dc diffs2,
        PT.deleteInner ⟨appendBuf0 pt.buffers text, q :: qs2, h2⟩ o text.length =
          (⟨appendBuf0 pt.buffers text, q :: qs3, h2.push dc⟩, diffs2)) ∧
      flatTexts (appendBuf0 pt.buffers text) qs3 = flatTexts pt.buffers qs ∧
      wfPieces (appendBuf0 pt.buffers text) (q :: qs3) ∧
      sumL qs3 = sumL qs := by
  have hTpos : 1 ≤ text.length := by
    cases text with
    | nil => exact absurd rfl hne
    | cons a b => simp
  obtain ⟨j', rfl⟩ : ∃ j2, j = j2 + 1 := by
    cases j with
    | zero =>
      exfalso
      have : (q :: qs1).getD 0 sentinelPiece = q := rfl
      rw [this] at hcont
      exact hqlf hcont.2.2
    | succ j2 => exact ⟨j2, rfl⟩
  have hj'q : j' < qs1.length := by
    have := hjlt
    simp at this
    omega
  have hpjq : (q :: qs1).getD (j' + 1) sentinelPiece = qs1.getD j' sentinelPiece :=
    getD_cons_succ q qs1 j'
  rw [hpjq] at hcont
  have hwfpj := hwf1 (qs1.getD j' sentinelPiece)
    (List.mem_cons_of_mem _ (getD_mem _ _ _ hj'q))
  have hq1split := list_split_at qs1 j' sentinelPiece hj'q
  have htkA : (qs1.take j').length = j' := by
    rw [List.length_take]
    omega
  have hsumA : 1 + (sumL (qs1.take j') + (qs1.getD j' sentinelPiece).length) = o := by
    rw [List.take_succ_cons, sumL_cons, hq1] at hsumtake
    have htk1 : qs1.take (j' + 1) = qs1.take j' ++ [qs1.getD j' sentinelPiece] := by
      conv_lhs => rw [hq1split]
      rw [List.take_append_eq_append_take, List.take_of_length_le (by omega), htkA]
      rw [show j' + 1 - j' = 1 from by omega]
      rfl
    rw [htk1, sumL_append, sumL_cons, sumL_nil] at hsumtake
    omega
  have heval := insertInner_coalesce_full pt { pt with pieces := q :: qs1 } o text (j' + 1)
    slf (qs1.getD j' sentinelPiece) hland hpjq hcont.1 hcont.2.2 hcont.2.1 hne hnolf
  have hwfA : wfPieces pt.buffers (qs1.take j') := fun p hp2 =>
    hwf1 p (List.mem_cons_of_mem _ (List.mem_of_mem_take hp2))
  have hwfB : wfPieces pt.buffers (qs1.drop (j' + 1)) := fun p hp2 =>
    hwf1 p (List.mem_cons_of_mem _ (List.mem_of_mem_drop hp2))
  have hlenA : (flatTexts pt.buffers (qs1.take j')).length = sumL (qs1.take j') :=
    flatTexts_len_eq _ _ fun p hp2 => (hwfA p hp2).2
  have hset : (q :: qs1).set (j' + 1)
      { qs1.getD j' sentinelPiece with
        length := (qs1.getD j' sentinelPiece).length + text.length } =
      q :: (qs1.take j' ++
        { qs1.getD j' sentinelPiece with
          length := (qs1.getD j' sentinelPiece).length + text.length } ::
        qs1.drop (j' + 1)) := by
    rw [List.set_cons_succ]
    congr 1
    exact List.set_eq_take_cons_drop _ hj'q
  have htcoal := textB_coalesce pt.buffers text (qs1.getD j' sentinelPiece)
    hcont.1 hcont.2.1 hwfpj.2
  have hwf2 : wfPieces (appendBuf0 pt.buffers text) (q :: (qs1.take j' ++
      { qs1.getD j' sentinelPiece with
        length := (qs1.getD j' sentinelPiece).length + text.length } ::
      qs1.drop (j' + 1))) := by
    intro p hp2
    simp only [List.mem_cons, List.mem_append] at hp2
    rcases hp2 with h | h | h | h
    · refine wf_ext pt.buffers text _ hwf1 p ?_
      rw [h]
      exact List.mem_cons_self _ _
    · exact wf_ext pt.buffers text _ hwfA p h
    · constructor
      · rw [h]
        show 1 ≤ (qs1.getD j' sentinelPiece).length + text.length
        omega
      · rw [h, htcoal, List.length_append, hwfpj.2]
    · exact wf_ext pt.buffers text _ hwfB p h
  refine ⟨qs1.take j' ++
      { qs1.getD j' sentinelPiece with
        length := (qs1.getD j' sentinelPiece).length + text.length } ::
      qs1.drop (j' + 1),
    qs1.take j' ++
      (⟨(qs1.getD j' sentinelPiece).bufferIndex, (qs1.getD j' sentinelPiece).start,
        (qs1.getD j' sentinelPiece).length,
        computeLineFeedCnt ((((if ((qs1.getD j' sentinelPiece)).bufferIndex < 0 then []
          else (appendBuf0 pt.buffers text).getD
            ((qs1.getD j' sentinelPiece)).bufferIndex.toNat []).drop
          (qs1.getD j' sentinelPiece).start).take (qs1.getD j' sentinelPiece).length)),
        (qs1.getD j' sentinelPiece).meta⟩ : NodePiece) ::
      qs1.drop (j' + 1), slf, ?_, ?_, hwf2, ?_, ?_, ?_, ?_, ?_⟩
  · rw [heval]
    refine congrArg (fun x => (x, _)) ?_
    refine PT_ext _ _ rfl ?_ rfl
    show (q :: qs1).set (j' + 1) _ = _
    rw [hset]
  · rw [flatTexts_append, flatTexts_cons]
    rw [flats_ext pt.buffers text _ hwfA, flats_ext pt.buffers text _ hwfB, htcoal]
    rw [← hflat1]
    conv_rhs => rw [hq1split]
    rw [flatTexts_append, flatTexts_cons]
    rw [show flatTexts pt.buffers (qs1.take j') ++
        (textB pt.buffers (qs1.getD j' sentinelPiece) ++
          flatTexts pt.buffers (qs1.drop (j' + 1))) =
      (flatTexts pt.buffers (qs1.take j') ++
        textB pt.buffers (qs1.getD j' sentinelPiece)) ++
          flatTexts pt.buffers (qs1.drop (j' + 1)) from by simp [List.append_assoc]]
    rw [take_append_exact _ _ _ (by rw [List.length_append, hlenA, hwfpj.2]; omega),
      drop_append_exact _ _ _ (by rw [List.length_append, hlenA, hwfpj.2]; omega)]
    simp [List.append_assoc]
  · rw [sumL_append, sumL_cons]
    have hsp : sumL (qs1.take j') + ((qs1.getD j' sentinelPiece).length +
        sumL (qs1.drop (j' + 1))) = sumL qs1 := by
      conv_rhs => rw [hq1split]
      rw [sumL_append, sumL_cons]
    have hg : ({ qs1.getD j' sentinelPiece with
        length := (qs1.getD j' sentinelPiece).length + text.length } : NodePiece).length =
        (qs1.getD j' sentinelPiece).length + text.length := rfl
    rw [hg]
    omega
  · intro h2
    obtain ⟨dc, diffs2, hdel⟩ := delete_tail_of_piece (appendBuf0 pt.buffers text) q
      { qs1.getD j' sentinelPiece with
        length := (qs1.getD j' sentinelPiece).length + text.length }
      (qs1.take j') (qs1.drop (j' + 1)) h2 o (qs1.getD j' sentinelPiece).length
      text.length hq1
      (fun p2 hp2 => (hwf2 p2 hp2).1)
      (by rw [sumL_cons, hq1]; omega)
      rfl hwfpj.1 hTpos
    exact ⟨dc, diffs2, hdel⟩
  · rw [flatTexts_append, flatTexts_cons]
    have htb : textB (appendBuf0 pt.buffers text)
        (⟨(qs1.getD j' sentinelPiece).bufferIndex, (qs1.getD j' sentinelPiece).start,
          (qs1.getD j' sentinelPiece).length,
          computeLineFeedCnt ((((if ((qs1.getD j' sentinelPiece)).bufferIndex < 0 then []
            else (appendBuf0 pt.buffers text).getD
              ((qs1.getD j' sentinelPiece)).bufferIndex.toNat []).drop
            (qs1.getD j' sentinelPiece).start).take (qs1.getD j' sentinelPiece).length)),
          (qs1.getD j' sentinelPiece).meta⟩ : NodePiece) =
        textB pt.buffers (qs1.getD j' sentinelPiece) := by
      have : textB pt.buffers
          (⟨(qs1.getD j' sentinelPiece).bufferIndex, (qs1.getD j' sentinelPiece).start,
            (qs1.getD j' sentinelPiece).length,
            computeLineFeedCnt ((((if ((qs1.getD j' sentinelPiece)).bufferIndex < 0 then []
              else (appendBuf0 pt.buffers text).getD
                ((qs1.getD j' sentinelPiece)).bufferIndex.toNat []).drop
              (qs1.getD j' sentinelPiece).start).take (qs1.getD j' sentinelPiece).length)),
            (qs1.getD j' sentinelPiece).meta⟩ : NodePiece) =
          textB pt.buffers (qs1.getD j' sentinelPiece) := rfl
      rw [← this]
      refine textB_appendBuf0 pt.buffers text _ ?_
      rw [this]
      exact hwfpj.2
    rw [htb, flats_ext pt.buffers text _ hwfA, flats_ext pt.buffers text _ hwfB]
    rw [← hflat1]
    conv_rhs => rw [hq1split]
    rw [flatTexts_append, flatTexts_cons]
  · intro p2 hp2
    simp only [List.mem_cons, List.mem_append] at hp2
    rcases hp2 with h | h | h | h
    · refine wf_ext pt.buffers text _ hwf1 p2 ?_
      rw [h]
      exact List.mem_cons_self _ _
    · exact wf_ext pt.buffers text _ hwfA p2 h
    · constructor
      · rw [h]
        show 1 ≤ (qs1.getD j' sentinelPiece).length
        exact hwfpj.1
      · have htb2 : textB pt.buffers
            (⟨(qs1.getD j' sentinelPiece).bufferIndex, (qs1.getD j' sentinelPiece).start,
              (qs1.getD j' sentinelPiece).length,
              computeLineFeedCnt ((((if ((qs1.getD j' sentinelPiece)).bufferIndex < 0
                then [] else (appendBuf0 pt.buffers text).getD
                  ((qs1.getD j' sentinelPiece)).bufferIndex.toNat []).drop
                (qs1.getD j' sentinelPiece).start).take
                  (qs1.getD j' sentinelPiece).length)),
              (qs1.getD j' sentinelPiece).meta⟩ : NodePiece) =
            textB pt.buffers (qs1.getD j' sentinelPiece) := rfl
        rw [h, textB_appendBuf0 pt.buffers text _ (by rw [htb2]; exact hwfpj.2), htb2,
          hwfpj.2]
    · exact wf_ext pt.buffers text _ hwfB p2 h
  · have hsp : sumL (qs1.take j') + ((qs1.getD j' sentinelPiece).length +
        sumL (qs1.drop (j' + 1))) = sumL qs1 := by
      conv_rhs => rw [hq1split]
      rw [sumL_append, sumL_cons]
    rw [sumL_append, sumL_cons]
    have hg : (⟨(qs1.getD j' sentinelPiece).bufferIndex, (qs1.getD j' sentinelPiece).start,
        (qs1.getD j' sentinelPiece).length,
        computeLineFeedCnt ((((if ((qs1.getD j' sentinelPiece)).bufferIndex < 0 then []
          else (appendBuf0 pt.buffers text).getD
            ((qs1.getD j' sentinelPiece)).bufferIndex.toNat []).drop
          (qs1.getD j' sentinelPiece).start).take (qs1.getD j' sentinelPiece).length)),
        (qs1.getD j' sentinelPiece).meta⟩ : NodePiece).length =
        (qs1.getD j' sentinelPiece).length := rfl
    rw [hg]
    omega

end PieceTreeSpec
namespace PieceTreeSpec

theorem push_applying (cs : ChangeStack) (c : Change) (h : cs.applying = true) :
    cs.push c = cs := by
  simp [ChangeStack.push, h]

theorem getTextInBuffer_retrieve (bufs : List (List Char)) (t : List Char)
    (P : List NodePiece) (H : ChangeStack) :
    (⟨appendBuf0 bufs t, P, H⟩ : PT).getTextInBuffer (Int.ofNat 0)
      (bufs.headD []).length t.length = t := by
  rw [PT.getTextInBuffer, if_neg (by simp)]
  show (((⟨appendBuf0 bufs t, P, H⟩ : PT).bufAt (Int.ofNat 0)).drop
    (bufs.headD []).length).take t.length = t
  rw [PT.bufAt, if_neg (by simp)]
  show (((appendBuf0 bufs t).getD 0 []).drop (bufs.headD []).length).take t.length = t
  rw [getD_appendBuf0, if_pos rfl]
  rw [drop_append_exact _ _ _ rfl]
  exact List.take_of_length_le (le_refl _)

theorem ins_spec (pt : PT) (o : Nat) (text : List Char) (q : NodePiece)
    (qs : List NodePiece)
    (hp : pt.pieces = q :: qs) (hq1 : q.length = 1) (hqlf : q.lineFeedCnt ≠ 0)
    (hwf : wfPieces pt.buffers pt.pieces)
    (h1 : 1 ≤ o) (ho : o ≤ pt.size)
    (hne : text ≠ []) (hnolf : '\n' ∉ text) :
    ∃ (qs2 qs3 : List NodePiece) (slf2 : Nat),
      pt.insertInner o text none =
        (⟨appendBuf0 pt.buffers text, q :: qs2,
          pt.history.push (.insert o (0, (pt.buffers.headD []).length, text.length) none
            [⟨DiffType.replace, slf2⟩])⟩,
         [⟨DiffType.replace, slf2⟩]) ∧
      flatTexts (appendBuf0 pt.buffers text) qs2 =
        (flatTexts pt.buffers qs).take (o - 1) ++ text ++
          (flatTexts pt.buffers qs).drop (o - 1) ∧
      wfPieces (appendBuf0 pt.buffers text) (q :: qs2) ∧
      sumL qs2 = sumL qs + text.length ∧
      (∀ h2 : ChangeStack, ∃ dc diffs2,
        PT.deleteInner ⟨appendBuf0 pt.buffers text, q :: qs2, h2⟩ o text.length =
          (⟨appendBuf0 pt.buffers text, q :: qs3, h2.push dc⟩, diffs2)) ∧
      flatTexts (appendBuf0 pt.buffers text) qs3 = flatTexts pt.buffers qs ∧
      wfPieces (appendBuf0 pt.buffers text) (q :: qs3) ∧
      sumL qs3 = sumL qs := by
  obtain ⟨qs1, j, slf, hland, hjlt, hsumtake, hflat1, hsum1, hwf1⟩ :=
    insertLand_pos pt o q qs hp hq1 hwf h1 ho
  by_cases hcc : (((q :: qs1).getD j sentinelPiece).bufferIndex = 0 ∧
      (pt.buffers.headD []).length = ((q :: qs1).getD j sentinelPiece).start +
        ((q :: qs1).getD j sentinelPiece).length ∧
      ((q :: qs1).getD j sentinelPiece).lineFeedCnt = 0)
  · exact ins_spec_coal pt o text q qs qs1 j slf hp hq1 hqlf hne hnolf hland hjlt
      hsumtake hflat1 hsum1 hwf1 hcc
  · exact ins_spec_new pt o text q qs qs1 j slf hp hq1 hne hnolf hland hjlt
      hsumtake hflat1 hsum1 hwf1 hcc

end PieceTreeSpec

/-- C1 (amended): for a plain-text insert — non-empty, line-feed-free text, no
meta — on any engine state satisfying the structural invariants (leading
line-feed piece of length 1, every piece a real text slice of its buffer, no
open change group), `undo()` restores `get_text()` byte-for-byte (though not
necessarily `get_pieces()`, whose restoration the counterexample refutes), and
`redo()` after `undo()` re-yields the inserted state's `get_text()`; the
insert itself splices the text at the offset.  The spec's own example sequence
holds exactly: after `insert(0, "hello")`; `insert(5, " world")`, one `undo()`
gives `"hello"` (held by a single piece), a second gives `""`, and
`redo(); redo()` re-yields `"hello world"`. -/
theorem C1_undo_redo_amended (pt : PieceTreeSpec.PT) (offset : Nat) (text : List Char)
    (q : PieceTreeSpec.NodePiece) (qs : List PieceTreeSpec.NodePiece)
    (hp : pt.pieces = q :: qs) (hq1 : q.length = 1) (hqlf : q.lineFeedCnt ≠ 0)
    (hwf : wfPieces pt.buffers pt.pieces)
    (ho : offset + 1 ≤ pt.size)
    (hne : text ≠ []) (hnolf : '\n' ∉ text)
    (hpend : pt.history.pending = none) (happ : pt.history.applying = false) :
    (pt.insert offset text none).1.getText =
      pt.getText.take offset ++ text ++ pt.getText.drop offset ∧
    ((pt.insert offset text none).1.undo).1.getText = pt.getText ∧
    (((pt.insert offset text none).1.undo).1.redo).1.getText =
      (pt.insert offset text none).1.getText ∧
    (H2.undo).1.getText = "hello".toList ∧
    (H2.undo).1.getPieces = [("hello".toList, 5, none)] ∧
    ((H2.undo).1.undo).1.getText = [] ∧
    (((H2.undo).1.undo).1.redo).1.getText = "hello".toList ∧
    ((((H2.undo).1.undo).1.redo).1.redo).1.getText = "hello world".toList ∧
    ((((H2.undo).1.undo).1.redo).1.redo).1.getPieces =
      [("hello world".toList, 11, none)] := by
  obtain ⟨qs2, qs3, slf2, hres, htext2, hwf2, hsum2, hdel, hflat3, hwf3, hsum3⟩ :=
    ins_spec pt (offset + 1) text q qs hp hq1 hqlf hwf (by omega) ho hne hnolf
  set c : PieceTreeSpec.Change := .insert (offset + 1)
    (0, (pt.buffers.headD []).length, text.length) none
    [⟨PieceTreeSpec.DiffType.replace, slf2⟩] with hc
  have hzero : offset + 1 - 1 = offset := by omega
  rw [hzero] at htext2
  have hins : pt.insert offset text none = pt.insertInner (offset + 1) text none := rfl
  have hres1 : (pt.insert offset text none).1 =
      ⟨appendBuf0 pt.buffers text, q :: qs2, pt.history.push c⟩ := by
    rw [hins, hres]
  have hpush : pt.history.push c = { pt.history with
      undoStack := [c] :: pt.history.undoStack
      redoStack := [] } := by
    simp [PieceTreeSpec.ChangeStack.push, happ, hpend]
  have hgt_pt : pt.getText = flatTexts pt.buffers qs := by
    rw [getText_flat, hp]
    rfl
  have hgt1 : (pt.insert offset text none).1.getText =
      pt.getText.take offset ++ text ++ pt.getText.drop offset := by
    rw [hres1, getText_flat]
    show flatTexts (appendBuf0 pt.buffers text) qs2 = _
    rw [htext2, hgt_pt]
  obtain ⟨dc, diffs2, hdelA⟩ :=
    hdel ⟨pt.history.undoStack, [], pt.history.pending, true⟩
  have hpushA : (⟨pt.history.undoStack, [], pt.history.pending, true⟩ :
      PieceTreeSpec.ChangeStack).push dc =
      ⟨pt.history.undoStack, [], pt.history.pending, true⟩ := push_applying _ _ rfl
  rw [hpushA] at hdelA
  have hundo : ((pt.insert offset text none).1.undo).1 =
      ⟨appendBuf0 pt.buffers text, q :: qs3,
        ⟨pt.history.undoStack, [[c]], pt.history.pending, false⟩⟩ := by
    rw [hres1, hpush, hc]
    simp only [PT.undo, List.reverse_cons, List.reverse_nil, List.nil_append,
      List.foldl_cons, List.foldl_nil, PT.doUndo]
    rw [hdelA]
  have hgt_undo : ((pt.insert offset text none).1.undo).1.getText = pt.getText := by
    rw [hundo, getText_flat]
    show flatTexts (appendBuf0 pt.buffers text) qs3 = _
    rw [hflat3, hgt_pt]
  have hsz3 : (⟨appendBuf0 pt.buffers text, q :: qs3,
      (⟨pt.history.undoStack, [], pt.history.pending, true⟩ :
        PieceTreeSpec.ChangeStack)⟩ : PieceTreeSpec.PT).size = pt.size := by
    rw [size_eq_sumL, size_eq_sumL, hp]
    show sumL (q :: qs3) = sumL (q :: qs)
    rw [sumL_cons, sumL_cons, hsum3]
  obtain ⟨qs4, qs5, slf4, hres4, htext4, hwf4, hsum4, hdel4, hflat5, hwf5, hsum5⟩ :=
    ins_spec (⟨appendBuf0 pt.buffers text, q :: qs3,
        ⟨pt.history.undoStack, [], pt.history.pending, true⟩⟩ : PieceTreeSpec.PT)
      (offset + 1) text q qs3 rfl hq1 hqlf hwf3 (by omega) (by rw [hsz3]; exact ho)
      hne hnolf
  rw [hzero] at htext4
  have hretr : (⟨appendBuf0 pt.buffers text, q :: qs3,
      (⟨pt.history.undoStack, [], pt.history.pending, true⟩ :
        PieceTreeSpec.ChangeStack)⟩ : PieceTreeSpec.PT).getTextInBuffer (Int.ofNat 0)
      (pt.buffers.headD []).length text.length = text :=
    getTextInBuffer_retrieve pt.buffers text (q :: qs3) _
  have hredo : (((pt.insert offset text none).1.undo).1.redo).1 =
      ⟨appendBuf0 (appendBuf0 pt.buffers text) text, q :: qs4,
        ⟨[c] :: pt.history.undoStack,
          ((⟨appendBuf0 pt.buffers text, q :: qs3,
            ⟨pt.history.undoStack, [], pt.history.pending, true⟩⟩ :
              PieceTreeSpec.PT).history.push
            (.insert (offset + 1)
              (0, ((appendBuf0 pt.buffers text).headD []).length, text.length) none
              [⟨PieceTreeSpec.DiffType.replace, slf4⟩])).redoStack,
          pt.history.pending, false⟩⟩ := by
    rw [hundo]
    simp only [PT.redo, List.foldl_cons, List.foldl_nil, PT.doRedo]
    rw [hc]
    simp only [hretr]
    rw [hres4]
    rfl
  refine ⟨hgt1, hgt_undo, ?_, by decide, by decide, by decide, by decide, by decide,
    by decide⟩
  rw [hredo, getText_flat]
  show flatTexts (appendBuf0 (appendBuf0 pt.buffers text) text) qs4 = _
  rw [htext4]
  show (flatTexts (appendBuf0 pt.buffers text) qs3).take offset ++ text ++
    (flatTexts (appendBuf0 pt.buffers text) qs3).drop offset = _
  rw [hflat3, hgt1, hgt_pt]

/-- Witness for the amended C1: concrete run at `X1` (fresh tree holding
`"ab"`), `insert(1, "X")` — a splitting insert — followed by undo and redo;
all hypotheses discharged by `decide`. -/
theorem C1_witness :
    (X1.insert 1 ['X'] none).1.getText =
      X1.getText.take 1 ++ ['X'] ++ X1.getText.drop 1 ∧
    ((X1.insert 1 ['X'] none).1.undo).1.getText = X1.getText ∧
    (((X1.insert 1 ['X'] none).1.undo).1.redo).1.getText =
      (X1.insert 1 ['X'] none).1.getText ∧
    (H2.undo).1.getText = "hello".toList ∧
    (H2.undo).1.getPieces = [("hello".toList, 5, none)] ∧
    ((H2.undo).1.undo).1.getText = [] ∧
    (((H2.undo).1.undo).1.redo).1.getText = "hello".toList ∧
    ((((H2.undo).1.undo).1.redo).1.redo).1.getText = "hello world".toList ∧
    ((((H2.undo).1.undo).1.redo).1.redo).1.getPieces =
      [("hello world".toList, 11, none)] :=
  C1_undo_redo_amended X1 1 ['X'] ⟨0, 0, 1, 1, none⟩ [⟨0, 1, 2, 0, none⟩]
    (by decide) (by decide) (by decide)
    (by show ∀ p ∈ X1.pieces, 1 ≤ p.length ∧ (textB X1.buffers p).length = p.length
        decide)
    (by decide) (by decide) (by decide) (by decide) (by decide)
